import Mathlib

/-!
Verification of the danos/encoding RFC 7951 data library (Go package
`data`).

This development embeds the core data model of the library — Value,
Object, Array, InstanceID, Tree, the diff/edit engine and the RFC 7951
leaf codec — as executable Lean definitions, translated from the Go
sources, and settles the specification's claims against them.

Modelling conventions:
- Go strings are modelled as `List Char` (`GoStr`); the relevant Go code
  iterates strings rune-wise, so character indices replace byte indices.
- Go `panic` paths are modelled as `Except`/`Option` error results.
- Functions are written by structural (mutual) recursion, with explicit
  fuel where the Go recursion is not structural, so that every
  definition evaluates inside the kernel.
-/

namespace Data

/-- Go strings, modelled as lists of characters. -/
abbrev GoStr := List Char

/-- Shorthand turning a Lean string literal into a modelled Go string. -/
def gs (s : String) : GoStr := s.toList

/-! ### Decimal formatting and parsing, modelling Go strconv -/

/-- Decimal digit character for a value below ten. -/
def digitChar (n : Nat) : Char := Char.ofNat (48 + n)

/-- Fueled core of decimal rendering (structural recursion on fuel so
that it evaluates in the kernel). -/
def natDecCore : Nat → Nat → GoStr
  | 0, _ => []
  | fuel + 1, n =>
    if n < 10 then [digitChar n]
    else natDecCore fuel (n / 10) ++ [digitChar (n % 10)]

/-- Decimal rendering of a natural number, modelling Go
strconv.FormatUint with base 10. -/
def natDec (n : Nat) : GoStr := natDecCore (n + 1) n

/-- Decimal rendering of an integer, modelling Go strconv.FormatInt
with base 10. -/
def intDec (i : Int) : GoStr :=
  if i < 0 then '-' :: natDec i.natAbs else natDec i.natAbs

/-- Value of a decimal digit character. -/
def digitVal? (c : Char) : Option Nat :=
  if '0' ≤ c ∧ c ≤ '9' then some (c.toNat - 48) else none

/-- Parse an all-digits decimal string; `none` on empty input or any
non-digit character. -/
def decNat? (s : GoStr) : Option Nat :=
  match s with
  | [] => none
  | _ =>
    s.foldl (fun acc c =>
      match acc, digitVal? c with
      | some n, some d => some (n * 10 + d)
      | _, _ => none) (some 0)

/-- Go strconv.ParseUint with base 10 and the given bit size: digits
only (no sign accepted), and the value must fit the bit size. -/
def goParseUint (bits : Nat) (s : GoStr) : Option Nat :=
  match decNat? s with
  | some n => if n < 2 ^ bits then some n else none
  | none => none

/-- Go strconv.ParseInt with base 10 and the given bit size: an
optional single leading sign, then digits; the value must lie in the
signed range of the bit size. -/
def goParseInt (bits : Nat) (s : GoStr) : Option Int :=
  match s with
  | '-' :: rest =>
    match decNat? rest with
    | some n =>
      if (n : Int) ≤ 2 ^ (bits - 1) then some (-(n : Int)) else none
    | none => none
  | '+' :: rest =>
    match decNat? rest with
    | some n => if (n : Int) < 2 ^ (bits - 1) then some (n : Int) else none
    | none => none
  | _ =>
    match decNat? s with
    | some n => if (n : Int) < 2 ^ (bits - 1) then some (n : Int) else none
    | none => none

/-! ### Small string helpers, modelling the Go strings package -/

/-- Whitespace cutset `" \t"` used by the instance-identifier parser
(constant `wsp` in the source). -/
def wsp : GoStr := [' ', Char.ofNat 9]

/-- Drop the leading characters that belong to the cutset. -/
def dropLeadCut (cut : GoStr) (s : GoStr) : GoStr :=
  s.dropWhile (fun c => cut.contains c)

/-- Go strings.Trim: remove all leading and trailing characters that
belong to the cutset. -/
def trimCut (cut : GoStr) (s : GoStr) : GoStr :=
  ((dropLeadCut cut s).reverse.dropWhile (fun c => cut.contains c)).reverse

/-- Go strings.SplitN with count 2: the part before the first
separator, and — when a separator occurs — the rest after it. -/
def splitN2 (sep : Char) : GoStr → GoStr × Option GoStr
  | [] => ([], none)
  | c :: rest =>
    if c = sep then ([], some rest)
    else
      let (a, b) := splitN2 sep rest
      (c :: a, b)

/-- Index of the first occurrence of a character, modelling Go
strings.IndexRune (except that the failure case is an option rather
than -1). -/
def idxOfChar? (t : Char) : GoStr → Option Nat
  | [] => none
  | c :: rest =>
    if c = t then some 0
    else (idxOfChar? t rest).map (· + 1)

/-- Uppercasing for the case-insensitive `xml` check; the comparison
target is pure ASCII, so only ASCII letters are mapped (Go's
strings.ToUpper agrees on every character that can compare equal to
`X`, `M` or `L`). -/
def asciiUpper (c : Char) : Char :=
  if 'a' ≤ c ∧ c ≤ 'z' then Char.ofNat (c.toNat - 32) else c

/-- Character class check modelling Go unicode.IsLetter, restricted to
ASCII and the Latin-1 supplement; letters above U+00FF are not
modelled (every quantified theorem below restricts itself to ASCII
data, and the concrete counterexamples stay within Latin-1). -/
def goIsLetter (c : Char) : Bool :=
  ('A' ≤ c ∧ c ≤ 'Z') ∨ ('a' ≤ c ∧ c ≤ 'z') ∨
    c.toNat = 0xAA ∨ c.toNat = 0xB5 ∨ c.toNat = 0xBA ∨
    (0xC0 ≤ c.toNat ∧ c.toNat ≤ 0xFF ∧ c.toNat ≠ 0xD7 ∧ c.toNat ≠ 0xF7)

/-- Character class check modelling Go unicode.IsDigit, restricted to
ASCII (no decimal digits exist in Latin-1 above ASCII). -/
def goIsDigit (c : Char) : Bool := '0' ≤ c ∧ c ≤ '9'

/-! ### Instance identifiers: data model

The Go `InstanceID` is a list of `nodeID`s; each node identifier has a
prefix, an identifier, a prefix-inferred flag and an optional list of
predicates.  A predicate is either positional or an expression
`key='value'` whose key is itself a node identifier. -/

mutual
inductive Pred : Type where
  | pos (n : Nat)
  | expr (key : nodeID) (value : GoStr)
  deriving Repr

inductive nodeID : Type where
  | mk (pfx : GoStr) (ident : GoStr) (pfxInferred : Bool)
      (predicates : Option (List Pred))
  deriving Repr
end

/-- Prefix of a node identifier. -/
def nodeID.pfx : nodeID → GoStr
  | .mk p _ _ _ => p

/-- Identifier (local name) of a node identifier. -/
def nodeID.ident : nodeID → GoStr
  | .mk _ i _ _ => i

/-- Whether the prefix was inferred rather than written explicitly. -/
def nodeID.pfxInferred : nodeID → Bool
  | .mk _ _ b _ => b

/-- Predicates attached to a node identifier (`nil` in Go is `none`). -/
def nodeID.predicates : nodeID → Option (List Pred)
  | .mk _ _ _ p => p

/-- Instance identifier: a parsed RFC 7951 §6.11 path. -/
structure InstanceID : Type where
  ids : List nodeID
  deriving Repr

/-! ### Instance identifiers: canonical printing (the String methods) -/

mutual
/-- String form of one node identifier: the prefix is printed only when
it is nonempty and not inferred (method nodeID.String). -/
def nodeID.toStr : nodeID → GoStr
  | .mk p i inf preds =>
    if p ≠ [] ∧ inf = false then p ++ ':' :: i ++ predsToStr preds
    else i ++ predsToStr preds
termination_by structural n => n

/-- String form of an optional predicate list (method
predicates.String). -/
def predsToStr : Option (List Pred) → GoStr
  | none => []
  | some l => predListToStr l
termination_by structural p => p

/-- Concatenation of bracketed predicate strings. -/
def predListToStr : List Pred → GoStr
  | [] => []
  | p :: rest => '[' :: predToStr p ++ ']' :: predListToStr rest
termination_by structural l => l

/-- String form of one predicate selector (methods posPredicate.String
and exprPredicate.String; expression values are always single-quoted). -/
def predToStr : Pred → GoStr
  | .pos n => natDec n
  | .expr key value => key.toStr ++ '=' :: '\'' :: value ++ ['\'']
termination_by structural p => p
end

/-- Canonical string of an instance identifier (method
InstanceID.String): "/" followed by the node strings joined with "/". -/
def InstanceID.toStr (i : InstanceID) : GoStr :=
  '/' :: List.intercalate ['/'] (i.ids.map nodeID.toStr)

/-! ### Instance identifiers: the recursive-descent parser

Errors are `Except` values carrying the Go panic message; the
`parse` wrapper prepends "invalid instance identifier: " like the
deferred recover in the source. -/

/-- Split the input at every unquoted '/' (function getNodeIDStrings).
Single- and double-quoted stretches are respected; a final unmatched
quote is a fatal error.  Pieces are slices of the input, so quote
characters stay inside the pieces. -/
def getNodeIDStrings (input : GoStr) : Except GoStr (List GoStr) :=
  go input false false [] []
where
  go : GoStr → Bool → Bool → GoStr → List GoStr → Except GoStr (List GoStr)
  | [], inS, inD, cur, acc =>
    let acc := if cur.isEmpty then acc else acc ++ [cur]
    if inD || inS then .error (gs "unterminated quote") else .ok acc
  | c :: rest, inS, inD, cur, acc =>
    if c = '\'' then go rest (!inS) inD (cur ++ [c]) acc
    else if c = '"' then go rest inS (!inD) (cur ++ [c]) acc
    else if c = '/' then
      if !inD && !inS then go rest inS inD [] (acc ++ [cur])
      else go rest inS inD (cur ++ [c]) acc
    else go rest inS inD (cur ++ [c]) acc

/-- Split a predicate section into bracketed units (function
predicates.getPredicateStrings).  Nested unquoted '[' is fatal, as are
unterminated quotes and an unterminated predicate. -/
def getPredicateStrings (input : GoStr) : Except GoStr (List GoStr) :=
  go input false false false [] []
where
  go : GoStr → Bool → Bool → Bool → GoStr → List GoStr →
      Except GoStr (List GoStr)
  | [], inS, inD, inPred, _, acc =>
    if inD || inS then .error (gs "unterminated quote")
    else if inPred then .error (gs "unterminated predicate")
    else .ok acc
  | c :: rest, inS, inD, inPred, cur, acc =>
    if c = '[' then
      if !inD && !inS then
        if inPred then .error (gs "nested predicates are not allowed")
        else go rest inS inD true (cur ++ [c]) acc
      else go rest inS inD inPred (cur ++ [c]) acc
    else if c = ']' then
      if !inD && !inS then go rest inS inD false [] (acc ++ [cur ++ [c]])
      else go rest inS inD inPred (cur ++ [c]) acc
    else if c = '\'' then go rest (!inS) inD inPred (cur ++ [c]) acc
    else if c = '"' then go rest inS (!inD) inPred (cur ++ [c]) acc
    else go rest inS inD inPred (cur ++ [c]) acc

/-- Identifier validation (method nodeID.checkIDPart): rejects a
leading case-insensitive "xml", a first character that is neither a
letter nor '_', and any later character that is not a letter, digit,
'_', '-' or '.'. -/
def checkIDPart (s : GoStr) : Except GoStr Unit :=
  if s.length ≥ 3 ∧ (s.take 3).map asciiUpper = gs "XML" then
    .error (gs "invalid identifier, not allowed to start with xml: " ++ s)
  else
    go s s true
where
  go : GoStr → GoStr → Bool → Except GoStr Unit
  | _, [], _ => .ok ()
  | s, c :: rest, isFirst =>
    if isFirst then
      if c = '_' ∨ goIsLetter c then go s rest false
      else .error (gs "invalid node-identifier " ++ s)
    else
      if goIsLetter c ∨ goIsDigit c ∨ c = '_' ∨ c = '-' ∨ c = '.' then
        go s rest false
      else .error (gs "invalid node-identifier " ++ s)

/-! ### Instance identifiers: the fueled parser core

`nodeID.parse` recurses through `predicates.parse`, `predicate.parse`
and `exprPredicate.parse` back into `nodeID.parse` (an expression
predicate's key is a node identifier).  Explicit fuel, decremented at
every stage, makes the mutual recursion structural; the wrapper hands
each call more fuel than any input can consume. -/

mutual
/-- Method nodeID.parse: split off an explicit prefix at the first
':', fall back to (and mark) the inherited prefix otherwise, validate
the prefix, split off and parse a predicate section starting at the
first '[', and validate the remaining identifier. -/
def parseNodeF : Nat → GoStr → GoStr → Except GoStr nodeID
  | 0, _, _ => .error (gs "parser fuel exhausted")
  | fuel + 1, pfx, input => do
    let (part0, rest?) := splitN2 ':' input
    let (pfx', ident0, inferred) ←
      match rest? with
      | none =>
        if pfx ≠ [] then pure (pfx, input, true)
        else .error (gs "unable to determine prefix")
      | some rest => pure (part0, rest, part0 == pfx)
    checkIDPart pfx'
    let node ←
      if ident0.contains '[' then do
        let predsStart := (idxOfChar? '[' ident0).getD 0
        let preds ← parsePredsF fuel pfx' (ident0.drop predsStart)
        pure (nodeID.mk pfx' (ident0.take predsStart) inferred (some preds))
      else
        pure (nodeID.mk pfx' ident0 inferred none)
    checkIDPart node.ident
    pure node

/-- Method predicates.parse: split the section into bracketed units
and parse each one. -/
def parsePredsF : Nat → GoStr → GoStr → Except GoStr (List Pred)
  | 0, _, _ => .error (gs "parser fuel exhausted")
  | fuel + 1, pfx, input => do
    let pieces ← getPredicateStrings input
    pieces.mapM (parsePredF fuel pfx)

/-- Method predicate.parse: check the brackets, strip brackets and
whitespace, and parse as a positional predicate when the content is an
unsigned integer, as an expression predicate otherwise. -/
def parsePredF : Nat → GoStr → GoStr → Except GoStr Pred
  | 0, _, _ => .error (gs "parser fuel exhausted")
  | fuel + 1, pfx, piece =>
    match piece.head?, piece.getLast? with
    | some h, some l =>
      if h = '[' ∧ l = ']' then
        let t := trimCut wsp (trimCut (gs "[]") piece)
        match goParseUint 64 t with
        | some n => .ok (.pos n)
        | none => parseExprF fuel pfx t
      else .error (gs "invalid predicate \"" ++ piece ++ gs "\"")
    | _, _ => .error (gs "invalid predicate \"" ++ piece ++ gs "\"")

/-- Method exprPredicate.parse: split at the first '=', trim both
sides, parse the key (a bare "." stands for the leaf-list form), and
read the same-quote-delimited value. -/
def parseExprF : Nat → GoStr → GoStr → Except GoStr Pred
  | 0, _, _ => .error (gs "parser fuel exhausted")
  | fuel + 1, pfx, input => do
    let (part0raw, rest?) := splitN2 '=' input
    match rest? with
    | none => .error (gs "invalid predicate expression " ++ input)
    | some restRaw =>
      let part0 := trimCut wsp part0raw
      let part1 := trimCut wsp restRaw
      let key ←
        if part0 = gs "." then pure (nodeID.mk pfx (gs ".") true none)
        else parseNodeF fuel pfx part0
      match part1 with
      | [] => .error (gs "runtime error: index out of range")
      | q :: vrest =>
        if q = '"' ∨ q = '\'' then
          match idxOfChar? q vrest with
          | none =>
            if vrest.isEmpty then
              .error (gs "runtime error: slice bounds out of range")
            else .error (gs "unterminated expression value")
          | some e =>
            if e = vrest.length - 1 then .ok (.expr key (vrest.take e))
            else .error (gs "unterminated expression value")
        else .error (gs "invalid predicate, expected ''' or '\"'")
end

/-- Fuel-supplying wrapper for nodeID.parse. -/
def nodeIDParse (pfx input : GoStr) : Except GoStr nodeID :=
  parseNodeF (4 * input.length + 8) pfx input

/-- Sequential parse of the path segments, threading each node's
(possibly inferred) prefix to the next segment. -/
def parseSegs : GoStr → List GoStr → Except GoStr (List nodeID)
  | _, [] => .ok []
  | prevPfx, s :: rest => do
    let node ← nodeIDParse prevPfx s
    let tail ← parseSegs node.pfx rest
    .ok (node :: tail)

/-- Function InstanceIDNew / method InstanceID.parse: split the input
at unquoted '/', require a leading '/', then at least one segment, and
parse the segments in order.  Any failure aborts the whole parse with
the message wrapped as in the source's deferred recover. -/
def InstanceIDNew (input : GoStr) : Except GoStr InstanceID :=
  match core with
  | .ok i => .ok i
  | .error e => .error (gs "invalid instance identifier: " ++ e)
where
  core : Except GoStr InstanceID := do
    let pieces ← getNodeIDStrings input
    match pieces with
    | [] => .error (gs "must specify at least one node-identifier")
    | p0 :: rest =>
      if p0 ≠ [] then .error (gs "must start with a \"/\"")
      else if rest.isEmpty then
        .error (gs "must specify at least one node-identifier")
      else do
        let ids ← parseSegs [] rest
        .ok ⟨ids⟩

/-! ### The Value data model

A Go `Value` holds one of: nil, bool, the Empty sentinel, int32,
uint32, int64, uint64, float64, string, `*InstanceID`, `*Object` or
`*Array`.  Objects map fully-qualified keys to values and carry a
module name; arrays are vectors of values with a module name.  An
array slot can also hold a raw (untyped) Go nil — the padding value of
`Array.Assoc` — modelled as `none`.

float64 values are modelled by their shortest-decimal rendering (the
output of Go strconv.FormatFloat(f, 'f', -1, 64)); no claim computes
with float arithmetic. -/

mutual
inductive Value : Type where
  | vnull
  | vbool (b : Bool)
  | vempty
  | vi32 (n : Int)
  | vu32 (n : Nat)
  | vi64 (n : Int)
  | vu64 (n : Nat)
  | vf64 (repr : GoStr)
  | vstr (s : GoStr)
  | viid (i : InstanceID)
  | vobj (o : Object)
  | varr (a : Array)
  deriving Repr

inductive Object : Type where
  | mk (module : GoStr) (entries : List (GoStr × Value))
  deriving Repr

inductive Array : Type where
  | mk (module : GoStr) (elems : List (Option Value))
  deriving Repr
end

/-- Module name of an object. -/
def Object.module : Object → GoStr
  | .mk m _ => m

/-- Key/value entries of an object (the persistent hash map, modelled
as an association list in iteration order). -/
def Object.entries : Object → List (GoStr × Value)
  | .mk _ e => e

/-- Module name of an array. -/
def Array.module : Array → GoStr
  | .mk m _ => m

/-- Element slots of an array (`none` is a raw Go nil slot). -/
def Array.elems : Array → List (Option Value)
  | .mk _ e => e

/-- Lookup in an association list by key. -/
def lookupKey (k : GoStr) : List (GoStr × Value) → Option Value
  | [] => none
  | (k', v) :: rest => if k' = k then some v else lookupKey k rest

/-- Replace the binding of a key, or append it when absent (the
hash-map Assoc operation on the association-list model). -/
def listAssocKV (k : GoStr) (v : Value) : List (GoStr × Value) →
    List (GoStr × Value)
  | [] => [(k, v)]
  | (k', v') :: rest =>
    if k' = k then (k, v) :: rest else (k', v') :: listAssocKV k v rest

/-- Remove the binding of a key if present. -/
def listDeleteKey (k : GoStr) : List (GoStr × Value) → List (GoStr × Value)
  | [] => []
  | (k', v') :: rest =>
    if k' = k then rest else (k', v') :: listDeleteKey k rest

/-- Replace the element at an index of a list (in-range only). -/
def listSet {α : Type} (l : List α) (i : Nat) (x : α) : List α :=
  match l, i with
  | [], _ => []
  | _ :: rest, 0 => x :: rest
  | y :: rest, n + 1 => y :: listSet rest n x

/-! ### Equality (Go dyn.Equal over the data model)

Object equality requires equal modules, equal sizes and an equal
key-to-value mapping — it is insensitive to iteration order.  Array
equality is pointwise.  InstanceIDs compare by canonical string.
The Empty sentinel equals only itself. -/

mutual
/-- Go equality on values (dyn.Equal dispatching to the Equal
methods). -/
def vequal : Value → Value → Bool
  | .vnull, .vnull => true
  | .vbool a, .vbool b => a == b
  | .vempty, .vempty => true
  | .vi32 a, .vi32 b => a == b
  | .vu32 a, .vu32 b => a == b
  | .vi64 a, .vi64 b => a == b
  | .vu64 a, .vu64 b => a == b
  | .vf64 a, .vf64 b => a == b
  | .vstr a, .vstr b => a == b
  | .viid a, .viid b => a.toStr == b.toStr
  | .vobj a, .vobj b => oequal a b
  | .varr a, .varr b => aequal a b
  | _, _ => false
termination_by structural a => a

/-- Go equality on objects (method Object.Equal). -/
def oequal : Object → Object → Bool
  | .mk m1 e1, .mk m2 e2 =>
    m1 == m2 && e1.length == e2.length && entriesIncl e1 e2
termination_by structural a => a

/-- Every binding of the first list maps to an equal value in the
second. -/
def entriesIncl : List (GoStr × Value) → List (GoStr × Value) → Bool
  | [], _ => true
  | (k, v) :: rest, e2 =>
    (match lookupKey k e2 with
     | some v2 => vequal v v2
     | none => false) && entriesIncl rest e2
termination_by structural l => l

/-- Go equality on arrays (method Array.Equal). -/
def aequal : Array → Array → Bool
  | .mk m1 l1, .mk m2 l2 =>
    m1 == m2 && l1.length == l2.length && elemsEq l1 l2
termination_by structural a => a

/-- Pointwise equality of element-slot lists. -/
def elemsEq : List (Option Value) → List (Option Value) → Bool
  | [], [] => true
  | some a :: r1, some b :: r2 => vequal a b && elemsEq r1 r2
  | none :: r1, none :: r2 => elemsEq r1 r2
  | _, _ => false
termination_by structural l => l
end

/-! ### Key normalization and module reparenting -/

/-- Method Object.parseKey: split a key at the first ':' into module
and local part; a bare key inherits the given container module. -/
def parseKey (module k : GoStr) : GoStr × GoStr :=
  match splitN2 ':' k with
  | (a, none) => (module, a)
  | (a, some b) => (a, b)

/-- Method Object.adaptKey: qualified form of a key relative to a
container module (bare exactly when the module part is empty). -/
def adaptKeyM (module k : GoStr) : GoStr :=
  let (m, key) := parseKey module k
  if m = [] then key else m ++ ':' :: key

mutual
/-- Method Value.belongsTo: reparent a container value to a module;
non-container values are returned unchanged. -/
def Value.belongsTo : Value → GoStr → Value
  | .vobj o, m => Object.belongsToV o m
  | .varr a, m => Array.belongsToV a m
  | v, _ => v
termination_by structural v => v

/-- Method Object.belongsTo: when the module differs, rewrite the
object to the new module, re-keying (and recursively reparenting) every
entry whose key module was empty or equal to the old module. -/
def Object.belongsToV : Object → GoStr → Value
  | .mk om oe, m =>
    if m == om then .vobj (.mk om oe)
    else .vobj (.mk m (belongsToFold om m oe oe))
termination_by structural o => o

/-- The entry rewrite of Object.belongsTo: iterate the old entries; for
each entry in the old or empty module, insert it under the new
qualified key (with the value reparented) and delete the old qualified
key. -/
def belongsToFold (oldMod newMod : GoStr) :
    List (GoStr × Value) → List (GoStr × Value) → List (GoStr × Value)
  | [], acc => acc
  | (key, val) :: rest, acc =>
    let km := (parseKey oldMod key).1
    if km = [] ∨ km = oldMod then
      let newKey := adaptKeyM newMod key
      let newVal := val.belongsTo (parseKey newMod key).1
      belongsToFold oldMod newMod rest
        (listDeleteKey (adaptKeyM oldMod key) (listAssocKV newKey newVal acc))
    else belongsToFold oldMod newMod rest acc
termination_by structural l => l

/-- Method Array.belongsTo: when the module differs, retag the array
and reparent every element. -/
def Array.belongsToV : Array → GoStr → Value
  | .mk am ae, m =>
    if m == am then .varr (.mk am ae)
    else .varr (.mk m (belongsToElems m ae))
termination_by structural a => a

/-- Element reparenting for Array.belongsTo. -/
def belongsToElems (m : GoStr) : List (Option Value) → List (Option Value)
  | [] => []
  | some v :: rest => some (v.belongsTo m) :: belongsToElems m rest
  | none :: rest => none :: belongsToElems m rest
termination_by structural l => l
end

/-! ### Object operations -/

/-- Method Object.At: value at a (bare or qualified) key, or none. -/
def Object.At (o : Object) (k : GoStr) : Option Value :=
  lookupKey (adaptKeyM o.module k) o.entries

/-- Method Object.Contains. -/
def Object.Contains (o : Object) (k : GoStr) : Bool :=
  (o.At k).isSome

/-- Method Object.adaptValue: qualified key plus the value reparented
to the key's module. -/
def Object.adaptValue (o : Object) (k : GoStr) (v : Value) : GoStr × Value :=
  (adaptKeyM o.module k, v.belongsTo (parseKey o.module k).1)

/-- Method Object.Assoc (with an already built Value argument;
ValueNew of a *Value is the identity). -/
def Object.Assoc (o : Object) (k : GoStr) (v : Value) : Object :=
  let (k', v') := o.adaptValue k v
  .mk o.module (listAssocKV k' v' o.entries)

/-- Method Object.Delete. -/
def Object.Delete (o : Object) (k : GoStr) : Object :=
  .mk o.module (listDeleteKey (adaptKeyM o.module k) o.entries)

/-- Method Object.Length. -/
def Object.Length (o : Object) : Nat := o.entries.length

/-! ### Array operations -/

/-- Method Array.Length. -/
def Array.Length (a : Array) : Nat := a.elems.length

/-- Method Array.Contains: whether an index is in bounds. -/
def Array.ContainsI (a : Array) (i : Int) : Bool :=
  0 ≤ i ∧ i < (a.Length : Int)

/-- Method Array.At: nil for an out-of-bounds index; reading an
in-bounds raw-nil slot is the interface-conversion panic of the
`.(*Value)` assertion. -/
def Array.AtI (a : Array) (i : Int) : Except GoStr (Option Value) :=
  if 0 ≤ i ∧ i < (a.Length : Int) then
    match a.elems.get? i.toNat with
    | some (some v) => .ok (some v)
    | some none => .error (gs "interface conversion: interface is nil, not *Value")
    | none => .ok none
  else .ok none

/-- Method Array.adaptValue. -/
def Array.adaptValue (a : Array) (v : Value) : Value :=
  v.belongsTo a.module

/-- Method Array.Assoc: pad with raw nil slots when the index is at or
past the end, then set the index to the adapted value.  A negative
index is a panic in the underlying vector. -/
def Array.AssocI (a : Array) (i : Int) (v : Value) : Except GoStr Array :=
  if i < 0 then .error (gs "index out of range")
  else
    let n := i.toNat
    let padded :=
      if a.Length ≤ n then a.elems ++ List.replicate (n + 1 - a.Length) none
      else a.elems
    .ok (.mk a.module (listSet padded n (some (a.adaptValue v))))

/-- Method Array.Append. -/
def Array.Append (a : Array) (v : Value) : Array :=
  .mk a.module (a.elems ++ [some (a.adaptValue v)])

/-- Method Array.Delete; an out-of-range deletion returns the array
unchanged (behavior of the underlying persistent vector, as stated by
the specification). -/
def Array.DeleteI (a : Array) (i : Int) : Array :=
  if 0 ≤ i ∧ i < (a.Length : Int) then
    .mk a.module (a.elems.take i.toNat ++ a.elems.drop (i.toNat + 1))
  else a

/-! ### Value construction (function valueNew) -/

/-- Two-complement wrap of an integer into the int32 range (the Go
conversion int32(x)). -/
def wrap32 (n : Int) : Int := (n + 2 ^ 31) % 2 ^ 32 - 2 ^ 31

/-- The Go conversion int(u) of a uint64 value (two-complement into
int64 range). -/
def wrapInt64 (n : Nat) : Int :=
  if n < 2 ^ 63 then (n : Int) else (n : Int) - 2 ^ 64

/-- Function inferInt32Type: a non-negative int32 is canonicalized to
the uint32 variant, a negative one stays int32. -/
def inferInt32Type (m : Int) : Value :=
  if 0 ≤ m then .vu32 m.toNat else .vi32 m

/-- Function inferInt64Type: a non-negative int64 is canonicalized to
the uint64 variant, a negative one stays int64. -/
def inferInt64Type (n : Int) : Value :=
  if 0 ≤ n then .vu64 n.toNat else .vi64 n

/-- valueNew on the signed host types int, int8, int16, int32: convert
to int32 (wrapping) and infer the stored variant. -/
def valueNewInt (n : Int) : Value := inferInt32Type (wrap32 n)

/-- valueNew on the unsigned host types uint, uint8, uint16, uint32:
convert to uint32 (wrapping). -/
def valueNewUint (n : Nat) : Value := .vu32 (n % 2 ^ 32)

/-- valueNew on int64: infer the stored variant. -/
def valueNewInt64 (n : Int) : Value := inferInt64Type n

/-- valueNew on uint64: the type is retained. -/
def valueNewUint64 (n : Nat) : Value := .vu64 n

/-! ### Boolean accessors -/

/-- Method Value.IsEmpty: equality with the Empty sentinel. -/
def Value.IsEmpty (v : Value) : Bool := vequal v .vempty

/-- Method Value.AsBoolean: true on Empty, the stored bool otherwise,
and a type-assertion panic on every other variant. -/
def Value.AsBoolean (v : Value) : Except GoStr Bool :=
  if v.IsEmpty then .ok true
  else
    match v with
    | .vbool b => .ok b
    | _ => .error (gs "interface conversion: interface is not bool")

/-- Method Value.IsBoolean: the Bool variant or Empty. -/
def Value.IsBoolean (v : Value) : Bool :=
  (match v with | .vbool _ => true | _ => false) || v.IsEmpty

/-- Method Value.ToBoolean with the variadic default list: Empty is
true regardless of the default; a bool is itself; otherwise the first
default or false. -/
def Value.ToBoolean (v : Value) (defaults : List Bool) : Bool :=
  if v.IsEmpty then true
  else
    match v with
    | .vbool b => b
    | _ =>
      match defaults with
      | d :: _ => d
      | [] => false

/-! ### RFC7951String -/

/-- Escape of one character inside a Go strconv.Quote result.  The
escapes relevant below printable ASCII are modelled exactly; characters
at or above 0x7F are not modelled faithfully (Go would decide by
unicode.IsPrint) — the quantified theorems restrict string contents to
the modelled range. -/
def goQuoteChar (c : Char) : GoStr :=
  if c = '"' then gs "\\\""
  else if c = '\\' then gs "\\\\"
  else if c.toNat = 10 then gs "\\n"
  else if c.toNat = 9 then gs "\\t"
  else if c.toNat = 13 then gs "\\r"
  else if 0x20 ≤ c.toNat ∧ c.toNat < 0x7F then [c]
  else gs "\\u" ++ natDec c.toNat

/-- Method Value.RFC7951String: the textual rendering used inside
marshaled output.  Strings render as their strconv.Quote body (escaped,
without the outer quotes); Objects and Arrays do not implement the
interface and hit the panic of the default case. -/
def Value.RFC7951String : Value → Except GoStr GoStr
  | .vnull => .ok (gs "null")
  | .vempty => .ok (gs "[null]")
  | .viid i => .ok i.toStr
  | .vu32 n => .ok (natDec n)
  | .vu64 n => .ok (natDec n)
  | .vi32 n => .ok (intDec n)
  | .vi64 n => .ok (intDec n)
  | .vf64 r => .ok r
  | .vbool b => .ok (if b then gs "true" else gs "false")
  | .vstr s => .ok (s.flatMap goQuoteChar)
  | .vobj _ => .error (gs "cannot convert value to string, invalid type")
  | .varr _ => .error (gs "cannot convert value to string, invalid type")

/-! ### Polymorphic dispatch (method Value.Perform)

Handlers are modelled by the reflected type of their single argument;
`perform` returns the index of the first matching handler together
with the argument that would be passed to it, or `none` for the null
dispatch result. -/

/-- The argument type of a handler, as inspected by reflection. -/
inductive HTy : Type where
  | tAny | tValue | tString751
  | tBool | tI32 | tU32 | tI64 | tU64 | tF64
  | tGoString | tObject | tArray | tEmpty | tIID
  deriving Repr, DecidableEq

/-- Dynamic type of the datum held by a Value (`none` for a nil
datum). -/
def dataTy : Value → Option HTy
  | .vnull => none
  | .vbool _ => some .tBool
  | .vempty => some .tEmpty
  | .vi32 _ => some .tI32
  | .vu32 _ => some .tU32
  | .vi64 _ => some .tI64
  | .vu64 _ => some .tU64
  | .vf64 _ => some .tF64
  | .vstr _ => some .tGoString
  | .viid _ => some .tIID
  | .vobj _ => some .tObject
  | .varr _ => some .tArray

/-- Function canConvertNumeric together with convertNumeric, at the
value level: the only automatic conversions are between same-width
signed/unsigned pairs, and only when the value fits. -/
def numConvert : Value → HTy → Option Value
  | .vi32 n, .tU32 => if 0 ≤ n then some (.vu32 n.toNat) else none
  | .vu32 n, .tI32 => if n ≤ 2 ^ 31 - 1 then some (.vi32 n) else none
  | .vi64 n, .tU64 => if 0 ≤ n then some (.vu64 n.toNat) else none
  | .vu64 n, .tI64 => if n ≤ 2 ^ 63 - 1 then some (.vi64 n) else none
  | _, _ => none

/-- The argument a matched handler receives: the datum (possibly
numerically converted), the Value cell itself, or the RFC7951 string
form. -/
inductive PerfArg : Type where
  | data (v : Value)
  | self (v : Value)
  | rstr (s : GoStr)
  deriving Repr

/-- Method Value.Perform on a possibly-nil Value: try the handlers in
order and report the first match with its argument; `none` is the null
dispatch result.  A nil receiver short-circuits to nil. -/
def performGo (v : Option Value) (hs : List HTy) :
    Except GoStr (Option (Nat × PerfArg)) :=
  match v with
  | none => .ok none
  | some val => go val hs 0
where
  go : Value → List HTy → Nat → Except GoStr (Option (Nat × PerfArg))
  | _, [], _ => .ok none
  | val, h :: rest, i =>
    match dataTy val with
    | none =>
      if h = .tAny then .ok (some (i, .data .vnull)) else go val rest (i + 1)
    | some ty =>
      if h = .tValue then .ok (some (i, .self val))
      else if h = .tString751 then do
        let s ← val.RFC7951String
        .ok (some (i, .rstr s))
      else if h = .tAny ∨ h = ty then .ok (some (i, .data val))
      else
        match numConvert val h with
        | some v' => .ok (some (i, .data v'))
        | none => go val rest (i + 1)

/-! ### Instance-identifier lookup (the Find methods)

A Go `*Value` that may be nil is an `Option Value`; a `Value` whose
datum is nil is `Value.vnull` — the two behave differently and both
occur.  Panics (type assertions, RFC7951String on containers, reading
a raw-nil array slot) are `Except` errors. -/

/-- The fully qualified lookup key `prefix:identifier` of a node. -/
def qualifiedKey (id : nodeID) : GoStr := id.pfx ++ ':' :: id.ident

/-- Method posPredicate.Find: on an Array, the element at the index
when in bounds; on anything else the null Value with found=false. -/
def posFind (p : Nat) (v : Option Value) :
    Except GoStr (Option Value × Bool) :=
  match v with
  | some (.varr a) =>
    let i := wrapInt64 p
    if a.ContainsI i then do
      let e ← a.AtI i
      pure (e, true)
    else pure (none, false)
  | _ => pure (some .vnull, false)

/-- The detect loop of the leaf-list form of exprPredicate.Find: first
element whose RFC7951 string equals the predicate value. -/
def detectLoop (value : GoStr) : List (Option Value) →
    Except GoStr (Option Value × Bool)
  | [] => pure (none, false)
  | some elem :: rest => do
    let s ← elem.RFC7951String
    if s = value then pure (some elem, true) else detectLoop value rest
  | none :: _ =>
    .error (gs "interface conversion: interface is nil, not *Value")

/-- Final step of predicates.Find: an accumulated Array resolves only
when its length is exactly one (unwrapping to the sole element); a nil
accumulator or a null accumulated value yields the null Value; any
other single value is itself. -/
def predsFinal (out : Option Value) (found : Bool) :
    Except GoStr (Option Value × Bool) :=
  match out with
  | some (.varr a) =>
    if a.Length = 1 then do
      let e ← a.AtI 0
      pure (e, found)
    else pure (none, false)
  | some .vnull => pure (some .vnull, found)
  | some c => pure (some c, found)
  | none => pure (some .vnull, found)

mutual
/-- Method nodeID.Find: nil stays not-found; on an Object, look up the
qualified key and apply the predicates when present; on any other
value the null Value with found=false. -/
def nodeFind : nodeID → Option Value → Except GoStr (Option Value × Bool)
  | _, none => pure (none, false)
  | .mk pfx ident _ predsOpt, some (.vobj o) =>
    let key := pfx ++ ':' :: ident
    let v0 := o.At key
    match predsOpt with
    | some ps => predsFind ps v0
    | none => pure (v0, o.Contains key)
  | _, some _ => pure (some .vnull, false)
termination_by structural id => id

/-- Method predicates.Find: apply the predicates in sequence.  A
failed predicate is an immediate not-found; a non-array intermediate
before the last predicate resolves (via the broken-out nil
accumulator) to the null Value with found=false; the final
accumulator goes through `predsFinal`. -/
def predsFind : List Pred → Option Value → Except GoStr (Option Value × Bool)
  | [], _ => predsFinal none true
  | [p], cur => do
    let (c, f) ← predFind p cur
    if f then predsFinal c f else pure (none, false)
  | p :: rest, cur => do
    let (c, f) ← predFind p cur
    if f then
      match c with
      | some (.varr a) => predsFind rest (some (.varr a))
      | _ => predsFinal none false
    else pure (none, false)
termination_by structural l => l

/-- The dispatch of predicate.Find to the positional or expression
selector. -/
def predFind : Pred → Option Value → Except GoStr (Option Value × Bool)
  | .pos n, v => posFind n v
  | .expr key value, v =>
    match v with
    | some (.varr a) =>
      if key.ident = gs "." then detectLoop value a.elems
      else do
        let (sel, found) ← a.elems.foldlM
          (fun (acc : List (Option Value) × Bool) elemOpt => do
            match elemOpt with
            | none =>
              .error (gs "interface conversion: interface is nil, not *Value")
            | some elem => do
              let (child, f) ← nodeFind key (some elem)
              if f then
                match child with
                | some c => do
                  let s ← c.RFC7951String
                  if s = value then
                    pure (acc.1 ++ [some (elem.belongsTo a.module)], true)
                  else pure acc
                | none => .error (gs "runtime error: nil pointer dereference")
              else pure acc) ([], false)
        pure (some (.varr (.mk a.module sel)), found)
    | _ => pure (some .vnull, false)
termination_by structural p => p
end

/-- Method InstanceID.Find: descend node by node; any failed node
aborts with not-found. -/
def iidFind (i : InstanceID) (v : Option Value) :
    Except GoStr (Option Value × Bool) :=
  go i.ids v
where
  go : List nodeID → Option Value → Except GoStr (Option Value × Bool)
  | [], v => pure (v, false)
  | [id], v => do
    let (v', f) ← nodeFind id v
    if f then pure (v', f) else pure (none, false)
  | id :: rest, v => do
    let (v', f) ← nodeFind id v
    if f then go rest v' else pure (none, false)

/-- Method InstanceID.MatchAgainst: the found value, or nil. -/
def matchAgainst (i : InstanceID) (v : Option Value) :
    Except GoStr (Option Value) := do
  let (r, _) ← iidFind i v
  pure r

/-! ### Selectors and write-identity computation -/

/-- A selector: the last node's own identifier or its predicate
list (interface instanceIDSelector). -/
inductive Sel : Type where
  | key (id : nodeID)
  | preds (ps : List Pred)
  deriving Repr

/-- Method nodeID.selector. -/
def nodeID.selectorS (id : nodeID) : Sel :=
  match id.predicates with
  | none => .key id
  | some ps => .preds ps

/-- Method InstanceID.selector (nil when there are no nodes). -/
def InstanceID.selectorI (i : InstanceID) : Option Sel :=
  i.ids.getLast?.map nodeID.selectorS

/-- Method InstanceID.path: strip the last node's predicates, or drop
the last node when it has none; nil when there are no nodes. -/
def InstanceID.pathI (i : InstanceID) : Option InstanceID :=
  match i.ids.getLast? with
  | none => none
  | some last =>
    if last.predicates.isNone then some ⟨i.ids.dropLast⟩
    else some ⟨i.ids.dropLast ++ [.mk last.pfx last.ident last.pfxInferred none]⟩

/-- A computed child identity: an object key or an array index. -/
inductive GoId : Type where
  | str (k : GoStr)
  | int (n : Int)
  deriving Repr, DecidableEq

/-- Method nodeID.computeIdentifier: on an Object, the qualified key
when present; nil otherwise. -/
def nodeIDComputeIdentifier (id : nodeID) (v : Option Value) :
    Except GoStr (Option GoId) :=
  match v with
  | some (.vobj o) =>
    let key := qualifiedKey id
    pure (if o.Contains key then some (.str key) else none)
  | _ => pure none

/-- Method posPredicate/exprPredicate computeIdentifier: an index for
a positional predicate (unconditionally), or the list of matching
indices for an expression predicate on an Array (collapsed to one
index when unique). -/
def predComputeIdentifier (p : Pred) (v : Option Value) :
    Except GoStr (Option (Sum Int (List Int))) :=
  match p with
  | .pos n => pure (some (.inl (wrapInt64 n)))
  | .expr key value =>
    match v with
    | some (.varr a) => do
      let ret ←
        if key.ident = gs "." then
          (a.elems.enum.foldlM (fun (acc : List Int) (ev : Nat × Option Value) => do
            match ev.2 with
            | none =>
              .error (gs "interface conversion: interface is nil, not *Value")
            | some elem => do
              let s ← elem.RFC7951String
              if s = value then pure (acc ++ [(ev.1 : Int)]) else pure acc) [])
        else
          (a.elems.enum.foldlM (fun (acc : List Int) (ev : Nat × Option Value) => do
            match ev.2 with
            | none =>
              .error (gs "interface conversion: interface is nil, not *Value")
            | some elem => do
              let (child, f) ← nodeFind key (some elem)
              match child with
              | some c =>
                if f then do
                  let s ← c.RFC7951String
                  if s = value then pure (acc ++ [(ev.1 : Int)]) else pure acc
                else pure acc
              | none => pure acc) [])
      if ret.length = 1 then pure (some (.inl (ret.headI)))
      else pure (some (.inr ret))
    | _ => pure none

/-- Method predicates.computeIdentifier: start from every index of the
array, intersect with each predicate's matches, and succeed only when
exactly one index remains. -/
def predsComputeIdentifier (ps : List Pred) (v : Option Value) :
    Except GoStr (Option Int) :=
  match v with
  | some (.varr a) => do
    let matched ← go ps (some (.varr a)) ((List.range a.Length).map Int.ofNat)
    match matched with
    | [i] => pure (some i)
    | _ => pure none
  | _ => pure none
where
  go : List Pred → Option Value → List Int → Except GoStr (List Int)
  | [], _, matched => pure matched
  | p :: rest, v, matched => do
    match ← predComputeIdentifier p v with
    | none => pure []
    | some (.inl i) => go rest v (if matched.contains i then [i] else [])
    | some (.inr l) => go rest v (matched.filter (l.contains ·))

/-- computeIdentifier on a selector. -/
def selComputeIdentifier (s : Sel) (v : Option Value) :
    Except GoStr (Option GoId) :=
  match s with
  | .key id => nodeIDComputeIdentifier id v
  | .preds ps => do
    let r ← predsComputeIdentifier ps v
    pure (r.map GoId.int)

/-- computeIdentifierDefault on a selector: for a node identifier, the
qualified key; for predicates, the matched index or (appending) the
array length, 0 on non-arrays, and nil Perform output on a nil
value. -/
def selComputeIdentifierDefault (s : Sel) (v : Option Value) :
    Except GoStr (Option GoId) :=
  match s with
  | .key id => do
    let r ← nodeIDComputeIdentifier id v
    match r with
    | some x => pure (some x)
    | none => pure (some (.str (qualifiedKey id)))
  | .preds ps => do
    let r ← predsComputeIdentifier ps v
    match r with
    | some i => pure (some (.int i))
    | none =>
      match v with
      | some (.varr a) => pure (some (.int (a.Length : Int)))
      | some _ => pure (some (.int 0))
      | none => pure none

/-- Interface nodeCreator: a node identifier creates an empty Object,
a predicate set an empty Array. -/
def selCreateNode (s : Sel) : Value :=
  match s with
  | .key _ => .vobj (.mk [] [])
  | .preds _ => .varr (.mk [] [])

/-- Interface matchModifier: only predicate selectors modify the match
criteria — every expression predicate (except the "." form) injects
its key/value pair into the new Object; a non-Object value is the
`.(*Value)` panic. -/
def selModifyMatch (s : Sel) (v : Value) : Except GoStr Value :=
  match s with
  | .key _ => pure v
  | .preds ps =>
    ps.foldlM (fun v p =>
      match p with
      | .pos _ => pure v
      | .expr key value =>
        if key.ident = gs "." then pure v
        else
          match v with
          | .vobj o => pure (.vobj (o.Assoc key.ident (.vstr value)))
          | _ => .error (gs "interface conversion: not *Value")) v

/-! ### Trees and the write engine -/

/-- A Tree wraps a root Value holding an Object. -/
structure Tree : Type where
  root : Value
  deriving Repr

/-- Function TreeFromObject. -/
def TreeFromObject (o : Object) : Tree := ⟨.vobj o⟩

/-- Function TreeNew: the empty tree. -/
def TreeNew : Tree := TreeFromObject (.mk [] [])

/-- Go equality of trees: equality of the roots. -/
def treeEqual (a b : Tree) : Bool := vequal a.root b.root

/-- The ancestor queue of Tree.assoc: walk `path()`/`selector()` pairs
upward, resolving each ancestor against the (original) root and
synthesizing a node via the selector when the ancestor is missing.
The walk shortens the path every step; the explicit fuel (always ample
from the wrapper) keeps the recursion structural. -/
def buildQueue : Nat → Value → Option InstanceID → Option Sel →
    Except GoStr (List (Option Value × Sel))
  | 0, _, _, _ => .error (gs "assoc fuel exhausted")
  | _ + 1, _, none, _ => pure []
  | fuel + 1, root, some p, sel? =>
    match sel? with
    | none => .error (gs "nil selector")
    | some sel => do
      let mv ← matchAgainst p (some root)
      let v : Option Value :=
        match mv with
        | none => some (selCreateNode sel)
        | some x => some x
      let rest ← buildQueue fuel root p.pathI p.selectorI
      pure ((v, sel) :: rest)

/-- The bottom-up fold of Tree.assoc: for each queued (ancestor,
selector) pair, inject match criteria, compute the child identity, and
assoc the accumulated child into the ancestor (an Object takes a string
identity, an Array an int identity; anything else is the `.(*Value)`
panic of the unmatched Perform). -/
def processQueue : Value → List (Option Value × Sel) → Except GoStr Value
  | v, [] => pure v
  | v, (val?, sel) :: rest => do
    let v ← selModifyMatch sel v
    let id? ← selComputeIdentifierDefault sel val?
    let v' ←
      match val?, id? with
      | some (.vobj o), some (.str k) => pure (.vobj (o.Assoc k v))
      | some (.varr a), some (.int n) => do
        pure (.varr (← a.AssocI n v))
      | some (.vobj _), _ => .error (gs "interface conversion: not string")
      | some (.varr _), _ => .error (gs "interface conversion: not int")
      | _, _ => .error (gs "interface conversion: not *Value")
    processQueue v' rest

/-- Method Tree.assoc. -/
def treeAssoc (t : Tree) (i : InstanceID) (v : Value) : Except GoStr Tree := do
  let queue ← buildQueue (2 * i.ids.length + 2) t.root i.pathI i.selectorI
  let v' ← processQueue v queue
  match v' with
  | .vobj o => pure (TreeFromObject o)
  | _ => .error (gs "interface conversion: not *Object")

/-- Method Tree.delete: a no-op when the path is not found; otherwise
delete the identified child from the parent and re-assoc the parent at
the parent path. -/
def treeDelete (t : Tree) (i : InstanceID) : Except GoStr Tree := do
  let (_, found) ← iidFind i (some t.root)
  if !found then pure t
  else
    match i.pathI, i.selectorI with
    | some path, some sel => do
      let v ← matchAgainst path (some t.root)
      let id? ← selComputeIdentifier sel v
      let v' ←
        match v, id? with
        | some (.vobj o), some (.str k) => pure (.vobj (o.Delete k))
        | some (.varr a), some (.int n) => pure (.varr (a.DeleteI n))
        | some (.vobj _), _ => .error (gs "interface conversion: not string")
        | some (.varr _), _ => .error (gs "interface conversion: not int")
        | _, _ => .error (gs "interface conversion: not *Value")
      treeAssoc t path v'
    | _, _ => .error (gs "nil selector")

/-! ### Merge (methods Value.Merge, Object.merge, Array.merge)

Merge recurses through values produced by `adaptValue`, which is not a
structural subterm, so the recursion runs on explicit fuel; the
wrapper supplies one more than the value's size. -/

mutual
/-- Structural size of a value (fuel bound for merge). -/
def vsize : Value → Nat
  | .vobj o => 1 + osize o
  | .varr a => 1 + asize a
  | _ => 1
termination_by structural v => v

/-- Structural size of an object. -/
def osize : Object → Nat
  | .mk _ e => 1 + entsize e
termination_by structural o => o

/-- Structural size of entry lists. -/
def entsize : List (GoStr × Value) → Nat
  | [] => 0
  | (_, v) :: rest => 1 + vsize v + entsize rest
termination_by structural l => l

/-- Structural size of an array. -/
def asize : Array → Nat
  | .mk _ e => 1 + elsize e
termination_by structural a => a

/-- Structural size of element lists. -/
def elsize : List (Option Value) → Nat
  | [] => 0
  | some v :: rest => 1 + vsize v + elsize rest
  | none :: rest => 1 + elsize rest
termination_by structural l => l
end

/-- Fueled merge: containers merge recursively (objects by key, arrays
by index), unlike shapes keep the old value, leaves take the new
value. -/
def mergeF : Nat → Value → Value → Except GoStr Value
  | 0, _, new => pure new
  | fuel + 1, old, new =>
    match old with
    | .vobj o =>
      match new with
      | .vobj n => do
        let phase1 ← o.entries.foldlM
          (fun (acc : List (GoStr × Value)) (kv : GoStr × Value) => do
            let (k', v') := o.adaptValue kv.1 kv.2
            if n.Contains k' then
              match n.At k' with
              | some nv => do
                let merged ← mergeF fuel v' nv
                pure (listAssocKV k' merged acc)
              | none => pure acc
            else pure acc) o.entries
        let phase2 ← n.entries.foldlM
          (fun (acc : List (GoStr × Value)) (kv : GoStr × Value) => do
            let (k, v) := o.adaptValue kv.1 kv.2
            if (lookupKey k acc).isSome then pure acc
            else pure (acc ++ [(k, v)])) phase1
        pure (.vobj (.mk o.module phase2))
      | _ => pure (.vobj o)
    | .varr a =>
      match new with
      | .varr n => do
        let phase1 ← a.elems.enum.foldlM
          (fun (acc : List (Option Value)) (ev : Nat × Option Value) => do
            match ev.2 with
            | none =>
              .error (gs "interface conversion: interface is nil, not *Value")
            | some v =>
              if n.ContainsI ev.1 then do
                let e ← n.AtI ev.1
                match e with
                | some nv => do
                  let merged ← mergeF fuel v nv
                  pure (listSet acc ev.1 (some (merged.belongsTo a.module)))
                | none => pure acc
              else pure acc) a.elems
        let phase2 ← n.elems.enum.foldlM
          (fun (acc : List (Option Value)) (ev : Nat × Option Value) => do
            match ev.2 with
            | none =>
              .error (gs "interface conversion: interface is nil, not *Value")
            | some v =>
              if a.ContainsI ev.1 then pure acc
              else pure (acc ++ [some (v.belongsTo a.module)])) phase1
        pure (.varr (.mk a.module phase2))
      | _ => pure (.varr a)
    | _ => pure new

/-- Method Value.Merge. -/
def Value.MergeV (old new : Value) : Except GoStr Value :=
  mergeF (vsize old + 1) old new

/-! ### Diff (methods Value.diff, Object.diff, Array.diff) -/

/-- The edit actions. -/
inductive EditAction : Type where
  | assoc | delete | merge
  deriving Repr, DecidableEq

/-- An edit entry: an action, a path, and (for assoc and merge) a
value. -/
structure EditEntry : Type where
  action : EditAction
  path : InstanceID
  value : Option Value
  deriving Repr

/-- Method InstanceID.push: append one segment parsed from an object
key, inheriting the previous segment's prefix. -/
def iidPush (i : InstanceID) (key : GoStr) : Except GoStr InstanceID := do
  let prevPfx :=
    match i.ids.getLast? with
    | some l => l.pfx
    | none => []
  let node ← nodeIDParse prevPfx key
  pure ⟨i.ids ++ [node]⟩

/-- Method InstanceID.addPosPredicate: append a positional predicate
to the last segment (no-op on an empty path). -/
def iidAddPos (i : InstanceID) (idx : Nat) : InstanceID :=
  match i.ids.getLast? with
  | none => i
  | some last =>
    ⟨i.ids.dropLast ++
      [.mk last.pfx last.ident last.pfxInferred
        (some ((last.predicates.getD []) ++ [.pos idx]))]⟩

/-- Keys present only in the other object become assoc entries. -/
def odiffAdds (o : Object) (path : InstanceID) :
    List (GoStr × Value) → Except GoStr (List EditEntry)
  | [] => pure []
  | (k, v) :: rest =>
    if o.Contains k then odiffAdds o path rest
    else do
      let p' ← iidPush path k
      let restE ← odiffAdds o path rest
      pure (⟨.assoc, p', some v⟩ :: restE)

/-- Indices present only in the other array become assoc entries. -/
def adiffAdds (a : Array) (path : InstanceID) (i : Nat) :
    List (Option Value) → Except GoStr (List EditEntry)
  | [] => pure []
  | none :: _ =>
    .error (gs "interface conversion: interface is nil, not *Value")
  | some v :: rest =>
    if a.ContainsI i then adiffAdds a path (i + 1) rest
    else do
      let restE ← adiffAdds a path (i + 1) rest
      pure (⟨.assoc, iidAddPos path i, some v⟩ :: restE)

mutual
/-- Method Value.diff: containers recurse; unequal leaves emit a
single assoc entry at the path. -/
def vdiff : Value → Value → InstanceID → Except GoStr (List EditEntry)
  | .vobj o, new, path => odiff o new path
  | .varr a, new, path => adiff a new path
  | old, new, path =>
    if vequal old new then pure [] else pure [⟨.assoc, path, some new⟩]
termination_by structural v => v

/-- Method Object.diff: keys only in self are deletes, common keys
recurse, keys only in other are assocs; a non-Object other is one
whole-value assoc at the path. -/
def odiff : Object → Value → InstanceID → Except GoStr (List EditEntry)
  | .mk om oe, new, path =>
    match new with
    | .vobj other => do
      let part1 ← odiffEntries other path oe
      let part2 ← odiffAdds (.mk om oe) path other.entries
      pure (part1 ++ part2)
    | _ => pure [⟨.assoc, path, some new⟩]
termination_by structural o => o

/-- The per-entry walk of Object.diff over self's entries. -/
def odiffEntries (other : Object) (path : InstanceID) :
    List (GoStr × Value) → Except GoStr (List EditEntry)
  | [] => pure []
  | (k, v) :: rest => do
    let entries ←
      match other.At k with
      | some nv => do
        let p' ← iidPush path k
        vdiff v nv p'
      | none => do
        let p' ← iidPush path k
        pure [⟨.delete, p', none⟩]
    let restE ← odiffEntries other path rest
    pure (entries ++ restE)
termination_by structural l => l

/-- Method Array.diff: indexwise recursion with the path extended by a
positional predicate; trailing self-only indices are deletes; a
non-Array other is one whole-value assoc at the path. -/
def adiff : Array → Value → InstanceID → Except GoStr (List EditEntry)
  | .mk am ae, new, path =>
    match new with
    | .varr other => do
      let part1 ← adiffElems other path 0 ae
      let part2 ← adiffAdds (.mk am ae) path 0 other.elems
      pure (part1 ++ part2)
    | _ => pure [⟨.assoc, path, some new⟩]
termination_by structural a => a

/-- The per-index walk of Array.diff over self's elements. -/
def adiffElems (other : Array) (path : InstanceID) (i : Nat) :
    List (Option Value) → Except GoStr (List EditEntry)
  | [] => pure []
  | none :: _ =>
    .error (gs "interface conversion: interface is nil, not *Value")
  | some v :: rest => do
    let entries ←
      if other.ContainsI i then do
        let e ← other.AtI i
        match e with
        | some nv => vdiff v nv (iidAddPos path i)
        | none => pure []
      else pure [⟨.delete, iidAddPos path i, none⟩]
    let restE ← adiffElems other path (i + 1) rest
    pure (entries ++ restE)
termination_by structural l => l
end

/-- Method Tree.Diff: the edit entries turning self into other. -/
def treeDiff (a b : Tree) : Except GoStr (List EditEntry) :=
  vdiff a.root b.root ⟨[]⟩

/-- Method Tree.Edit: apply the entries in order (assoc, delete, or
merge-at-path). -/
def treeEdit : Tree → List EditEntry → Except GoStr Tree
  | t, [] => pure t
  | t, e :: rest => do
    let t' ←
      match e.action with
      | .assoc =>
        match e.value with
        | some v => treeAssoc t e.path v
        | none => .error (gs "nil value in assoc entry")
      | .delete => treeDelete t e.path
      | .merge => do
        let v ← matchAgainst e.path (some t.root)
        match v, e.value with
        | some val, some newv => do
          let merged ← val.MergeV newv
          treeAssoc t e.path merged
        | _, _ => .error (gs "runtime error: nil pointer dereference")
    treeEdit t' rest

/-! ### The RFC 7951 codec

Modelled from the spec: the byte-level framing — splitting a message
into a raw-message list/map (`rfc7951.Unmarshal` into
`[]rfc7951.RawMessage` / `map[string]rfc7951.RawMessage`, a package of
this repository that is not part of the analysed sources) and the
strconv.Quote/Unquote escaping of string bytes — is represented by a
JSON document tree: a quoted scalar carries its unquoted content, a
bare token its bytes, and objects/arrays their raw members in order.
All encoding and decoding decisions taken in the analysed sources
(value.go, object.go) are translated below on that representation. -/

inductive Json : Type where
  | jnull
  | jbool (b : Bool)
  | jtoken (s : GoStr)
  | jstr (s : GoStr)
  | jarr (xs : List Json)
  | jobj (kvs : List (GoStr × Json))
  deriving Repr

mutual
/-- Methods marshalRFC7951 (value.go, object.go, array.go): nil, bools
and 32-bit integers are bare tokens; 64-bit integers, floats and
strings are quoted; Empty is the literal array `[null]`; an
instance-id is written bare (its path string); object keys are printed
bare exactly when the key's module equals the marshal-context module,
and each child is marshalled in its key's module; array elements are
marshalled in the array's context module.  A raw-nil array slot is the
range-callback panic. -/
def marshalJson : Value → GoStr → Except GoStr Json
  | .vnull, _ => pure .jnull
  | .vbool b, _ => pure (.jbool b)
  | .vempty, _ => pure (.jarr [.jnull])
  | .vi32 n, _ => pure (.jtoken (intDec n))
  | .vu32 n, _ => pure (.jtoken (natDec n))
  | .vi64 n, _ => pure (.jstr (intDec n))
  | .vu64 n, _ => pure (.jstr (natDec n))
  | .vf64 r, _ => pure (.jstr r)
  | .vstr s, _ => pure (.jstr s)
  | .viid i, _ => pure (.jtoken i.toStr)
  | .vobj (.mk om oe), module => do
    let kvs ← marshalEntries om module oe
    pure (.jobj kvs)
  | .varr (.mk _ ae), module => do
    let xs ← marshalElems module ae
    pure (.jarr xs)
termination_by structural v => v

/-- Key printing and child marshalling of Object.marshalRFC7951. -/
def marshalEntries (objModule ctxModule : GoStr) :
    List (GoStr × Value) → Except GoStr (List (GoStr × Json))
  | [] => pure []
  | (k, v) :: rest => do
    let (mod, key) := parseKey objModule k
    let printedKey := if mod = ctxModule then key else k
    let child ← marshalJson v mod
    let restE ← marshalEntries objModule ctxModule rest
    pure ((printedKey, child) :: restE)
termination_by structural l => l

/-- Element marshalling of Array.marshalRFC7951. -/
def marshalElems (ctxModule : GoStr) :
    List (Option Value) → Except GoStr (List Json)
  | [] => pure []
  | some v :: rest => do
    let child ← marshalJson v ctxModule
    let restE ← marshalElems ctxModule rest
    pure (child :: restE)
  | none :: _ =>
    .error (gs "interface conversion: interface is nil, not *Value")
termination_by structural l => l
end

/-- Success of Go strconv.ParseFloat on decimal syntax, modelled from
the Go standard library: optional sign, digits with an optional
fraction (at least one digit overall), and an optional non-empty
decimal exponent.  Inf/NaN and hex floats are unreachable from the
callers (they require a numeric lead). -/
def parseFloatOk (s : GoStr) : Bool :=
  let t :=
    match s with
    | '+' :: r => r
    | '-' :: r => r
    | _ => s
  let ipart := t.takeWhile goIsDigit
  let r1 := t.drop ipart.length
  let (fpart, r2) :=
    match r1 with
    | '.' :: r => (r.takeWhile goIsDigit, r.drop (r.takeWhile goIsDigit).length)
    | _ => ([], r1)
  let expOk :=
    match r2 with
    | [] => true
    | 'e' :: r => expDigits r
    | 'E' :: r => expDigits r
    | _ => false
  (ipart ≠ [] ∨ fpart ≠ []) && expOk
where
  expDigits (r : GoStr) : Bool :=
    let r' :=
      match r with
      | '+' :: x => x
      | '-' :: x => x
      | _ => r
    r' ≠ [] && r'.all goIsDigit

/-- The quoted-scalar decoding of unmarshalRFC7951 (value.go, case
'"'), on the unquoted content: a numeric lead with a '.' attempts a
float parse (whose successful result is overwritten by the following
integer-parse failure — the missing return of the source), otherwise a
64-bit integer parse, and the raw string on any failure or a
non-numeric lead. -/
def unmarshalQuoted (item : GoStr) : Value :=
  match item with
  | [] => .vstr item
  | c :: rest =>
    if c = '-' ∧ rest.length ≥ 1 then
      match rest with
      | n :: _ =>
        if ¬goIsDigit n then .vstr item
        else if item.contains '.' ∧ ¬parseFloatOk item then .vstr item
        else
          match goParseInt 64 item with
          | some i => .vi64 i
          | none => .vstr item
      | [] => .vstr item
    else if c = '+' ∧ rest.length ≥ 1 then
      match rest with
      | n :: _ =>
        if ¬goIsDigit n then .vstr item
        else if item.contains '.' ∧ ¬parseFloatOk rest then .vstr item
        else
          match goParseUint 64 rest with
          | some u => .vu64 u
          | none => .vstr item
      | [] => .vstr item
    else if goIsDigit c then
      if item.contains '.' ∧ ¬parseFloatOk item then .vstr item
      else
        match goParseUint 64 item with
        | some u => .vu64 u
        | none => .vstr item
    else .vstr item

mutual
/-- Method Value.unmarshalRFC7951, on the document tree: objects and
arrays recurse (a singleton array holding null collapses to Empty);
null, true and false map to their variants; quoted scalars go through
`unmarshalQuoted`; a bare token is a 32-bit integer (signed iff it
starts with '-'), whose parse failure fails the unmarshal.  The string
and value interners are caches and are modelled as the identity. -/
def unmarshalJson : Json → GoStr → Except GoStr Value
  | .jnull, _ => pure .vnull
  | .jbool b, _ => pure (.vbool b)
  | .jstr s, _ => pure (unmarshalQuoted s)
  | .jtoken s, _ =>
    (match s with
     | '-' :: _ =>
       match goParseInt 32 s with
       | some i => pure (.vi32 i)
       | none => .error (gs "invalid syntax")
     | _ =>
       match goParseUint 32 s with
       | some n => pure (.vu32 n)
       | none => .error (gs "invalid syntax"))
  | .jobj kvs, module => do
    let entries ← unmarshalEntries module kvs
    pure (.vobj (.mk module entries))
  | .jarr xs, module => do
    let elems ← unmarshalElems module xs
    match elems with
    | [some .vnull] => pure .vempty
    | _ => pure (.varr (.mk module elems))
termination_by structural j => j

/-- The per-key decode of Object.unmarshalRFC7951: each child is
decoded in its key's module and inserted through adaptValue. -/
def unmarshalEntries (module : GoStr) :
    List (GoStr × Json) → Except GoStr (List (GoStr × Value))
  | [] => pure []
  | (k, raw) :: rest => do
    let childModule := (parseKey module k).1
    let v ← unmarshalJson raw childModule
    let o : Object := .mk module []
    let (k', v') := o.adaptValue k v
    let restE ← unmarshalEntries module rest
    pure ((k', v') :: restE)
termination_by structural l => l

/-- The per-element decode of Array.unmarshalRFC7951 (the value
interner is the identity). -/
def unmarshalElems (module : GoStr) : List Json → Except GoStr (List (Option Value))
  | [] => pure []
  | x :: rest => do
    let v ← unmarshalJson x module
    let v' := v.belongsTo module
    let restE ← unmarshalElems module rest
    pure (some v' :: restE)
termination_by structural l => l
end

/-- Method Tree.MarshalRFC7951: the root in the empty context module. -/
def treeMarshal (t : Tree) : Except GoStr Json :=
  marshalJson t.root []

/-- Method Tree.UnmarshalRFC7951 on a fresh tree: decode in the empty
context module. -/
def treeUnmarshal (j : Json) : Except GoStr Tree := do
  let v ← unmarshalJson j []
  pure ⟨v⟩

/-! ### Auxiliary predicates used by the theorems -/

/-- Whether an Except result is an error. -/
def isErr {α β : Type} : Except α β → Bool
  | .error _ => true
  | .ok _ => false

/-- Whether an Except result succeeded. -/
def isOk {α β : Type} : Except α β → Bool
  | .error _ => false
  | .ok _ => true

/-- Specification-side matching rule of one Perform handler against a
value, written from the specification's words (for comparison with the
code's dispatch): an any-handler matches every value; a Value-cell or
rfc7951-string handler matches every value whose datum is non-nil (the
corrected rule); a handler of the stored variant's type matches
directly; a same-width opposite-signedness numeric handler matches
when the value fits, converting first. -/
def specMatchArg (v : Value) (h : HTy) : Option PerfArg :=
  match dataTy v with
  | none => if h = .tAny then some (.data .vnull) else none
  | some ty =>
    if h = .tValue then some (.self v)
    else if h = .tString751 then
      match v.RFC7951String with
      | .ok s => some (.rstr s)
      | .error _ => none
    else if h = .tAny ∨ h = ty then some (.data v)
    else (numConvert v h).map .data

/-- First handler index matched by the specification rules, with its
argument. -/
def firstMatchSpec (v : Value) : List HTy → Nat → Option (Nat × PerfArg)
  | [], _ => none
  | h :: rest, i =>
    match specMatchArg v h with
    | some arg => some (i, arg)
    | none => firstMatchSpec v rest (i + 1)

/-- No-duplicate check on entry keys. -/
def keysDistinct : List (GoStr × Value) → Bool
  | [] => true
  | (k, _) :: rest => !(rest.any (fun kv => kv.1 = k)) && keysDistinct rest

mutual
/-- The codec-round-trip-safe class of values (the amended C1 claim):
numeric variants in canonical form and range, no floats, no
instance-ids, strings whose quoted-scalar decoding is the string
itself, objects and arrays coherent with their context module (the key
normalized, each child safe in its key's module), and no array equal
to the singleton [null] (which re-reads as Empty). -/
def safeRT : GoStr → Value → Bool
  | _, .vnull => true
  | _, .vbool _ => true
  | _, .vempty => true
  | _, .vi32 n => decide (n < 0 ∧ -(2 ^ 31) ≤ n)
  | _, .vu32 n => decide (n < 2 ^ 32)
  | _, .vi64 n => decide (n < 0 ∧ -(2 ^ 63) ≤ n)
  | _, .vu64 n => decide (n < 2 ^ 64)
  | _, .vf64 _ => false
  | _, .viid _ => false
  | _, .vstr s =>
    match unmarshalQuoted s with
    | .vstr t => t == s
    | _ => false
  | ctx, .vobj (.mk om oe) => om == ctx && safeEntriesRT om oe
  | ctx, .varr (.mk am ae) =>
    am == ctx &&
    (match ae with
     | [some .vnull] => false
     | _ => true) &&
    safeElemsRT ctx ae
termination_by structural _m v => v

/-- Entry-wise safety: normalized key and a child safe in the key's
module. -/
def safeEntriesRT : GoStr → List (GoStr × Value) → Bool
  | _, [] => true
  | m, (k, v) :: rest =>
    adaptKeyM m k == k && !((parseKey m k).2.contains ':') &&
      safeRT (parseKey m k).1 v && safeEntriesRT m rest
termination_by structural _m l => l

/-- Element-wise safety: every slot holds a safe value. -/
def safeElemsRT : GoStr → List (Option Value) → Bool
  | _, [] => true
  | ctx, some v :: rest => safeRT ctx v && safeElemsRT ctx rest
  | _, none :: _ => false
termination_by structural _m l => l
end

/-- A printable identifier part: nonempty and accepted by
checkIDPart. -/
def validIdent (s : GoStr) : Bool := !s.isEmpty && isOk (checkIDPart s)

/-- Characters allowed in a round-trip-safe predicate value: nothing
the splitters or trims treat specially. -/
def validValueChar (c : Char) : Bool :=
  !(c = '/' || c = '[' || c = ']' || c = ':' || c = '\'' || c = '"' ||
    c = ' ' || c = Char.ofNat 9)

/-- Round-trip-safe expression-predicate key within a segment carrying
the given prefix: it inherits the segment prefix, carries no
predicates of its own, and is either the leaf-list dot or a valid
identifier. -/
def wfKeyP (pfx : GoStr) (k : nodeID) : Bool :=
  k.pfx == pfx && k.pfxInferred && k.predicates.isNone &&
  (k.ident == gs "." || validIdent k.ident)

/-- Round-trip-safe predicate within a segment carrying the given
prefix. -/
def wfPredP (pfx : GoStr) : Pred → Bool
  | .pos n => decide (n < 2 ^ 64)
  | .expr k v => wfKeyP pfx k && v.all validValueChar

/-- Round-trip-safe node: valid prefix and identifier, and a nonempty
well-formed predicate list when one is present. -/
def wfNodeP (n : nodeID) : Bool :=
  validIdent n.pfx && validIdent n.ident &&
  (match n.predicates with
   | none => true
   | some ps => !ps.isEmpty && ps.all (wfPredP n.pfx))

/-- Round-trip-safe chain: each node's inferred flag agrees with
whether its prefix repeats the preceding one. -/
def wfChain : GoStr → List nodeID → Bool
  | _, [] => true
  | prev, n :: rest =>
    wfNodeP n && (n.pfxInferred == (n.pfx == prev)) && wfChain n.pfx rest

/-- The round-trip-safe class of instance identifiers (the amended C7
claim). -/
def wfIID (i : InstanceID) : Bool := !i.ids.isEmpty && wfChain [] i.ids

/-- Invariant of the path splitter: the first piece to be produced is
nonempty (either the head of the accumulator, or the current slice
when nothing is accumulated yet). -/
def headPieceOk (acc : List GoStr) (cur : GoStr) : Prop :=
  match acc with
  | [] => cur ≠ []
  | a :: _ => a ≠ []

/-- Non-container, non-instance-identifier values (left untouched by
belongsTo, diffed by the leaf case of Value.diff, and compared
structurally by Equal). -/
def leafV : Value → Bool
  | .vobj _ => false
  | .varr _ => false
  | .viid _ => false
  | _ => true

/-- A diff-safe object key: explicitly qualified (module:identifier)
with both parts valid identifiers, so that adaptKey is the identity on
it and InstanceID.push parses it back to a predicate-free node whose
qualified key is the key itself. -/
def wfDiffKey (k : GoStr) : Bool :=
  match splitN2 ':' k with
  | (_, none) => false
  | (m, some i) => validIdent m && validIdent i

/-- The diff/edit-duality-safe class of trees (the amended C2 claim):
a root object in the root module with pairwise-distinct diff-safe keys
and non-container values. -/
def wfFlat (t : Tree) : Bool :=
  match t.root with
  | .vobj (.mk m e) =>
    m.isEmpty && keysDistinct e &&
      e.all (fun kv => wfDiffKey kv.1 && leafV kv.2)
  | _ => false

/-- The predicted entry list after the part-1 edits of a flat diff:
keys shared with the other object keep their position but take the
other object's value, keys absent from it are removed. -/
def diffReplace (eb : List (GoStr × Value)) :
    List (GoStr × Value) → List (GoStr × Value)
  | [] => []
  | (k, _) :: rest =>
    match lookupKey k eb with
    | some nv => (k, nv) :: diffReplace eb rest
    | none => diffReplace eb rest

/-! # Theorems -/

/-- C10: Calling AsBoolean, IsBoolean, or ToBoolean on the Empty value
returns true — Empty is treated as a present boolean true even though
it is not the Bool variant, and ToBoolean on Empty ignores any
supplied default. -/
theorem empty_boolean_semantics :
    Value.AsBoolean .vempty = .ok true ∧
    Value.IsBoolean .vempty = true ∧
    (∀ d : List Bool, Value.ToBoolean .vempty d = true) ∧
    (∀ b : Bool, Value.vempty ≠ .vbool b) := by
  refine ⟨rfl, rfl, fun d => rfl, fun b h => by cases h⟩

/-- C4: valueNew canonicalizes host integers: widths up to 32 bits
become the i32 variant when negative and the u32 variant otherwise;
int64 becomes u64 when non-negative and i64 when negative; uint64
stays u64; hence ValueNew(uint32(n)) equals ValueNew(int32(n)) for
every non-negative n below 2^31. -/
theorem valueNew_integer_canonicalization :
    (∀ n : Int, -(2 ^ 31) ≤ n → n < 2 ^ 31 →
      (n < 0 → valueNewInt n = .vi32 n) ∧
      (0 ≤ n → valueNewInt n = .vu32 n.toNat)) ∧
    (∀ n : Nat, n < 2 ^ 32 → valueNewUint n = .vu32 n) ∧
    (∀ n : Int,
      (0 ≤ n → valueNewInt64 n = .vu64 n.toNat) ∧
      (n < 0 → valueNewInt64 n = .vi64 n)) ∧
    (∀ n : Nat, valueNewUint64 n = .vu64 n) ∧
    (∀ n : Nat, n < 2 ^ 31 → valueNewUint n = valueNewInt (n : Int)) := by
  have hwrap : ∀ n : Int, -(2 ^ 31) ≤ n → n < 2 ^ 31 → wrap32 n = n := by
    intro n h1 h2
    have h0 : (0 : Int) ≤ n + 2 ^ 31 := by omega
    have hlt : n + 2 ^ 31 < 2 ^ 32 := by omega
    simp only [wrap32, Int.emod_eq_of_lt h0 hlt]
    omega
  refine ⟨?_, ?_, ?_, ?_, ?_⟩
  · intro n h1 h2
    constructor
    · intro hneg
      simp only [valueNewInt, hwrap n h1 h2, inferInt32Type]
      rw [if_neg (by omega)]
    · intro hpos
      simp only [valueNewInt, hwrap n h1 h2, inferInt32Type]
      rw [if_pos hpos]
  · intro n h
    simp only [valueNewUint, Nat.mod_eq_of_lt h]
  · intro n
    constructor
    · intro hpos
      simp only [valueNewInt64, inferInt64Type]
      rw [if_pos hpos]
    · intro hneg
      simp only [valueNewInt64, inferInt64Type]
      rw [if_neg (by omega)]
  · intro n
    rfl
  · intro n h
    have h1 : -(2 ^ 31 : Int) ≤ (n : Int) := by omega
    have h2 : (n : Int) < 2 ^ 31 := by exact_mod_cast h
    simp only [valueNewInt, hwrap _ h1 h2, inferInt32Type]
    rw [if_pos (by omega)]
    simp only [valueNewUint, Int.toNat_natCast,
      Nat.mod_eq_of_lt (by omega : n < 2 ^ 32)]

/-- Witness for C4 at concrete inputs. -/
theorem valueNew_integer_canonicalization_witness :
    valueNewInt (-5) = .vi32 (-5) ∧ valueNewInt 5 = .vu32 5 ∧
    valueNewUint 7 = .vu32 7 ∧ valueNewInt64 9 = .vu64 9 ∧
    valueNewInt64 (-9) = .vi64 (-9) ∧ valueNewUint64 3 = .vu64 3 ∧
    valueNewUint 4 = valueNewInt 4 := by
  obtain ⟨h1, h2, h3, h4, h5⟩ := valueNew_integer_canonicalization
  refine ⟨(h1 (-5) (by norm_num) (by norm_num)).1 (by norm_num),
    ?_, h2 7 (by norm_num), (h3 9).1 (by norm_num),
    (h3 (-9)).2 (by norm_num), h4 3, h5 4 (by norm_num)⟩
  have := (h1 5 (by norm_num) (by norm_num)).2 (by norm_num)
  simpa using this

/-- Setting the last position of a list. -/
theorem listSet_append_last {α : Type} (l : List α) (y x : α) :
    listSet (l ++ [y]) l.length x = l ++ [x] := by
  induction l with
  | nil => rfl
  | cons a rest ih => simp [listSet, ih]

/-- C9 (amended): an out-of-range Assoc pads the array with raw nil
slots (untyped Go nils, not null-valued Values), and stores at
position i the value reparented to the array's module: the result has
length i+1, keeps the original elements below the old length, holds
the raw nil slot at the padding positions, and holds the adapted value
at position i. -/
theorem array_assoc_pads_with_raw_nil (m : GoStr) (es : List (Option Value))
    (i : Nat) (v : Value) (h : es.length ≤ i) :
    Array.AssocI (.mk m es) (i : Int) v =
      .ok (.mk m (es ++ List.replicate (i - es.length) none ++
        [some (v.belongsTo m)])) := by
  have hneg : ¬((i : Int) < 0) := by omega
  have hitoNat : (i : Int).toNat = i := by omega
  simp only [Array.AssocI, Array.Length, Array.elems, Array.module,
    Array.adaptValue, if_neg hneg, hitoNat]
  rw [if_pos (by omega)]
  have hrep : i + 1 - es.length = (i - es.length) + 1 := by omega
  rw [hrep]
  have hsplit : List.replicate ((i - es.length) + 1) (none : Option Value) =
      List.replicate (i - es.length) none ++ [none] := by
    simp [List.replicate_succ']
  rw [hsplit, ← List.append_assoc]
  have hlen2 : (es ++ List.replicate (i - es.length) none).length = i := by
    simp
    omega
  have hset := listSet_append_last (es ++ List.replicate (i - es.length) none)
    (none : Option Value) (some (v.belongsTo m))
  rw [hlen2] at hset
  rw [hset]

/-- Witness for C9 at a concrete input. -/
theorem array_assoc_pads_with_raw_nil_witness :
    Array.AssocI (.mk [] []) (3 : Int) (.vbool true) =
      .ok (.mk [] ([] ++ List.replicate 3 none ++ [some ((Value.vbool true).belongsTo [])])) :=
  array_assoc_pads_with_raw_nil [] [] 3 (.vbool true) (by simp)

/-- Counterexample to C9 as stated: padding slots hold the raw Go nil,
not null-valued Values, and the stored value is reparented to the
array's module rather than being v itself. -/
theorem array_assoc_pad_counterexample :
    Array.AssocI (.mk (gs "m") []) 2 (.vobj (.mk [] [(gs "k", .vnull)])) =
      .ok (.mk (gs "m")
        [none, none, some (.vobj (.mk (gs "m") [(gs "m:k", .vnull)]))]) ∧
    (some (none : Option Value) ≠ some (some Value.vnull)) ∧
    Value.vobj (.mk (gs "m") [(gs "m:k", .vnull)]) ≠
      .vobj (.mk [] [(gs "k", .vnull)]) := by
  refine ⟨rfl, by simp, ?_⟩
  intro h
  injection h with h
  injection h with h1 h2
  exact absurd h1 (by decide)

/-- A fold of the decimal-digit accumulator from a dead state stays
dead. -/
theorem decFold_none (l : GoStr) :
    l.foldl (fun acc c =>
      match acc, digitVal? c with
      | some n, some d => some (n * 10 + d)
      | _, _ => none) none = none := by
  induction l with
  | nil => rfl
  | cons a rest ih => simpa using ih

/-- A non-digit member kills the decimal-digit fold from any state. -/
theorem decFold_mem_none (l : GoStr) (c : Char) (hc : c ∈ l)
    (hd : digitVal? c = none) (acc : Option Nat) :
    l.foldl (fun acc c =>
      match acc, digitVal? c with
      | some n, some d => some (n * 10 + d)
      | _, _ => none) acc = none := by
  induction l generalizing acc with
  | nil => cases hc
  | cons a rest ih =>
    rcases List.mem_cons.mp hc with h | h
    · subst h
      cases acc with
      | none => simpa [hd] using decFold_none rest
      | some n => simp only [List.foldl_cons, hd]; exact decFold_none rest
    · exact ih h _

/-- decNat? fails on any string containing a non-digit. -/
theorem decNat?_of_mem_nondigit (s : GoStr) (c : Char) (hc : c ∈ s)
    (hd : digitVal? c = none) : decNat? s = none := by
  cases s with
  | nil => cases hc
  | cons a rest =>
    simp only [decNat?]
    exact decFold_mem_none _ _ hc hd _

/-- `List.contains` implies membership. -/
theorem mem_of_contains (s : GoStr) (c : Char) (h : s.contains c = true) :
    c ∈ s := by
  simpa [List.contains_iff_exists_mem_beq] using h

/-- C3: the specification (and the decoder's own comment) promise an
f64 result for a quoted scalar with a numeric lead containing a '.',
but the float branch of the decoder lacks a return: the parsed float
is always overwritten by the following integer-parse failure, so every
such scalar decodes to the raw string.  "1.5" is a failing input, and
the divergence is universal over all signs. -/
theorem unmarshal_quoted_float_decodes_as_string :
    unmarshalJson (.jstr (gs "1.5")) [] = .ok (.vstr (gs "1.5")) ∧
    parseFloatOk (gs "1.5") = true ∧
    (∀ s : GoStr, s.contains '.' = true →
      ((∃ d r, s = d :: r ∧ goIsDigit d = true) ∨
       (∃ d r, s = '-' :: d :: r ∧ goIsDigit d = true) ∨
       (∃ d r, s = '+' :: d :: r ∧ goIsDigit d = true)) →
      unmarshalQuoted s = .vstr s) := by
  refine ⟨rfl, rfl, ?_⟩
  intro s hdot hlead
  rcases hlead with ⟨d, r, rfl, hd⟩ | ⟨d, r, rfl, hd⟩ | ⟨d, r, rfl, hd⟩
  · have hmem : '.' ∈ d :: r := mem_of_contains _ _ hdot
    have hdn : decNat? (d :: r) = none :=
      decNat?_of_mem_nondigit _ '.' hmem (by decide)
    have hgu : goParseUint 64 (d :: r) = none := by
      simp only [goParseUint, hdn]
    have hne1 : ¬(d = '-' ∧ (r.length ≥ 1)) := by
      rintro ⟨rfl, -⟩; revert hd; decide
    have hne2 : ¬(d = '+' ∧ (r.length ≥ 1)) := by
      rintro ⟨rfl, -⟩; revert hd; decide
    simp only [unmarshalQuoted, if_neg hne1, if_neg hne2]
    rw [if_pos hd]
    by_cases hf : (d :: r).contains '.' = true ∧ ¬parseFloatOk (d :: r) = true
    · rw [if_pos hf]
    · rw [if_neg hf, hgu]
  · have hmem : '.' ∈ d :: r :=
      Or.resolve_left (List.mem_cons.mp (mem_of_contains _ _ hdot)) (by decide)
    have hdn : decNat? (d :: r) = none :=
      decNat?_of_mem_nondigit _ '.' hmem (by decide)
    have hgi : goParseInt 64 ('-' :: d :: r) = none := by
      simp only [goParseInt, hdn]
    have hc1 : ('-' : Char) = '-' ∧ ((d :: r).length ≥ 1) := ⟨rfl, by simp⟩
    have hT : True ∧ ((d :: r).length ≥ 1) := ⟨trivial, by simp⟩
    simp only [unmarshalQuoted, if_pos hc1]
    rw [if_neg (not_not_intro hd)]
    by_cases hf :
        ('-' :: d :: r).contains '.' = true ∧
          ¬parseFloatOk ('-' :: d :: r) = true
    · rw [if_pos hf, if_pos hT]
    · rw [if_neg hf, hgi, if_pos hT]
  · have hmem : '.' ∈ d :: r :=
      Or.resolve_left (List.mem_cons.mp (mem_of_contains _ _ hdot)) (by decide)
    have hdn : decNat? (d :: r) = none :=
      decNat?_of_mem_nondigit _ '.' hmem (by decide)
    have hgu : goParseUint 64 (d :: r) = none := by
      simp only [goParseUint, hdn]
    have hc0 : ¬(('+' : Char) = '-' ∧ ((d :: r).length ≥ 1)) := by
      rintro ⟨h, -⟩; exact absurd h (by decide)
    have hc1 : ('+' : Char) = '+' ∧ ((d :: r).length ≥ 1) := ⟨rfl, by simp⟩
    have hT : True ∧ ((d :: r).length ≥ 1) := ⟨trivial, by simp⟩
    simp only [unmarshalQuoted, if_neg hc0, if_pos hc1]
    rw [if_neg (not_not_intro hd)]
    by_cases hf :
        ('+' :: d :: r).contains '.' = true ∧ ¬parseFloatOk (d :: r) = true
    · rw [if_pos hf, if_pos hT]
    · rw [if_neg hf, hgu, if_pos hT]

/-- Witness for C3 at the failing input. -/
theorem unmarshal_quoted_float_decodes_as_string_witness :
    unmarshalQuoted (gs "1.5") = .vstr (gs "1.5") :=
  unmarshal_quoted_float_decodes_as_string.2.2 (gs "1.5") rfl
    (.inl ⟨'1', gs ".5", rfl, rfl⟩)

/-- Unfolding of the Perform dispatch loop against the
specification-side first-match rule, assuming every rfc7951-string
handler in the list can render the value (no panic). -/
theorem performGo_go_spec (val : Value) (hs : List HTy)
    (hok : ∀ h ∈ hs, h = HTy.tString751 → isOk val.RFC7951String = true) :
    ∀ i, performGo.go val hs i = .ok (firstMatchSpec val hs i) := by
  induction hs with
  | nil => intro i; rfl
  | cons h rest ih =>
    have hok' : ∀ h' ∈ rest, h' = HTy.tString751 →
        isOk val.RFC7951String = true :=
      fun h' hm => hok h' (List.mem_cons_of_mem _ hm)
    have hih := ih hok'
    intro i
    cases hdt : dataTy val with
    | none =>
      by_cases hA : h = HTy.tAny
      · simp [performGo.go, firstMatchSpec, specMatchArg, hdt, hA]
      · simp only [performGo.go, firstMatchSpec, specMatchArg, hdt,
          if_neg hA]
        rw [hih (i + 1)]
    | some ty =>
      by_cases hV : h = HTy.tValue
      · simp [performGo.go, firstMatchSpec, specMatchArg, hdt, hV]
      by_cases hS : h = HTy.tString751
      · have hok1 : isOk val.RFC7951String = true :=
          hok h (List.mem_cons_self h rest) hS
        obtain ⟨s, hs751⟩ : ∃ s, val.RFC7951String = Except.ok s := by
          cases hx : val.RFC7951String with
          | ok s => exact ⟨s, rfl⟩
          | error e => rw [hx] at hok1; exact absurd hok1 (by simp [isOk])
        simp only [performGo.go, firstMatchSpec, specMatchArg, hdt,
          if_neg hV, if_pos hS, hs751]
        rfl
      by_cases hAT : h = HTy.tAny ∨ h = ty
      · simp [performGo.go, firstMatchSpec, specMatchArg, hdt, hV, hS, hAT]
      · cases hnc : numConvert val h with
        | some v2 =>
          simp [performGo.go, firstMatchSpec, specMatchArg, hdt, hV, hS,
            hAT, hnc]
        | none =>
          simp only [performGo.go, firstMatchSpec, specMatchArg, hdt,
            if_neg hV, if_neg hS, if_neg hAT, hnc]
          rw [hih (i + 1)]
          rfl

/-- C5 counterexample: the claim says a handler taking the Value cell
type matches every value, but a value holding a nil datum matches only
any-handlers — Perform on the null value with a single Value-handler
falls through to the null dispatch result, while the same handler does
match an ordinary value. -/
theorem perform_null_skips_value_handler :
    performGo (some .vnull) [HTy.tValue] = .ok none ∧
    performGo (some (.vbool true)) [HTy.tValue] =
      .ok (some (0, .self (.vbool true))) :=
  ⟨rfl, rfl⟩

/-- C5 (amended): Perform tries the handlers in order and applies the
first match — a nil receiver short-circuits to the null result; a
value with nil datum matches only any-handlers; a Value-cell handler
receives the cell; an rfc7951-string handler receives the rendered
string (provided rendering cannot panic when such a handler appears);
a handler of the stored variant type or the any type receives the
datum; a same-width opposite-signedness numeric handler matches when
the value fits, converting first; and with no match the result is the
null sentinel. -/
theorem perform_dispatch_first_match (val : Value) (hs : List HTy)
    (hok : ∀ h ∈ hs, h = HTy.tString751 → isOk val.RFC7951String = true) :
    performGo (some val) hs = .ok (firstMatchSpec val hs 0) ∧
    performGo none hs = .ok none := by
  refine ⟨?_, rfl⟩
  exact performGo_go_spec val hs hok 0

/-- Witness for C5 on a u32 value against an i64 handler (skipped), an
rfc7951-string handler (matched with the decimal rendering). -/
theorem perform_dispatch_first_match_witness :
    performGo (some (.vu32 5)) [HTy.tI64, HTy.tString751] =
      .ok (firstMatchSpec (.vu32 5) [HTy.tI64, HTy.tString751] 0) ∧
    performGo none [HTy.tI64, HTy.tString751] = .ok none :=
  perform_dispatch_first_match (.vu32 5) [HTy.tI64, HTy.tString751]
    (by decide)

/-- C8: during Find, a positional predicate requires the current value
to be an Array — anything else yields the null Value not-found — and
on an Array it yields the element at the (wrapped) index when in
bounds, not-found otherwise; and the final step of a segment's
predicate chain unwraps an accumulated Array exactly when its length
is one, reporting not-found for any other length. -/
theorem find_positional_and_final_unwrap :
    (∀ (p : Nat) (v : Option Value),
      (∀ a : Array, v ≠ some (.varr a)) →
      posFind p v = .ok (some .vnull, false)) ∧
    (∀ (p : Nat) (m : GoStr) (es : List (Option Value)),
      posFind p (some (.varr (.mk m es))) =
        if (Array.mk m es).ContainsI (wrapInt64 p) then
          ((Array.mk m es).AtI (wrapInt64 p)).map (fun e => (e, true))
        else .ok (none, false)) ∧
    (∀ (a : Array) (found : Bool), a.Length = 1 →
      predsFinal (some (.varr a)) found =
        (a.AtI 0).map (fun e => (e, found))) ∧
    (∀ (a : Array) (found : Bool), a.Length ≠ 1 →
      predsFinal (some (.varr a)) found = .ok (none, false)) := by
  refine ⟨?_, ?_, ?_, ?_⟩
  · intro p v hv
    match v with
    | none => rfl
    | some .vnull => rfl
    | some (.vbool b) => rfl
    | some .vempty => rfl
    | some (.vi32 n) => rfl
    | some (.vu32 n) => rfl
    | some (.vi64 n) => rfl
    | some (.vu64 n) => rfl
    | some (.vf64 r) => rfl
    | some (.vstr t) => rfl
    | some (.viid ii) => rfl
    | some (.vobj o) => rfl
    | some (.varr a) => exact absurd rfl (hv a)
  · intro p m es
    simp only [posFind]
    by_cases hc : (Array.mk m es).ContainsI (wrapInt64 p)
    · rw [if_pos hc, if_pos hc]
      cases hat : (Array.mk m es).AtI (wrapInt64 p) with
      | ok e => simp [hat, Except.map]
      | error e => simp [hat, Except.map]
    · rw [if_neg hc, if_neg hc]; rfl
  · intro a found h1
    cases a with
    | mk m es =>
      simp only [predsFinal]
      rw [if_pos h1]
      cases hat : (Array.mk m es).AtI 0 with
      | ok e => simp [hat, Except.map]
      | error e => simp [hat, Except.map]
  · intro a found h1
    cases a with
    | mk m es =>
      simp only [predsFinal]
      rw [if_neg h1]; rfl

/-- Witness for C8: a positional predicate against a boolean, an
in-bounds lookup in a two-element array, the unwrap of a singleton
array, and the rejection of an empty accumulation. -/
theorem find_positional_and_final_unwrap_witness :
    posFind 0 (some (.vbool true)) = .ok (some .vnull, false) ∧
    posFind 1 (some (.varr (.mk [] [some .vempty, some (.vbool false)]))) =
      (if (Array.mk [] [some .vempty, some (.vbool false)]).ContainsI
            (wrapInt64 1) then
        ((Array.mk [] [some .vempty, some (.vbool false)]).AtI
            (wrapInt64 1)).map (fun e => (e, true))
      else .ok (none, false)) ∧
    predsFinal (some (.varr (.mk [] [some (.vbool true)]))) true =
      ((Array.mk [] [some (.vbool true)]).AtI 0).map (fun e => (e, true)) ∧
    predsFinal (some (.varr (.mk [] []))) true = .ok (none, false) :=
  ⟨find_positional_and_final_unwrap.1 0 (some (.vbool true))
      (fun a h => by simp at h),
   find_positional_and_final_unwrap.2.1 1 [] [some .vempty, some (.vbool false)],
   find_positional_and_final_unwrap.2.2.1 (.mk [] [some (.vbool true)]) true
      (by decide),
   find_positional_and_final_unwrap.2.2.2 (.mk [] []) true (by decide)⟩

/-- Extending the current slice preserves the head-piece invariant. -/
theorem headPieceOk_push (acc : List GoStr) (cur : GoStr) (c : Char)
    (h : headPieceOk acc cur) : headPieceOk acc (cur ++ [c]) := by
  cases acc with
  | nil => simp [headPieceOk]
  | cons a t => exact h

/-- Flushing the current slice preserves the head-piece invariant for
any new slice. -/
theorem headPieceOk_flush (acc : List GoStr) (cur x : GoStr)
    (h : headPieceOk acc cur) : headPieceOk (acc ++ [cur]) x := by
  cases acc with
  | nil => simpa [headPieceOk] using h
  | cons a t => simpa [headPieceOk] using h

/-- When the splitter loop succeeds from a state satisfying the
head-piece invariant, the first returned piece is nonempty. -/
theorem getNodeIDStrings_go_head (input : GoStr) :
    ∀ (inS inD : Bool) (cur : GoStr) (acc : List GoStr)
      (pieces : List GoStr), headPieceOk acc cur →
    getNodeIDStrings.go input inS inD cur acc = .ok pieces →
    ∃ p rest, pieces = p :: rest ∧ p ≠ [] := by
  induction input with
  | nil =>
    intro inS inD cur acc pieces hP hok
    simp only [getNodeIDStrings.go] at hok
    cases hq : (inD || inS) with
    | true => rw [hq] at hok; exact absurd hok (by simp)
    | false =>
      rw [hq] at hok
      simp only [if_neg (show ¬(false = true) by simp)] at hok
      by_cases hcur : cur.isEmpty
      · rw [if_pos hcur] at hok
        cases acc with
        | nil =>
          exact absurd (List.isEmpty_iff.mp hcur) hP
        | cons a t =>
          exact ⟨a, t, by injection hok with h2; exact h2.symm, hP⟩
      · rw [if_neg hcur] at hok
        cases acc with
        | nil =>
          refine ⟨cur, [], ?_, fun he => hcur (by simp [he])⟩
          injection hok with h2; simp [← h2]
        | cons a t =>
          exact ⟨a, t ++ [cur], by injection hok with h2; simp [← h2], hP⟩
  | cons c rest ih =>
    intro inS inD cur acc pieces hP hok
    simp only [getNodeIDStrings.go] at hok
    by_cases h1 : c = '\''
    · rw [if_pos h1] at hok
      exact ih _ _ _ _ _ (headPieceOk_push acc cur c hP) hok
    · rw [if_neg h1] at hok
      by_cases h2 : c = '"'
      · rw [if_pos h2] at hok
        exact ih _ _ _ _ _ (headPieceOk_push acc cur c hP) hok
      · rw [if_neg h2] at hok
        by_cases h3 : c = '/'
        · rw [if_pos h3] at hok
          by_cases h4 : (!inD && !inS) = true
          · rw [if_pos h4] at hok
            exact ih _ _ _ _ _ (headPieceOk_flush acc cur [] hP) hok
          · rw [if_neg h4] at hok
            exact ih _ _ _ _ _ (headPieceOk_push acc cur c hP) hok
        · rw [if_neg h3] at hok
          exact ih _ _ _ _ _ (headPieceOk_push acc cur c hP) hok

/-- A failing parse core makes InstanceIDNew fail (with the wrapped
message). -/
theorem isErr_InstanceIDNew (input : GoStr)
    (h : isErr (InstanceIDNew.core input) = true) :
    isErr (InstanceIDNew input) = true := by
  unfold InstanceIDNew
  cases hc : InstanceIDNew.core input with
  | ok i => rw [hc] at h; exact absurd h (by simp [isErr])
  | error e => rfl

/-- The character-class loop of checkIDPart fails whenever the slice
still to scan holds a character outside even the loose (non-leading)
class. -/
theorem checkIDPart_go_err (s : GoStr) :
    ∀ (l : GoStr) (b : Bool) (c : Char), c ∈ l →
    ¬(goIsLetter c = true ∨ goIsDigit c = true ∨ c = '_' ∨ c = '-' ∨
      c = '.') →
    isErr (checkIDPart.go s l b) = true := by
  intro l
  induction l with
  | nil => intro b c hc; exact absurd hc (by simp)
  | cons a t ih =>
    intro b c hc hbad
    rcases List.mem_cons.mp hc with rfl | hmem
    · have hno : ¬(c = '_' ∨ goIsLetter c = true) := fun h =>
        h.elim (fun h2 => hbad (Or.inr (Or.inr (Or.inl h2))))
          (fun h2 => hbad (Or.inl h2))
      cases b with
      | true => simp [checkIDPart.go, hno, isErr]
      | false => simp [checkIDPart.go, hbad, isErr]
    · cases b with
      | true =>
        by_cases hh : a = '_' ∨ goIsLetter a = true
        · simp only [checkIDPart.go, if_pos (by simp : (true = true)),
            if_pos hh]
          exact ih false c hmem hbad
        · simp [checkIDPart.go, hh, isErr]
      | false =>
        by_cases hh : goIsLetter a = true ∨ goIsDigit a = true ∨ a = '_' ∨
            a = '-' ∨ a = '.'
        · simp only [checkIDPart.go, if_neg (by simp : ¬(false = true)),
            if_pos hh]
          exact ih false c hmem hbad
        · simp [checkIDPart.go, hh, isErr]

/-- Splitting a non-'/'-headed input leaves a nonempty first piece. -/
theorem getNodeIDStrings_nonslash (c : Char) (hc : c ≠ '/') (s : GoStr)
    (pieces : List GoStr)
    (hok : getNodeIDStrings (c :: s) = .ok pieces) :
    ∃ p rest, pieces = p :: rest ∧ p ≠ [] := by
  simp only [getNodeIDStrings] at hok
  simp only [getNodeIDStrings.go] at hok
  by_cases h1 : c = '\''
  · rw [if_pos h1] at hok
    exact getNodeIDStrings_go_head s _ _ _ _ _ (by simp [headPieceOk]) hok
  · rw [if_neg h1] at hok
    by_cases h2 : c = '"'
    · rw [if_pos h2] at hok
      exact getNodeIDStrings_go_head s _ _ _ _ _ (by simp [headPieceOk]) hok
    · rw [if_neg h2, if_neg hc] at hok
      exact getNodeIDStrings_go_head s _ _ _ _ _ (by simp [headPieceOk]) hok

/-- C6 counterexample: the claim's "characters outside the grammar"
family fails — identifier validation uses unicode.IsLetter, so the
non-ASCII letter é (outside the RFC 7951 instance-identifier grammar,
which places it outside every allowed class) is accepted and the parse
succeeds. -/
theorem instance_id_accepts_nonascii_identifier :
    InstanceIDNew (gs "/m:aé") =
      .ok ⟨[nodeID.mk (gs "m") (gs "aé") false none]⟩ ∧
    ¬(('a' ≤ 'é' ∧ 'é' ≤ 'z') ∨ ('A' ≤ 'é' ∧ 'é' ≤ 'Z') ∨ 'é' = '_' ∨
      'é' = '-' ∨ 'é' = '.' ∨ goIsDigit 'é' = true) :=
  ⟨rfl, by decide⟩

/-- C6 (amended): every listed malformed shape is a fatal parse
failure with a short reason — universally: any input not starting with
'/' fails, any identifier part with a case-insensitive "xml" lead
fails with the xml message, and any identifier part holding a
character outside the character classes the code enforces (unicode
letters, digits, '_', '-', '.') fails; and each of the repository's
twelve malformed inputs fails with exactly the wrapped message the
source produces (empty input, bare '/', missing lead, missing prefix,
unterminated quote, xml lead, bad characters in identifier or prefix,
nested predicates, unterminated predicate, '='-less expression
predicate, unquoted predicate value). -/
theorem instance_id_parse_error_reporting :
    (∀ (c : Char) (s : GoStr), c ≠ '/' →
      isErr (InstanceIDNew (c :: s)) = true) ∧
    (∀ s : GoStr, s.length ≥ 3 → (s.take 3).map asciiUpper = gs "XML" →
      checkIDPart s =
        .error (gs "invalid identifier, not allowed to start with xml: "
          ++ s)) ∧
    (∀ (s : GoStr) (c : Char), c ∈ s →
      ¬(goIsLetter c = true ∨ goIsDigit c = true ∨ c = '_' ∨ c = '-' ∨
        c = '.') →
      isErr (checkIDPart s) = true) ∧
    InstanceIDNew (gs "") = .error
      (gs "invalid instance identifier: must specify at least one node-identifier") ∧
    InstanceIDNew (gs "/") = .error
      (gs "invalid instance identifier: must specify at least one node-identifier") ∧
    InstanceIDNew (gs "foo") = .error
      (gs "invalid instance identifier: must start with a \"/\"") ∧
    InstanceIDNew (gs "/foo") = .error
      (gs "invalid instance identifier: unable to determine prefix") ∧
    InstanceIDNew (gs "/foo[id='foo]") = .error
      (gs "invalid instance identifier: unterminated quote") ∧
    InstanceIDNew (gs "/xml2:m") = .error
      (gs "invalid instance identifier: invalid identifier, not allowed to start with xml: xml2") ∧
    InstanceIDNew (gs "/foo?:m") = .error
      (gs "invalid instance identifier: invalid node-identifier foo?") ∧
    InstanceIDNew (gs "/?foo:m") = .error
      (gs "invalid instance identifier: invalid node-identifier ?foo") ∧
    InstanceIDNew (gs "/m:foo[b[a='b']='c']") = .error
      (gs "invalid instance identifier: nested predicates are not allowed") ∧
    InstanceIDNew (gs "/m:foo[b='c'") = .error
      (gs "invalid instance identifier: unterminated predicate") ∧
    InstanceIDNew (gs "/m:foo[b]") = .error
      (gs "invalid instance identifier: invalid predicate expression b") ∧
    InstanceIDNew (gs "/m:foo[b=c]") = .error
      (gs "invalid instance identifier: invalid predicate, expected ''' or '\"'") := by
  refine ⟨?_, ?_, ?_, rfl, rfl, rfl, rfl, rfl, rfl, rfl, rfl, rfl, rfl,
    rfl, rfl⟩
  · intro c s hc
    apply isErr_InstanceIDNew
    cases hg : getNodeIDStrings (c :: s) with
    | error e =>
      unfold InstanceIDNew.core
      rw [hg]
      rfl
    | ok pieces =>
      obtain ⟨p, rest2, rfl, hp⟩ := getNodeIDStrings_nonslash c hc s pieces hg
      unfold InstanceIDNew.core
      rw [hg]
      show isErr (if p ≠ [] then
          Except.error (gs "must start with a \"/\"")
        else if rest2.isEmpty then
          Except.error (gs "must specify at least one node-identifier")
        else do
          let ids ← parseSegs [] rest2
          Except.ok (InstanceID.mk ids)) = true
      rw [if_pos hp]
      rfl
  · intro s h3 hxml
    simp only [checkIDPart,
      if_pos (⟨h3, hxml⟩ :
        s.length ≥ 3 ∧ (s.take 3).map asciiUpper = gs "XML")]
  · intro s c hc hbad
    by_cases hx : s.length ≥ 3 ∧ (s.take 3).map asciiUpper = gs "XML"
    · simp [checkIDPart, hx, isErr]
    · simp only [checkIDPart, if_neg hx]
      exact checkIDPart_go_err s s true c hc hbad

/-- Witness for C6 at a non-slash lead, an xml-led identifier and an
identifier with a character outside the enforced classes. -/
theorem instance_id_parse_error_reporting_witness :
    isErr (InstanceIDNew (gs "a")) = true ∧
    checkIDPart (gs "xml2") =
      .error (gs "invalid identifier, not allowed to start with xml: xml2") ∧
    isErr (checkIDPart (gs "fo?")) = true :=
  ⟨instance_id_parse_error_reporting.1 'a' [] (by decide),
   instance_id_parse_error_reporting.2.1 (gs "xml2") (by decide) (by decide),
   instance_id_parse_error_reporting.2.2.1 (gs "fo?") '?' (by decide)
     (by decide)⟩

/-- Membership implies the Boolean contains. -/
theorem contains_of_mem (s : GoStr) (c : Char) (h : c ∈ s) :
    s.contains c = true := by
  simp [List.contains_iff_exists_mem_beq]
  exact h

/-- Every character of a checkIDPart-accepted string lies in the loose
identifier class. -/
theorem checkIDPart_ok_class (s : GoStr) (hok : isOk (checkIDPart s) = true)
    (c : Char) (hc : c ∈ s) :
    goIsLetter c = true ∨ goIsDigit c = true ∨ c = '_' ∨ c = '-' ∨
      c = '.' := by
  by_contra hbad
  have herr : isErr (checkIDPart s) = true := by
    by_cases hx : s.length ≥ 3 ∧ (s.take 3).map asciiUpper = gs "XML"
    · simp [checkIDPart, hx, isErr]
    · simp only [checkIDPart, if_neg hx]
      exact checkIDPart_go_err s s true c hc hbad
  cases hck : checkIDPart s with
  | ok u => rw [hck] at herr; exact absurd herr (by simp [isErr])
  | error e => rw [hck] at hok; exact absurd hok (by simp [isOk])

/-- Characters of the identifier class are none of the structural
characters of the instance-identifier syntax. -/
theorem class_not_special (c : Char)
    (h : goIsLetter c = true ∨ goIsDigit c = true ∨ c = '_' ∨ c = '-' ∨
      c = '.') :
    c ≠ ':' ∧ c ≠ '[' ∧ c ≠ ']' ∧ c ≠ '/' ∧ c ≠ '\'' ∧ c ≠ '"' ∧
      c ≠ '=' ∧ c ≠ ' ' ∧ c ≠ Char.ofNat 9 := by
  refine ⟨?_, ?_, ?_, ?_, ?_, ?_, ?_, ?_, ?_⟩ <;> rintro rfl <;>
    revert h <;> decide

/-- A successful Except Unit computation is ok (). -/
theorem eq_ok_of_isOk {α : Type} (e : Except α Unit)
    (h : isOk e = true) : e = .ok () := by
  cases e with
  | ok u => cases u; rfl
  | error x => exact absurd h (by simp [isOk])

/-- A valid identifier part passes checkIDPart, is nonempty, and
contains no structural character. -/
theorem validIdent_spec (s : GoStr) (h : validIdent s = true) :
    checkIDPart s = .ok () ∧ s ≠ [] ∧
    (∀ c ∈ s, c ≠ ':' ∧ c ≠ '[' ∧ c ≠ ']' ∧ c ≠ '/' ∧ c ≠ '\'' ∧
      c ≠ '"' ∧ c ≠ '=' ∧ c ≠ ' ' ∧ c ≠ Char.ofNat 9) := by
  have h1 : !s.isEmpty = true ∧ isOk (checkIDPart s) = true := by
    simpa [validIdent] using h
  refine ⟨eq_ok_of_isOk _ h1.2, ?_, ?_⟩
  · intro he; rw [he] at h1; simpa using h1.1
  · intro c hc
    exact class_not_special c (checkIDPart_ok_class s h1.2 c hc)

/-- dropWhile is the identity when the head already fails the
predicate. -/
theorem dropWhile_noop (p : Char → Bool) (l : GoStr)
    (h : ∀ c ∈ l, p c = false) : l.dropWhile p = l := by
  cases l with
  | nil => rfl
  | cons a t => simp [List.dropWhile_cons, h a (List.mem_cons_self a t)]

/-- Trimming is the identity on a string without cutset characters. -/
theorem trim_noop_all (cut s : GoStr)
    (h : ∀ c ∈ s, cut.contains c = false) : trimCut cut s = s := by
  unfold trimCut dropLeadCut
  rw [dropWhile_noop _ _ h]
  rw [dropWhile_noop _ _ (fun c hc => h c (List.mem_reverse.mp hc))]
  exact List.reverse_reverse s

/-- SplitN with a separator absent from the string. -/
theorem splitN2_no_sep (sep : Char) (s : GoStr) (h : sep ∉ s) :
    splitN2 sep s = (s, none) := by
  induction s with
  | nil => rfl
  | cons c rest ih =>
    have hc : ¬c = sep := fun he => h (he ▸ List.mem_cons_self c rest)
    have hr : sep ∉ rest := fun hm => h (List.mem_cons_of_mem _ hm)
    simp [splitN2, hc, ih hr]

/-- SplitN at the first separator, when the part before it is
separator-free. -/
theorem splitN2_append (sep : Char) (p r : GoStr) (h : sep ∉ p) :
    splitN2 sep (p ++ sep :: r) = (p, some r) := by
  induction p with
  | nil => simp [splitN2]
  | cons c rest ih =>
    have hc : ¬c = sep := fun he => h (he ▸ List.mem_cons_self c rest)
    have hr : sep ∉ rest := fun hm => h (List.mem_cons_of_mem _ hm)
    simp [splitN2, hc, ih hr]

/-- Index of the first occurrence, when the part before it is free of
the target. -/
theorem idxOfChar?_append (t : Char) (p r : GoStr) (h : t ∉ p) :
    idxOfChar? t (p ++ t :: r) = some p.length := by
  induction p with
  | nil => simp [idxOfChar?]
  | cons c rest ih =>
    have hc : ¬c = t := fun he => h (he ▸ List.mem_cons_self c rest)
    have hr : t ∉ rest := fun hm => h (List.mem_cons_of_mem _ hm)
    simp [idxOfChar?, hc, ih hr]

/-- Digit characters round-trip through digitVal?. -/
theorem digitVal?_digitChar (d : Nat) (h : d < 10) :
    digitVal? (digitChar d) = some d := by
  interval_cases d <;> decide

/-- digitChar renders a digit-class character. -/
theorem goIsDigit_digitChar (d : Nat) (h : d < 10) :
    goIsDigit (digitChar d) = true := by
  interval_cases d <;> decide

/-- Every character of a rendered natural number is a digit. -/
theorem natDecCore_digits (fuel : Nat) :
    ∀ (n : Nat) (c : Char), c ∈ natDecCore fuel n → goIsDigit c = true := by
  induction fuel with
  | zero => intro n c hc; exact absurd hc (by simp [natDecCore])
  | succ f ih =>
    intro n c hc
    by_cases hn : n < 10
    · simp only [natDecCore, if_pos hn] at hc
      have : c = digitChar n := by simpa using hc
      subst this
      exact goIsDigit_digitChar n hn
    · simp only [natDecCore, if_neg hn] at hc
      rcases List.mem_append.mp hc with h1 | h1
      · exact ih _ _ h1
      · have : c = digitChar (n % 10) := by simpa using h1
        subst this
        exact goIsDigit_digitChar _ (Nat.mod_lt _ (by norm_num))

/-- A rendered natural number is never empty. -/
theorem natDecCore_ne_nil (fuel n : Nat) :
    natDecCore (fuel + 1) n ≠ [] := by
  by_cases hn : n < 10
  · simp [natDecCore, hn]
  · simp [natDecCore, hn]

/-- The decimal fold recovers the rendered value over any
accumulator. -/
theorem natDecCore_fold (fuel : Nat) :
    ∀ (n a : Nat), n ≤ fuel →
    ∃ w, (natDecCore (fuel + 1) n).foldl (fun acc c =>
      match acc, digitVal? c with
      | some m, some d => some (m * 10 + d)
      | _, _ => none) (some a) = some (a * w + n) ∧ 0 < w := by
  induction fuel with
  | zero =>
    intro n a hn
    interval_cases n
    refine ⟨10, ?_, by norm_num⟩
    simp [natDecCore, digitVal?_digitChar 0 (by norm_num)]
  | succ f ih =>
    intro n a hn
    by_cases hlt : n < 10
    · refine ⟨10, ?_, by norm_num⟩
      simp only [natDecCore, if_pos hlt, List.foldl_cons, List.foldl_nil,
        digitVal?_digitChar n hlt]
    · have h10 : n / 10 ≤ f := by omega
      obtain ⟨w, hw, hwpos⟩ := ih (n / 10) a h10
      refine ⟨w * 10, ?_, by positivity⟩
      have hmod : n / 10 * 10 + n % 10 = n := by omega
      have halg : (a * w + n / 10) * 10 + n % 10 = a * (w * 10) + n := by
        calc (a * w + n / 10) * 10 + n % 10
            = a * (w * 10) + (n / 10 * 10 + n % 10) := by ring
          _ = a * (w * 10) + n := by rw [hmod]
      have hcore : natDecCore (f + 1 + 1) n =
          natDecCore (f + 1) (n / 10) ++ [digitChar (n % 10)] := by
        conv_lhs => rw [natDecCore]
        rw [if_neg hlt]
      rw [hcore, List.foldl_append, hw, List.foldl_cons,
        digitVal?_digitChar (n % 10) (Nat.mod_lt _ (by norm_num)),
        List.foldl_nil]
      exact congrArg some halg

/-- Decimal rendering round-trips through decNat?. -/
theorem decNat?_natDec (n : Nat) : decNat? (natDec n) = some n := by
  obtain ⟨w, hw, -⟩ := natDecCore_fold n n 0 le_rfl
  have hne : natDecCore (n + 1) n ≠ [] := natDecCore_ne_nil n n
  unfold decNat? natDec
  cases hd : natDecCore (n + 1) n with
  | nil => exact absurd hd hne
  | cons a t =>
    rw [← hd]
    simpa using hw

/-- Rendered naturals below the bit bound round-trip through
goParseUint. -/
theorem goParseUint_natDec (bits n : Nat) (h : n < 2 ^ bits) :
    goParseUint bits (natDec n) = some n := by
  simp [goParseUint, decNat?_natDec, h]

/-- Running the path splitter across a slash-free, double-quote-free
stretch appends it to the current slice and flips the single-quote
state by the stretch's quote parity. -/
theorem nodeSplit_through (t : GoStr) (seg : GoStr) :
    ∀ (inS inD : Bool) (cur : GoStr) (acc : List GoStr),
    '/' ∉ seg → '"' ∉ seg →
    getNodeIDStrings.go (seg ++ t) inS inD cur acc =
      getNodeIDStrings.go t (xor (seg.count '\'' % 2 == 1) inS) inD
        (cur ++ seg) acc := by
  induction seg with
  | nil => intro inS inD cur acc h1 h2; simp
  | cons a s' ih =>
    intro inS inD cur acc h1 h2
    have ha1 : ¬a = '/' := fun he => h1 (he ▸ List.mem_cons_self a s')
    have ha2 : ¬a = '"' := fun he => h2 (he ▸ List.mem_cons_self a s')
    have hs1 : '/' ∉ s' := fun hm => h1 (List.mem_cons_of_mem _ hm)
    have hs2 : '"' ∉ s' := fun hm => h2 (List.mem_cons_of_mem _ hm)
    by_cases hq : a = '\''
    · subst hq
      simp only [List.cons_append, getNodeIDStrings.go, List.append_eq,
        eq_self_iff_true, if_true]
      rw [ih (!inS) inD (cur ++ ['\'']) acc hs1 hs2]
      have hcount : ('\'' :: s').count '\'' = s'.count '\'' + 1 := by
        simp [List.count_cons]
      have hb : xor (s'.count '\'' % 2 == 1) (!inS) =
          xor ((('\'' :: s').count '\'') % 2 == 1) inS := by
        rw [hcount]
        rcases Nat.mod_two_eq_zero_or_one (s'.count '\'') with h | h <;>
          simp [h, Nat.add_mod]
      have hcur : (cur ++ ['\'']) ++ s' = cur ++ ('\'' :: s') := by simp
      rw [hb, hcur]
    · simp only [List.cons_append, getNodeIDStrings.go, if_neg hq,
        if_neg ha2, if_neg ha1]
      show getNodeIDStrings.go (s' ++ t) inS inD (cur ++ [a]) acc =
        getNodeIDStrings.go t
          ((List.count '\'' (a :: s') % 2 == 1) ^^ inS) inD
          (cur ++ a :: s') acc
      rw [ih inS inD (cur ++ [a]) acc hs1 hs2]
      have hcount : (a :: s').count '\'' = s'.count '\'' := by
        simp [List.count_cons, hq]
      have hcur : (cur ++ [a]) ++ s' = cur ++ (a :: s') := by simp
      rw [hcount, hcur]

/-- The path splitter on slash-joined well-behaved segments returns
exactly the segments, appended to the accumulator. -/
theorem nodeSplit_segs :
    ∀ (segs : List GoStr) (acc : List GoStr),
    (∀ seg ∈ segs, seg ≠ [] ∧ '/' ∉ seg ∧ '"' ∉ seg ∧
      seg.count '\'' % 2 = 0) →
    getNodeIDStrings.go (List.intercalate ['/'] segs) false false [] acc =
      .ok (acc ++ segs) := by
  intro segs
  induction segs with
  | nil =>
    intro acc h
    simp [List.intercalate, getNodeIDStrings.go]
  | cons seg rest ih =>
    intro acc h
    obtain ⟨hne, hns, hnd, hq⟩ := h seg (List.mem_cons_self seg rest)
    have hq0 : (seg.count '\'' % 2 == 1) = false := by simp [hq]
    have hemp : seg.isEmpty = false := by
      cases seg with
      | nil => exact absurd rfl hne
      | cons x xs => rfl
    cases rest with
    | nil =>
      have hi : List.intercalate ['/'] [seg] = seg := by
        simp [List.intercalate]
      rw [hi]
      calc getNodeIDStrings.go seg false false [] acc
          = getNodeIDStrings.go (seg ++ []) false false [] acc := by
            rw [List.append_nil]
        _ = getNodeIDStrings.go []
              (xor (seg.count '\'' % 2 == 1) false) false ([] ++ seg)
              acc := nodeSplit_through [] seg false false [] acc hns hnd
        _ = .ok (acc ++ [seg]) := by
            rw [hq0]
            simp [getNodeIDStrings.go, hemp]
    | cons seg2 rest2 =>
      have hi : List.intercalate ['/'] (seg :: seg2 :: rest2) =
          seg ++ '/' :: List.intercalate ['/'] (seg2 :: rest2) := by
        simp [List.intercalate, List.intersperse]
      rw [hi]
      calc getNodeIDStrings.go
            (seg ++ '/' :: List.intercalate ['/'] (seg2 :: rest2))
            false false [] acc
          = getNodeIDStrings.go
              ('/' :: List.intercalate ['/'] (seg2 :: rest2))
              (xor (seg.count '\'' % 2 == 1) false) false ([] ++ seg)
              acc :=
            nodeSplit_through _ seg false false [] acc hns hnd
        _ = getNodeIDStrings.go (List.intercalate ['/'] (seg2 :: rest2))
              false false [] (acc ++ [seg]) := by
            rw [hq0]
            simp [getNodeIDStrings.go]
        _ = .ok ((acc ++ [seg]) ++ (seg2 :: rest2)) :=
            ih (acc ++ [seg])
              (fun s hs => h s (List.mem_cons_of_mem _ hs))
        _ = .ok (acc ++ seg :: seg2 :: rest2) := by simp
/-- The full path splitter on a printed instance identifier: a leading
empty piece, then the segments. -/
theorem getNodeIDStrings_print (segs : List GoStr)
    (h : ∀ seg ∈ segs, seg ≠ [] ∧ '/' ∉ seg ∧ '"' ∉ seg ∧
      seg.count '\'' % 2 = 0) :
    getNodeIDStrings ('/' :: List.intercalate ['/'] segs) =
      .ok ([] :: segs) := by
  have h0 : getNodeIDStrings ('/' :: List.intercalate ['/'] segs) =
      getNodeIDStrings.go (List.intercalate ['/'] segs) false false []
        [[]] := rfl
  rw [h0, nodeSplit_segs segs [[]] h]
  rfl

/-- Running the predicate splitter across a bracket-free,
double-quote-free stretch inside a predicate appends it to the current
slice and flips the single-quote state by the stretch's quote
parity. -/
theorem predSplit_through (t : GoStr) (content : GoStr) :
    ∀ (inS : Bool) (cur : GoStr) (acc : List GoStr),
    '[' ∉ content → ']' ∉ content → '"' ∉ content →
    getPredicateStrings.go (content ++ t) inS false true cur acc =
      getPredicateStrings.go t (xor (content.count '\'' % 2 == 1) inS)
        false true (cur ++ content) acc := by
  induction content with
  | nil => intro inS cur acc h1 h2 h3; simp
  | cons a s' ih =>
    intro inS cur acc h1 h2 h3
    have ha1 : ¬a = '[' := fun he => h1 (he ▸ List.mem_cons_self a s')
    have ha2 : ¬a = ']' := fun he => h2 (he ▸ List.mem_cons_self a s')
    have ha3 : ¬a = '"' := fun he => h3 (he ▸ List.mem_cons_self a s')
    have hs1 : '[' ∉ s' := fun hm => h1 (List.mem_cons_of_mem _ hm)
    have hs2 : ']' ∉ s' := fun hm => h2 (List.mem_cons_of_mem _ hm)
    have hs3 : '"' ∉ s' := fun hm => h3 (List.mem_cons_of_mem _ hm)
    by_cases hq : a = '\''
    · subst hq
      simp only [List.cons_append, getPredicateStrings.go, if_neg ha1,
        if_neg ha2, eq_self_iff_true, if_true]
      show getPredicateStrings.go (s' ++ t) (!inS) false true
          (cur ++ ['\'']) acc = _
      rw [ih (!inS) (cur ++ ['\'']) acc hs1 hs2 hs3]
      have hcount : ('\'' :: s').count '\'' = s'.count '\'' + 1 := by
        simp [List.count_cons]
      have hb : xor (s'.count '\'' % 2 == 1) (!inS) =
          xor ((('\'' :: s').count '\'') % 2 == 1) inS := by
        rw [hcount]
        rcases Nat.mod_two_eq_zero_or_one (s'.count '\'') with h | h <;>
          simp [h, Nat.add_mod]
      have hcur : (cur ++ ['\'']) ++ s' = cur ++ ('\'' :: s') := by simp
      rw [hb, hcur]
    · simp only [List.cons_append, getPredicateStrings.go, if_neg ha1,
        if_neg ha2, if_neg hq, if_neg ha3]
      show getPredicateStrings.go (s' ++ t) inS false true (cur ++ [a])
          acc = _
      rw [ih inS (cur ++ [a]) acc hs1 hs2 hs3]
      have hcount : (a :: s').count '\'' = s'.count '\'' := by
        simp [List.count_cons, hq]
      have hcur : (cur ++ [a]) ++ s' = cur ++ (a :: s') := by simp
      rw [hcount, hcur]

/-- The predicate splitter on a printed predicate list returns exactly
the bracketed units. -/
theorem predSplit_list :
    ∀ (ps : List Pred) (acc : List GoStr),
    (∀ p ∈ ps, '[' ∉ predToStr p ∧ ']' ∉ predToStr p ∧
      '"' ∉ predToStr p ∧ (predToStr p).count '\'' % 2 = 0) →
    getPredicateStrings.go (predListToStr ps) false false false [] acc =
      .ok (acc ++ ps.map (fun q => '[' :: predToStr q ++ [']'])) := by
  intro ps
  induction ps with
  | nil =>
    intro acc h
    simp [predListToStr, getPredicateStrings.go]
  | cons p rest ih =>
    intro acc h
    obtain ⟨hc1, hc2, hc3, hc4⟩ := h p (List.mem_cons_self p rest)
    have hq0 : ((predToStr p).count '\'' % 2 == 1) = false := by
      simp [hc4]
    simp only [predListToStr]
    calc getPredicateStrings.go
          ('[' :: (predToStr p ++ ']' :: predListToStr rest))
          false false false [] acc
        = getPredicateStrings.go
            (predToStr p ++ ']' :: predListToStr rest)
            false false true ['['] acc := rfl
      _ = getPredicateStrings.go (']' :: predListToStr rest)
            (xor ((predToStr p).count '\'' % 2 == 1) false) false true
            (['['] ++ predToStr p) acc :=
          predSplit_through _ (predToStr p) false ['['] acc hc1 hc2 hc3
      _ = getPredicateStrings.go (predListToStr rest)
            false false false []
            (acc ++ [('[' :: predToStr p) ++ [']']]) := by
          rw [hq0]
          rfl
      _ = .ok ((acc ++ [('[' :: predToStr p) ++ [']']]) ++
            rest.map (fun q => '[' :: predToStr q ++ [']'])) :=
          ih _ (fun q hq2 => h q (List.mem_cons_of_mem _ hq2))
      _ = .ok (acc ++
            (p :: rest).map (fun q => '[' :: predToStr q ++ [']'])) := by
          simp
/-- A well-formed expression key prints as its identifier alone. -/
theorem wfKey_toStr (pfx : GoStr) (k : nodeID) (h : wfKeyP pfx k = true) :
    nodeID.toStr k = k.ident ∧ k.pfx = pfx ∧ k.pfxInferred = true ∧
    k.predicates = none ∧
    (k.ident = gs "." ∨ validIdent k.ident = true) := by
  cases k with
  | mk p i inf preds =>
    simp only [wfKeyP, nodeID.pfx, nodeID.pfxInferred, nodeID.predicates,
      nodeID.ident, Bool.and_eq_true] at h
    obtain ⟨⟨⟨hp, hinf⟩, hnone⟩, hident⟩ := h
    have hp' : p = pfx := by simpa using hp
    have hnone' : preds = none := by simpa [Option.isNone_iff_eq_none] using hnone
    have hident' : i = gs "." ∨ validIdent i = true := by
      simpa using hident
    refine ⟨?_, hp', hinf, hnone', hident'⟩
    rw [hnone']
    simp [nodeID.toStr, hinf, predsToStr, nodeID.ident]

/-- Characters of a printed predicate: no bracket, double quote,
slash or colon, and an even number of single quotes. -/
theorem predToStr_chars (pfx : GoStr) (p : Pred) (h : wfPredP pfx p = true) :
    (∀ c ∈ predToStr p,
      c ≠ '[' ∧ c ≠ ']' ∧ c ≠ '"' ∧ c ≠ '/' ∧ c ≠ ':') ∧
    (predToStr p).count '\'' % 2 = 0 := by
  cases p with
  | pos n =>
    constructor
    · intro c hc
      have hd : goIsDigit c = true :=
        natDecCore_digits (n + 1) n c (by simpa [predToStr, natDec] using hc)
      have t := class_not_special c (Or.inr (Or.inl hd))
      exact ⟨t.2.1, t.2.2.1, t.2.2.2.2.2.1, t.2.2.2.1, t.1⟩
    · have hnq : '\'' ∉ predToStr (.pos n) := by
        intro hc
        have hd : goIsDigit '\'' = true :=
          natDecCore_digits (n + 1) n '\''
            (by simpa [predToStr, natDec] using hc)
        revert hd; decide
      simp [List.count_eq_zero.mpr hnq]
  | expr k v =>
    have hw : wfKeyP pfx k = true ∧ v.all validValueChar = true := by
      simpa [wfPredP, Bool.and_eq_true] using h
    obtain ⟨hks, hkp, hkinf, hknone, hkident⟩ := wfKey_toStr pfx k hw.1
    have hkchars : ∀ c ∈ nodeID.toStr k,
        c ≠ '[' ∧ c ≠ ']' ∧ c ≠ '"' ∧ c ≠ '/' ∧ c ≠ ':' ∧ c ≠ '\'' := by
      rw [hks]
      rcases hkident with hdot | hvi
      · rw [hdot]
        intro c hc
        have hcd : c = '.' := by simpa [gs] using hc
        subst hcd
        exact ⟨by decide, by decide, by decide, by decide, by decide,
          by decide⟩
      · intro c hc
        have t := (validIdent_spec _ hvi).2.2 c hc
        exact ⟨t.2.1, t.2.2.1, t.2.2.2.2.2.1, t.2.2.2.1, t.1,
          t.2.2.2.2.1⟩
    have hvchars : ∀ c ∈ v,
        c ≠ '[' ∧ c ≠ ']' ∧ c ≠ '"' ∧ c ≠ '/' ∧ c ≠ ':' ∧ c ≠ '\'' := by
      intro c hc
      have hx := List.all_eq_true.mp hw.2 c hc
      simp only [validValueChar, Bool.not_eq_true',
        Bool.or_eq_false_iff, decide_eq_false_iff_not] at hx
      obtain ⟨⟨⟨⟨⟨⟨⟨hsl, hlb⟩, hrb⟩, hco⟩, hsq⟩, hdq⟩, hsp⟩, htb⟩ := hx
      exact ⟨hlb, hrb, hdq, hsl, hco, hsq⟩
    refine ⟨?_, ?_⟩
    · intro c hc
      simp only [predToStr] at hc
      rcases List.mem_append.mp hc with h1 | h1
      · rcases List.mem_append.mp h1 with h2 | h2
        · have t := hkchars c h2
          exact ⟨t.1, t.2.1, t.2.2.1, t.2.2.2.1, t.2.2.2.2.1⟩
        · rcases List.mem_cons.mp h2 with rfl | h3
          · exact ⟨by decide, by decide, by decide, by decide, by decide⟩
          rcases List.mem_cons.mp h3 with rfl | h4
          · exact ⟨by decide, by decide, by decide, by decide, by decide⟩
          · have t := hvchars c h4
            exact ⟨t.1, t.2.1, t.2.2.1, t.2.2.2.1, t.2.2.2.2.1⟩
      · have hcq : c = '\'' := by simpa using h1
        subst hcq
        exact ⟨by decide, by decide, by decide, by decide, by decide⟩
    · have hk0 : (nodeID.toStr k).count '\'' = 0 :=
        List.count_eq_zero.mpr (fun hm => (hkchars _ hm).2.2.2.2.2 rfl)
      have hv0 : v.count '\'' = 0 :=
        List.count_eq_zero.mpr (fun hm => (hvchars _ hm).2.2.2.2.2 rfl)
      simp [predToStr, List.count_append, List.count_cons, hk0, hv0]

/-- Characters of a printed predicate list: no slash, double quote or
colon, even single-quote count, and a leading bracket on each unit. -/
theorem predListToStr_facts (pfx : GoStr) (ps : List Pred)
    (h : ∀ p ∈ ps, wfPredP pfx p = true) :
    '/' ∉ predListToStr ps ∧ '"' ∉ predListToStr ps ∧
    ':' ∉ predListToStr ps ∧
    (predListToStr ps).count '\'' % 2 = 0 := by
  induction ps with
  | nil => simp [predListToStr]
  | cons p rest ih =>
    obtain ⟨hr1, hr2, hr3, hr4⟩ :=
      ih (fun q hq => h q (List.mem_cons_of_mem _ hq))
    obtain ⟨hchars, hcount⟩ :=
      predToStr_chars pfx p (h p (List.mem_cons_self p rest))
    have hmem : ∀ x : Char, x ∈ predListToStr (p :: rest) →
        x = '[' ∨ x ∈ predToStr p ∨ x = ']' ∨ x ∈ predListToStr rest := by
      intro x hx
      simp only [predListToStr] at hx
      rcases List.mem_cons.mp hx with rfl | h2
      · exact Or.inl rfl
      rcases List.mem_append.mp h2 with h3 | h3
      · exact Or.inr (Or.inl h3)
      rcases List.mem_cons.mp h3 with rfl | h4
      · exact Or.inr (Or.inr (Or.inl rfl))
      · exact Or.inr (Or.inr (Or.inr h4))
    refine ⟨?_, ?_, ?_, ?_⟩
    · intro hx
      rcases hmem '/' hx with h1 | h1 | h1 | h1
      · exact absurd h1 (by decide)
      · exact (hchars _ h1).2.2.2.1 rfl
      · exact absurd h1 (by decide)
      · exact hr1 h1
    · intro hx
      rcases hmem '"' hx with h1 | h1 | h1 | h1
      · exact absurd h1 (by decide)
      · exact (hchars _ h1).2.2.1 rfl
      · exact absurd h1 (by decide)
      · exact hr2 h1
    · intro hx
      rcases hmem ':' hx with h1 | h1 | h1 | h1
      · exact absurd h1 (by decide)
      · exact (hchars _ h1).2.2.2.2 rfl
      · exact absurd h1 (by decide)
      · exact hr3 h1
    · have : (predListToStr (p :: rest)).count '\'' =
          (predToStr p).count '\'' + (predListToStr rest).count '\'' := by
        simp [predListToStr, List.count_append, List.count_cons]
      rw [this]
      omega
/-- Bind on a successful Except. -/
theorem except_bind_ok {α β γ : Type} (x : β) (f : β → Except α γ) :
    (Except.ok x >>= f) = f x := rfl

/-- Bind on a failed Except. -/
theorem except_bind_err {α β γ : Type} (e : α) (f : β → Except α γ) :
    ((Except.error e : Except α β) >>= f) = Except.error e := rfl

/-- Absent characters make contains false. -/
theorem not_contains_of_not_mem (s : GoStr) (c : Char) (h : c ∉ s) :
    s.contains c = false := by
  cases hc : s.contains c with
  | true => exact absurd (mem_of_contains s c hc) h
  | false => rfl

/-- Parsing a bare valid identifier under a valid inherited prefix
yields the inferred-prefix node. -/
theorem parseNodeF_ident (f : Nat) (pfx i : GoStr)
    (hp : validIdent pfx = true) (hi : validIdent i = true) :
    parseNodeF (f + 1) pfx i = .ok (nodeID.mk pfx i true none) := by
  obtain ⟨hpok, hpne, hpch⟩ := validIdent_spec pfx hp
  obtain ⟨hiok, hine, hich⟩ := validIdent_spec i hi
  have hnc : ':' ∉ i := fun hm => (hich _ hm).1 rfl
  have hsplit : splitN2 ':' i = (i, none) := splitN2_no_sep ':' i hnc
  have hnb : i.contains '[' = false :=
    not_contains_of_not_mem i '[' (fun hm => (hich _ hm).2.1 rfl)
  simp only [parseNodeF, hsplit, hpne, ne_eq, not_false_iff, if_true,
    except_bind_ok, pure_bind, hpok, hnb, Bool.false_eq_true, if_false,
    nodeID.ident, hiok]
  rfl
/-- Parsing a printed expression predicate recovers it exactly. -/
theorem parseExprF_print (f : Nat) (pfx : GoStr) (k : nodeID) (v : GoStr)
    (hp : validIdent pfx = true) (hw : wfPredP pfx (.expr k v) = true) :
    parseExprF (f + 1 + 1) pfx (predToStr (.expr k v)) =
      .ok (.expr k v) := by
  have hw2 : wfKeyP pfx k = true ∧ v.all validValueChar = true := by
    simpa [wfPredP, Bool.and_eq_true] using hw
  obtain ⟨hks, hkp, hkinf, hknone, hkident⟩ := wfKey_toStr pfx k hw2.1
  have hvch : ∀ c ∈ v, ¬c = '/' ∧ ¬c = '[' ∧ ¬c = ']' ∧ ¬c = ':' ∧
      ¬c = '\'' ∧ ¬c = '"' ∧ ¬c = ' ' ∧ ¬c = Char.ofNat 9 := by
    intro c hc
    have hx := List.all_eq_true.mp hw2.2 c hc
    simp only [validValueChar, Bool.not_eq_true', Bool.or_eq_false_iff,
      decide_eq_false_iff_not] at hx
    obtain ⟨⟨⟨⟨⟨⟨⟨h1, h2⟩, h3⟩, h4⟩, h5⟩, h6⟩, h7⟩, h8⟩ := hx
    exact ⟨h1, h2, h3, h4, h5, h6, h7, h8⟩
  have hich : ∀ c ∈ k.ident, wsp.contains c = false ∧ ¬c = '=' := by
    intro c hc
    rcases hkident with hdot | hvi
    · rw [hdot] at hc
      have hcd : c = '.' := by simpa [gs] using hc
      subst hcd
      exact ⟨by decide, by decide⟩
    · have t := (validIdent_spec _ hvi).2.2 c hc
      refine ⟨not_contains_of_not_mem _ _ ?_, t.2.2.2.2.2.2.1⟩
      intro hm
      have hsp : c = ' ' ∨ c = Char.ofNat 9 := by simpa [wsp] using hm
      rcases hsp with rfl | rfl
      · exact t.2.2.2.2.2.2.2.1 rfl
      · exact t.2.2.2.2.2.2.2.2 rfl
  have hshape : predToStr (.expr k v) =
      k.ident ++ '=' :: ('\'' :: (v ++ ['\''])) := by
    simp only [predToStr, hks]
    simp [List.append_assoc]
  have hsplit : splitN2 '=' (k.ident ++ '=' :: ('\'' :: (v ++ ['\'']))) =
      (k.ident, some ('\'' :: (v ++ ['\'']))) :=
    splitN2_append '=' _ _ (fun hm => (hich _ hm).2 rfl)
  have htrim0 : trimCut wsp k.ident = k.ident :=
    trim_noop_all wsp _ (fun c hc => (hich c hc).1)
  have htrim1 : trimCut wsp ('\'' :: (v ++ ['\''])) =
      '\'' :: (v ++ ['\'']) := by
    apply trim_noop_all
    intro c hc
    rcases List.mem_cons.mp hc with rfl | h2
    · decide
    rcases List.mem_append.mp h2 with h3 | h3
    · have t := hvch c h3
      apply not_contains_of_not_mem
      intro hm
      have hsp : c = ' ' ∨ c = Char.ofNat 9 := by simpa [wsp] using hm
      rcases hsp with rfl | rfl
      · exact t.2.2.2.2.2.2.1 rfl
      · exact t.2.2.2.2.2.2.2 rfl
    · have hcq : c = '\'' := by simpa using h3
      subst hcq; decide
  have hidx : idxOfChar? '\'' (v ++ ['\'']) = some v.length := by
    simpa using idxOfChar?_append '\'' v []
      (fun hm => (hvch _ hm).2.2.2.2.1 rfl)
  have hlen : v.length = ('\'' :: (v ++ ['\''])).tail.length - 1 := by
    simp
  have hkeq : k = nodeID.mk pfx k.ident true none := by
    cases k with
    | mk a b c d =>
      simp only [nodeID.pfx] at hkp
      simp only [nodeID.pfxInferred] at hkinf
      simp only [nodeID.predicates] at hknone
      simp only [nodeID.ident]
      rw [hkp, hkinf, hknone]
  rw [hshape]
  simp only [parseExprF, hsplit, except_bind_ok, pure_bind, htrim0,
    htrim1]
  rcases hkident with hdot | hvi
  · simp only [if_pos hdot, pure_bind, if_pos (Or.inr rfl : ('\'' : Char) = '"' ∨ ('\'' : Char) = '\''), hidx]
    have hlen2 : v.length = (v ++ ['\'']).length - 1 := by simp
    simp only [if_pos hlen2, List.take_left]
    rw [← hdot, ← hkeq]
    exact if_pos (Or.inr trivial)
  · have hne : ¬(k.ident = gs ".") := by
      intro he
      rw [he] at hvi
      exact absurd hvi (by decide)
    simp only [if_neg hne, parseNodeF_ident f pfx k.ident hp hvi,
      except_bind_ok, if_pos (Or.inr rfl : ('\'' : Char) = '"' ∨ ('\'' : Char) = '\''), hidx]
    have hlen2 : v.length = (v ++ ['\'']).length - 1 := by simp
    simp only [if_pos hlen2, List.take_left]
    rw [← hkeq]
    exact if_pos (Or.inr trivial)
/-- Trimming a wrapped string removes exactly the wrapping characters
when the middle is free of the cutset. -/
theorem trim_wrap (cut : GoStr) (a b : Char) (mid : GoStr)
    (ha : cut.contains a = true) (hb : cut.contains b = true)
    (hmid : ∀ c ∈ mid, cut.contains c = false) :
    trimCut cut ((a :: mid) ++ [b]) = mid := by
  have ha2 : a ∈ cut := mem_of_contains _ _ ha
  have hb2 : b ∈ cut := mem_of_contains _ _ hb
  cases mid with
  | nil =>
    simp [trimCut, dropLeadCut, List.dropWhile_cons, ha2, hb2]
  | cons m0 mid' =>
    have h0 : cut.contains m0 = false :=
      hmid m0 (List.mem_cons_self m0 mid')
    have h02 : m0 ∉ cut := fun hm => by
      rw [contains_of_mem _ _ hm] at h0
      exact absurd h0 (by simp)
    have hL : dropLeadCut cut ((a :: (m0 :: mid')) ++ [b]) =
        (m0 :: mid') ++ [b] := by
      simp [dropLeadCut, List.dropWhile_cons, ha2, h02]
    have hR : List.dropWhile (fun c => cut.contains c)
        (((m0 :: mid') ++ [b]).reverse) = (m0 :: mid').reverse := by
      rw [List.reverse_append]
      simp only [List.reverse_singleton, List.singleton_append,
        List.dropWhile_cons, hb, eq_self_iff_true, if_true]
      exact dropWhile_noop _ _ (fun c hc => hmid c (List.mem_reverse.mp hc))
    unfold trimCut
    rw [hL, hR, List.reverse_reverse]

/-- A printed predicate contains no whitespace characters. -/
theorem predToStr_no_wsp (pfx : GoStr) (p : Pred)
    (h : wfPredP pfx p = true) :
    ∀ c ∈ predToStr p, wsp.contains c = false := by
  intro c hc
  apply not_contains_of_not_mem
  intro hm
  have hsp : c = ' ' ∨ c = Char.ofNat 9 := by simpa [wsp] using hm
  cases p with
  | pos n =>
    have hd : goIsDigit c = true :=
      natDecCore_digits (n + 1) n c (by simpa [predToStr, natDec] using hc)
    rcases hsp with rfl | rfl <;> revert hd <;> decide
  | expr k v =>
    have hw2 : wfKeyP pfx k = true ∧ v.all validValueChar = true := by
      simpa [wfPredP, Bool.and_eq_true] using h
    obtain ⟨hks, hkp, hkinf, hknone, hkident⟩ := wfKey_toStr pfx k hw2.1
    simp only [predToStr] at hc
    rcases List.mem_append.mp hc with h1 | h1
    · rcases List.mem_append.mp h1 with h2 | h2
      · rw [hks] at h2
        rcases hkident with hdot | hvi
        · rw [hdot] at h2
          have hcd : c = '.' := by simpa [gs] using h2
          rcases hsp with rfl | rfl <;> revert hcd <;> decide
        · have t := (validIdent_spec _ hvi).2.2 c h2
          rcases hsp with rfl | rfl
          · exact t.2.2.2.2.2.2.2.1 rfl
          · exact t.2.2.2.2.2.2.2.2 rfl
      · rcases List.mem_cons.mp h2 with rfl | h3
        · rcases hsp with h4 | h4 <;> revert h4 <;> decide
        rcases List.mem_cons.mp h3 with rfl | h4
        · rcases hsp with h5 | h5 <;> revert h5 <;> decide
        · have hx := List.all_eq_true.mp hw2.2 c h4
          simp only [validValueChar, Bool.not_eq_true',
            Bool.or_eq_false_iff, decide_eq_false_iff_not] at hx
          rcases hsp with rfl | rfl
          · exact hx.1.2 rfl
          · exact hx.2 rfl
    · have hcq : c = '\'' := by simpa using h1
      rcases hsp with rfl | rfl <;> revert hcq <;> decide

/-- Parsing a printed bracketed predicate unit recovers the
predicate. -/
theorem parsePredF_print (f : Nat) (pfx : GoStr) (p : Pred)
    (hp : validIdent pfx = true) (hw : wfPredP pfx p = true) :
    parsePredF (f + 1 + 1 + 1) pfx (('[' :: predToStr p) ++ [']']) =
      .ok p := by
  obtain ⟨hchars, -⟩ := predToStr_chars pfx p hw
  have hmidtrim : trimCut (gs "[]") (('[' :: predToStr p) ++ [']']) =
      predToStr p := by
    apply trim_wrap
    · decide
    · decide
    · intro c hc
      have t := hchars c hc
      apply not_contains_of_not_mem
      intro hm
      have hbr : c = '[' ∨ c = ']' := by simpa [gs] using hm
      rcases hbr with rfl | rfl
      · exact t.1 rfl
      · exact t.2.1 rfl
  have hwspt : trimCut wsp (predToStr p) = predToStr p :=
    trim_noop_all wsp _ (predToStr_no_wsp pfx p hw)
  have hhead : ((('[' :: predToStr p) ++ [']']).head?) = some '[' := by
    simp
  have hlast : ((('[' :: predToStr p) ++ [']']).getLast?) = some ']' :=
    List.getLast?_concat _
  simp only [parsePredF, hhead, hlast,
    if_pos (⟨rfl, rfl⟩ : ('[' : Char) = '[' ∧ (']' : Char) = ']'),
    hmidtrim, hwspt]
  cases p with
  | pos n =>
    have hn : n < 2 ^ 64 := by simpa [wfPredP] using hw
    simp only [predToStr, goParseUint_natDec 64 n hn]
    exact if_pos ⟨trivial, trivial⟩
  | expr k v =>
    have hq : '\'' ∈ predToStr (.expr k v) := by
      simp [predToStr]
    have hgp : goParseUint 64 (predToStr (.expr k v)) = none := by
      simp only [goParseUint,
        decNat?_of_mem_nondigit _ '\'' hq (by decide)]
    simp only [hgp]
    exact parseExprF_print f pfx k v hp hw
/-- Mapping the predicate parser over printed bracketed units recovers
the predicates. -/
theorem mapM_parsePred (f : Nat) (pfx : GoStr) (ps : List Pred)
    (hp : validIdent pfx = true)
    (hw : ∀ p ∈ ps, wfPredP pfx p = true) :
    (ps.map (fun q => ('[' :: predToStr q) ++ [']'])).mapM
      (parsePredF (f + 1 + 1 + 1) pfx) = .ok ps := by
  induction ps with
  | nil => rfl
  | cons p rest ih =>
    simp only [List.map_cons, List.mapM_cons,
      parsePredF_print f pfx p hp (hw p (List.mem_cons_self p rest)),
      ih (fun q hq => hw q (List.mem_cons_of_mem _ hq)),
      except_bind_ok, pure_bind]
    rfl

/-- Parsing a printed predicate section recovers the predicate
list. -/
theorem parsePredsF_print (f : Nat) (pfx : GoStr) (ps : List Pred)
    (hp : validIdent pfx = true)
    (hw : ∀ p ∈ ps, wfPredP pfx p = true) :
    parsePredsF (f + 1 + 1 + 1 + 1) pfx (predListToStr ps) = .ok ps := by
  have hsplit : getPredicateStrings (predListToStr ps) =
      .ok (ps.map (fun q => ('[' :: predToStr q) ++ [']'])) := by
    have hfacts : ∀ p ∈ ps, '[' ∉ predToStr p ∧ ']' ∉ predToStr p ∧
        '"' ∉ predToStr p ∧ (predToStr p).count '\'' % 2 = 0 := by
      intro p hm
      obtain ⟨hch, hct⟩ := predToStr_chars pfx p (hw p hm)
      exact ⟨fun h2 => (hch _ h2).1 rfl, fun h2 => (hch _ h2).2.1 rfl,
        fun h2 => (hch _ h2).2.2.1 rfl, hct⟩
    simpa [getPredicateStrings] using predSplit_list ps [] hfacts
  simp only [parsePredsF, hsplit, except_bind_ok]
  exact mapM_parsePred f pfx ps hp hw
/-- Parsing a printed well-formed node under the threaded prefix
recovers the node exactly. -/
theorem parseNodeF_print (f : Nat) (prev : GoStr) (n : nodeID)
    (hwf : wfNodeP n = true)
    (hinf : n.pfxInferred = (n.pfx == prev)) :
    parseNodeF (f + 1 + 1 + 1 + 1 + 1) prev (nodeID.toStr n) = .ok n := by
  cases n with
  | mk p i inf preds =>
    simp only [wfNodeP, nodeID.pfx, nodeID.ident, nodeID.predicates,
      Bool.and_eq_true] at hwf
    obtain ⟨⟨hp, hi⟩, hpredw⟩ := hwf
    simp only [nodeID.pfxInferred, nodeID.pfx] at hinf
    obtain ⟨hpok, hpne, hpch⟩ := validIdent_spec p hp
    obtain ⟨hiok, hine, hich⟩ := validIdent_spec i hi
    have hpcolon : ':' ∉ p := fun hm => (hpch _ hm).1 rfl
    have hicolon : ':' ∉ i := fun hm => (hich _ hm).1 rfl
    have hibr : '[' ∉ i := fun hm => (hich _ hm).2.1 rfl
    cases preds with
    | none =>
      cases hbeq : (p == prev) with
      | false =>
        rw [hbeq] at hinf
        subst hinf
        have hprint : nodeID.toStr (.mk p i false none) =
            p ++ ':' :: i := by
          simp [nodeID.toStr, hpne, predsToStr]
        rw [hprint]
        have hsplit : splitN2 ':' (p ++ ':' :: i) = (p, some i) :=
          splitN2_append ':' p i hpcolon
        have hnb : i.contains '[' = false :=
          not_contains_of_not_mem i '[' hibr
        simp only [parseNodeF, hsplit, pure_bind, except_bind_ok, hbeq,
          hpok, hnb, Bool.false_eq_true, if_false, nodeID.ident, hiok]
        rfl
      | true =>
        rw [hbeq] at hinf
        subst hinf
        have hpeq : p = prev := by simpa using hbeq
        subst hpeq
        have hprint : nodeID.toStr (.mk p i true none) = i := by
          simp [nodeID.toStr, predsToStr]
        rw [hprint]
        exact parseNodeF_ident (f + 1 + 1 + 1 + 1) p i hp hi
    | some ps =>
      have hpsparts : ps.isEmpty = false ∧ ∀ q ∈ ps, wfPredP p q = true := by
        simp only [Bool.and_eq_true, List.all_eq_true,
          Bool.not_eq_true'] at hpredw
        exact hpredw
      obtain ⟨hpsne, hall⟩ := hpsparts
      cases ps with
      | nil => exact absurd hpsne (by simp)
      | cons q0 ps' =>
        have hplX : predListToStr (q0 :: ps') =
            '[' :: (predToStr q0 ++ ']' :: predListToStr ps') := by
          simp [predListToStr]
        have hcontains :
            (i ++ '[' :: (predToStr q0 ++ ']' :: predListToStr ps')).contains
              '[' = true :=
          contains_of_mem _ _
            (List.mem_append.mpr (Or.inr (List.mem_cons_self _ _)))
        have hidx :
            idxOfChar? '['
              (i ++ '[' :: (predToStr q0 ++ ']' :: predListToStr ps')) =
              some i.length :=
          idxOfChar?_append '[' i _ hibr
        have hdrop :
            (i ++ '[' :: (predToStr q0 ++ ']' :: predListToStr ps')).drop
              i.length = '[' :: (predToStr q0 ++ ']' :: predListToStr ps') :=
          List.drop_left i _
        have htake :
            (i ++ '[' :: (predToStr q0 ++ ']' :: predListToStr ps')).take
              i.length = i :=
          List.take_left i _
        have hparse : parsePredsF (f + 1 + 1 + 1 + 1) p
            (predListToStr (q0 :: ps')) = .ok (q0 :: ps') :=
          parsePredsF_print f p (q0 :: ps') hp hall
        rw [hplX] at hparse
        cases hbeq : (p == prev) with
        | false =>
          rw [hbeq] at hinf
          subst hinf
          have hprint : nodeID.toStr (.mk p i false (some (q0 :: ps'))) =
              p ++ ':' ::
                (i ++ '[' :: (predToStr q0 ++ ']' :: predListToStr ps')) := by
            simp [nodeID.toStr, hpne, predsToStr, predListToStr]
          rw [hprint]
          have hsplit : splitN2 ':'
              (p ++ ':' ::
                (i ++ '[' :: (predToStr q0 ++ ']' :: predListToStr ps'))) =
              (p, some
                (i ++ '[' :: (predToStr q0 ++ ']' :: predListToStr ps'))) :=
            splitN2_append ':' p _ hpcolon
          simp only [parseNodeF, hsplit, pure_bind, except_bind_ok, hbeq,
            hpok, hcontains, if_true, hidx, Option.getD_some, hdrop,
            hparse, htake, nodeID.ident, hiok]
          rfl
        | true =>
          rw [hbeq] at hinf
          subst hinf
          have hpeq : p = prev := by simpa using hbeq
          subst hpeq
          have hprint : nodeID.toStr (.mk p i true (some (q0 :: ps'))) =
              i ++ '[' :: (predToStr q0 ++ ']' :: predListToStr ps') := by
            simp [nodeID.toStr, predsToStr, predListToStr]
          rw [hprint]
          have hbodycolon : ':' ∉
              i ++ '[' :: (predToStr q0 ++ ']' :: predListToStr ps') := by
            intro hm
            rcases List.mem_append.mp hm with h1 | h1
            · exact hicolon h1
            · have hfacts := (predListToStr_facts p (q0 :: ps') hall).2.2.1
              rw [hplX] at hfacts
              exact hfacts h1
          have hsplit : splitN2 ':'
              (i ++ '[' :: (predToStr q0 ++ ']' :: predListToStr ps')) =
              (i ++ '[' :: (predToStr q0 ++ ']' :: predListToStr ps'),
                none) :=
            splitN2_no_sep ':' _ hbodycolon
          simp only [parseNodeF, hsplit, hpne, ne_eq, not_false_iff,
            if_true, pure_bind, except_bind_ok, hpok, hcontains, hidx,
            Option.getD_some, hdrop, hparse, htake, nodeID.ident, hiok]
          rfl
/-- A printed well-formed node is a well-behaved path segment:
nonempty, slash-free, double-quote-free, with evenly many single
quotes. -/
theorem nodeToStr_seg (n : nodeID) (hwf : wfNodeP n = true) :
    nodeID.toStr n ≠ [] ∧ '/' ∉ nodeID.toStr n ∧ '"' ∉ nodeID.toStr n ∧
    (nodeID.toStr n).count '\'' % 2 = 0 := by
  cases n with
  | mk p i inf preds =>
    simp only [wfNodeP, nodeID.pfx, nodeID.ident, nodeID.predicates,
      Bool.and_eq_true] at hwf
    obtain ⟨⟨hp, hi⟩, hpredw⟩ := hwf
    obtain ⟨hpok, hpne, hpch⟩ := validIdent_spec p hp
    obtain ⟨hiok, hine, hich⟩ := validIdent_spec i hi
    have hp0 : p.count '\'' = 0 :=
      List.count_eq_zero.mpr (fun hm => (hpch _ hm).2.2.2.2.1 rfl)
    have hi0 : i.count '\'' = 0 :=
      List.count_eq_zero.mpr (fun hm => (hich _ hm).2.2.2.2.1 rfl)
    have hpredsf : '/' ∉ predsToStr preds ∧ '"' ∉ predsToStr preds ∧
        (predsToStr preds).count '\'' % 2 = 0 := by
      cases preds with
      | none => simp [predsToStr, predListToStr]
      | some ps =>
        have hall : ∀ q ∈ ps, wfPredP p q = true := by
          simp only [Bool.and_eq_true, List.all_eq_true] at hpredw
          exact hpredw.2
        have t := predListToStr_facts p ps hall
        exact ⟨by simpa [predsToStr] using t.1,
          by simpa [predsToStr] using t.2.1,
          by simpa [predsToStr] using t.2.2.2⟩
    have hbody_mem : ∀ c, c ∈ i ++ predsToStr preds →
        c = '/' ∨ c = '"' → False := by
      intro c hm hc
      rcases List.mem_append.mp hm with h1 | h1
      · rcases hc with rfl | rfl
        · exact (hich _ h1).2.2.2.1 rfl
        · exact (hich _ h1).2.2.2.2.2.1 rfl
      · rcases hc with rfl | rfl
        · exact hpredsf.1 h1
        · exact hpredsf.2.1 h1
    have hbody_count : (i ++ predsToStr preds).count '\'' % 2 = 0 := by
      rw [List.count_append, hi0]
      simpa using hpredsf.2.2
    have hcolq : ((':' : Char) == '\'') = false := by decide
    by_cases hx : p ≠ [] ∧ inf = false
    · have hts : nodeID.toStr (.mk p i inf preds) =
          p ++ ':' :: (i ++ predsToStr preds) := by
        simp [nodeID.toStr, hx]
      rw [hts]
      refine ⟨?_, ?_, ?_, ?_⟩
      · intro he
        rw [List.append_eq_nil] at he
        exact hpne he.1
      · intro hm
        rcases List.mem_append.mp hm with h1 | h1
        · exact (hpch _ h1).2.2.2.1 rfl
        · rcases List.mem_cons.mp h1 with h2 | h2
          · exact absurd h2 (by decide)
          · exact hbody_mem _ h2 (Or.inl rfl)
      · intro hm
        rcases List.mem_append.mp hm with h1 | h1
        · exact (hpch _ h1).2.2.2.2.2.1 rfl
        · rcases List.mem_cons.mp h1 with h2 | h2
          · exact absurd h2 (by decide)
          · exact hbody_mem _ h2 (Or.inr rfl)
      · rw [List.count_append, List.count_cons, hp0, hcolq]
        simp only [Bool.false_eq_true, if_false]
        omega
    · have hts : nodeID.toStr (.mk p i inf preds) =
          i ++ predsToStr preds := by
        simp only [nodeID.toStr]
        rw [if_neg hx]
      rw [hts]
      refine ⟨?_, ?_, ?_, hbody_count⟩
      · intro he
        rw [List.append_eq_nil] at he
        exact hine he.1
      · exact fun hm => hbody_mem _ hm (Or.inl rfl)
      · exact fun hm => hbody_mem _ hm (Or.inr rfl)

/-- Every node of a well-formed chain is well-formed. -/
theorem wfChain_all (prev : GoStr) (ids : List nodeID)
    (h : wfChain prev ids = true) :
    ∀ n ∈ ids, wfNodeP n = true := by
  induction ids generalizing prev with
  | nil => intro n hn; cases hn
  | cons m rest ih =>
    intro n hn
    simp only [wfChain, Bool.and_eq_true] at h
    rcases List.mem_cons.mp hn with rfl | hmem
    · exact h.1.1
    · exact ih m.pfx h.2 n hmem

/-- Parsing the printed segments of a well-formed chain recovers the
nodes. -/
theorem parseSegs_print (ids : List nodeID) :
    ∀ prev, wfChain prev ids = true →
    parseSegs prev (ids.map nodeID.toStr) = .ok ids := by
  induction ids with
  | nil => intro prev h; rfl
  | cons n rest ih =>
    intro prev h
    simp only [wfChain, Bool.and_eq_true] at h
    obtain ⟨⟨hwfn, hinfb⟩, hchain⟩ := h
    have hinf : n.pfxInferred = (n.pfx == prev) := by simpa using hinfb
    have hone : nodeIDParse prev (nodeID.toStr n) = .ok n := by
      have hfe : 4 * (nodeID.toStr n).length + 8 =
          4 * (nodeID.toStr n).length + 3 + 1 + 1 + 1 + 1 + 1 := by omega
      simp only [nodeIDParse]
      rw [hfe]
      exact parseNodeF_print _ prev n hwfn hinf
    simp only [List.map_cons, parseSegs, hone, except_bind_ok,
      ih n.pfx hchain]
/-- C7 counterexample: the parser accepts "/:a" (empty prefix, marked
inferred), whose canonical string "/a" then fails to re-parse — so the
claimed round trip fails on a successfully parsed identifier. -/
theorem instance_id_string_roundtrip_failure :
    InstanceIDNew (gs "/:a") =
      .ok ⟨[nodeID.mk [] (gs "a") true none]⟩ ∧
    InstanceID.toStr ⟨[nodeID.mk [] (gs "a") true none]⟩ = gs "/a" ∧
    InstanceIDNew (gs "/a") =
      .error (gs "invalid instance identifier: unable to determine prefix") :=
  ⟨rfl, rfl, rfl⟩

/-- C7 (amended): on the round-trip-safe class — nonempty chains of
nodes with valid nonempty prefixes and identifiers, inferred flags
agreeing with prefix repetition, and predicates that are in-range
positions or expressions whose keys inherit the segment prefix and
whose single-quoted values avoid the structural characters — parsing
the canonical string recovers the identifier exactly, and hence
re-printing reproduces the string. -/
theorem instance_id_string_roundtrip (i : InstanceID)
    (hwf : wfIID i = true) :
    InstanceIDNew (InstanceID.toStr i) = .ok i ∧
    (InstanceIDNew (InstanceID.toStr i)).map InstanceID.toStr =
      .ok (InstanceID.toStr i) := by
  obtain ⟨ids⟩ := i
  have h1 : (!ids.isEmpty) = true ∧ wfChain [] ids = true := by
    simpa [wfIID, Bool.and_eq_true] using hwf
  obtain ⟨hne, hchain⟩ := h1
  have hne2 : ids ≠ [] := by
    intro he; rw [he] at hne; simp at hne
  have hall : ∀ n ∈ ids, wfNodeP n = true := wfChain_all [] ids hchain
  have hsegs : ∀ seg ∈ ids.map nodeID.toStr, seg ≠ [] ∧ '/' ∉ seg ∧
      '"' ∉ seg ∧ seg.count '\'' % 2 = 0 := by
    intro seg hm
    obtain ⟨n, hn, rfl⟩ := List.mem_map.mp hm
    exact nodeToStr_seg n (hall n hn)
  have hstrings : getNodeIDStrings
      ('/' :: List.intercalate ['/'] (ids.map nodeID.toStr)) =
      .ok ([] :: ids.map nodeID.toStr) :=
    getNodeIDStrings_print _ hsegs
  have hsegsparse : parseSegs [] (ids.map nodeID.toStr) = .ok ids :=
    parseSegs_print ids [] hchain
  have hrestne : ¬((ids.map nodeID.toStr).isEmpty = true) := by
    cases ids with
    | nil => exact absurd rfl hne2
    | cons a b => simp
  have hcore : InstanceIDNew.core (InstanceID.toStr ⟨ids⟩) =
      .ok ⟨ids⟩ := by
    unfold InstanceIDNew.core
    rw [show InstanceID.toStr ⟨ids⟩ =
      '/' :: List.intercalate ['/'] (ids.map nodeID.toStr) from rfl]
    rw [hstrings]
    show (if ([] : GoStr) ≠ [] then
        Except.error (gs "must start with a \"/\"")
      else if (ids.map nodeID.toStr).isEmpty then
        Except.error (gs "must specify at least one node-identifier")
      else do
        let ids2 ← parseSegs [] (ids.map nodeID.toStr)
        Except.ok (InstanceID.mk ids2)) = Except.ok (InstanceID.mk ids)
    rw [if_neg (by simp), if_neg hrestne, hsegsparse]
    rfl
  have hmain : InstanceIDNew (InstanceID.toStr ⟨ids⟩) = .ok ⟨ids⟩ := by
    unfold InstanceIDNew
    rw [hcore]
  exact ⟨hmain, by rw [hmain]; rfl⟩

/-- Witness for C7 at a two-segment identifier with a positional and
an expression predicate, a repeated (inferred) prefix on the second
segment, and a leaf-list dot key. -/
theorem instance_id_string_roundtrip_witness :
    InstanceIDNew (InstanceID.toStr ⟨[
      nodeID.mk (gs "m") (gs "a") false
        (some [.pos 2, .expr (nodeID.mk (gs "m") (gs "k") true none)
          (gs "v1")]),
      nodeID.mk (gs "m") (gs "b") true
        (some [.expr (nodeID.mk (gs "m") (gs ".") true none) (gs "x=y")])
      ]⟩) = .ok ⟨[
      nodeID.mk (gs "m") (gs "a") false
        (some [.pos 2, .expr (nodeID.mk (gs "m") (gs "k") true none)
          (gs "v1")]),
      nodeID.mk (gs "m") (gs "b") true
        (some [.expr (nodeID.mk (gs "m") (gs ".") true none) (gs "x=y")])
      ]⟩ :=
  (instance_id_string_roundtrip ⟨[
      nodeID.mk (gs "m") (gs "a") false
        (some [.pos 2, .expr (nodeID.mk (gs "m") (gs "k") true none)
          (gs "v1")]),
      nodeID.mk (gs "m") (gs "b") true
        (some [.expr (nodeID.mk (gs "m") (gs ".") true none) (gs "x=y")])
      ]⟩ (by decide)).1
/-- SplitN without a separator returns the whole string. -/
theorem splitN2_none (sep : Char) :
    ∀ (s a : GoStr), splitN2 sep s = (a, none) → a = s ∧ sep ∉ s := by
  intro s
  induction s with
  | nil =>
    intro a h
    simp only [splitN2, Prod.mk.injEq] at h
    exact ⟨h.1.symm, by simp⟩
  | cons c rest ih =>
    intro a h
    by_cases hc : c = sep
    · simp [splitN2, hc] at h
    · simp only [splitN2, if_neg hc] at h
      cases hs : splitN2 sep rest with
      | mk a2 b2 =>
        rw [hs] at h
        rw [Prod.ext_iff] at h
        obtain ⟨h1, h2⟩ := h
        dsimp at h1 h2
        subst h2
        obtain ⟨r1, r2⟩ := ih a2 hs
        subst r1
        refine ⟨h1.symm, ?_⟩
        intro hm
        rcases List.mem_cons.mp hm with h3 | h3
        · exact hc h3.symm
        · exact r2 h3

/-- SplitN with a separator found: the string decomposes at the first
occurrence. -/
theorem splitN2_some (sep : Char) :
    ∀ (s a b : GoStr), splitN2 sep s = (a, some b) →
    s = a ++ sep :: b ∧ sep ∉ a := by
  intro s
  induction s with
  | nil => intro a b h; simp [splitN2] at h
  | cons c rest ih =>
    intro a b h
    by_cases hc : c = sep
    · subst hc
      have he : splitN2 c (c :: rest) = ([], some rest) := by
        simp [splitN2]
      rw [he] at h
      rw [Prod.ext_iff] at h
      obtain ⟨h1, h2⟩ := h
      dsimp at h1 h2
      have ha : a = [] := h1.symm
      have hb : b = rest := by
        injection h2 with hx
        exact hx.symm
      subst ha
      subst hb
      exact ⟨rfl, by simp⟩
    · simp only [splitN2, if_neg hc] at h
      cases hs : splitN2 sep rest with
      | mk a2 b2 =>
        rw [hs] at h
        rw [Prod.ext_iff] at h
        obtain ⟨h1, h2⟩ := h
        dsimp at h1 h2
        subst h2
        subst h1
        obtain ⟨r1, r2⟩ := ih a2 b hs
        refine ⟨by rw [List.cons_append, r1], ?_⟩
        intro hm
        rcases List.mem_cons.mp hm with h3 | h3
        · exact hc h3.symm
        · exact r2 h3

/-- The head of a rendered natural number is a digit. -/
theorem natDecCore_head (fuel : Nat) :
    ∀ n, ∃ c t, natDecCore (fuel + 1) n = c :: t ∧ goIsDigit c = true := by
  induction fuel with
  | zero =>
    intro n
    by_cases hn : n < 10
    · exact ⟨digitChar n, [], by simp [natDecCore, hn],
        goIsDigit_digitChar n hn⟩
    · refine ⟨digitChar (n % 10), [], by simp [natDecCore, hn], ?_⟩
      exact goIsDigit_digitChar _ (Nat.mod_lt _ (by norm_num))
  | succ f ih =>
    intro n
    by_cases hn : n < 10
    · exact ⟨digitChar n, [], by simp [natDecCore, hn],
        goIsDigit_digitChar n hn⟩
    · obtain ⟨c, t, hct, hcd⟩ := ih (n / 10)
      refine ⟨c, t ++ [digitChar (n % 10)], ?_, hcd⟩
      have hcore : natDecCore (f + 1 + 1) n =
          natDecCore (f + 1) (n / 10) ++ [digitChar (n % 10)] := by
        conv_lhs => rw [natDecCore]
        rw [if_neg hn]
      rw [hcore, hct]
      rfl

/-- No dot occurs in a rendered natural number. -/
theorem natDec_no_dot (n : Nat) : (natDec n).contains '.' = false := by
  apply not_contains_of_not_mem
  intro hm
  have hd := natDecCore_digits (n + 1) n '.' hm
  revert hd; decide

/-- Decoding a bare token printed from an in-range natural: the
unsigned 32-bit value. -/
theorem token_decode_natDec (m : GoStr) (n : Nat) (h : n < 2 ^ 32) :
    unmarshalJson (.jtoken (natDec n)) m = .ok (.vu32 n) := by
  obtain ⟨c, t, hs, hcd⟩ := natDecCore_head n n
  have hs2 : natDec n = c :: t := hs
  have hparse : goParseUint 32 (natDec n) = some n := goParseUint_natDec 32 n h
  rw [hs2] at hparse ⊢
  have hcm : ¬c = '-' := by rintro rfl; revert hcd; decide
  simp only [unmarshalJson]
  split
  · rename_i x heq
    injection heq with h1 h2
    exact absurd h1 hcm
  · rw [hparse]
    rfl

/-- Decoding a bare token printed from an in-range negative integer:
the signed 32-bit value. -/
theorem token_decode_intDec (m : GoStr) (n : Int) (hneg : n < 0)
    (hlow : -(2 ^ 31) ≤ n) :
    unmarshalJson (.jtoken (intDec n)) m = .ok (.vi32 n) := by
  have hid : intDec n = '-' :: natDec n.natAbs := by
    simp [intDec, hneg]
  rw [hid]
  have hdn : decNat? (natDec n.natAbs) = some n.natAbs := decNat?_natDec _
  have hbound : (n.natAbs : Int) ≤ 2 ^ 31 := by omega
  have hgpi : goParseInt 32 ('-' :: natDec n.natAbs) = some n := by
    simp only [goParseInt, hdn, if_pos hbound]
    congr 1
    omega
  simp only [unmarshalJson, hgpi]
  rfl

/-- Decoding a quoted scalar printed from an in-range natural: the
unsigned 64-bit value. -/
theorem quoted_decode_natDec (n : Nat) (h : n < 2 ^ 64) :
    unmarshalQuoted (natDec n) = .vu64 n := by
  obtain ⟨c, t, hs, hcd⟩ := natDecCore_head n n
  have hs2 : natDec n = c :: t := hs
  have hparse : goParseUint 64 (natDec n) = some n := goParseUint_natDec 64 n h
  have hnd : (natDec n).contains '.' = false := natDec_no_dot n
  rw [hs2] at hparse hnd ⊢
  have hcm : ¬(c = '-' ∧ (t.length ≥ 1)) := by
    rintro ⟨rfl, -⟩; revert hcd; decide
  have hcp : ¬(c = '+' ∧ (t.length ≥ 1)) := by
    rintro ⟨rfl, -⟩; revert hcd; decide
  have hno : ¬((c :: t).contains '.' = true ∧
      ¬parseFloatOk (c :: t) = true) := by
    rintro ⟨hcon, -⟩
    rw [hnd] at hcon
    exact absurd hcon (by simp)
  simp only [unmarshalQuoted, if_neg hcm, if_neg hcp]
  rw [if_pos hcd, if_neg hno, hparse]

/-- Decoding a quoted scalar printed from an in-range negative
integer: the signed 64-bit value. -/
theorem quoted_decode_intDec (n : Int) (hneg : n < 0)
    (hlow : -(2 ^ 63) ≤ n) :
    unmarshalQuoted (intDec n) = .vi64 n := by
  have hid : intDec n = '-' :: natDec n.natAbs := by
    simp [intDec, hneg]
  obtain ⟨c, t, hs, hcd⟩ := natDecCore_head n.natAbs n.natAbs
  have hs2 : natDec n.natAbs = c :: t := hs
  have hdn : decNat? (natDec n.natAbs) = some n.natAbs := decNat?_natDec _
  have hbound : (n.natAbs : Int) ≤ 2 ^ 63 := by omega
  have hgpi : goParseInt 64 ('-' :: (c :: t)) = some n := by
    rw [← hs2]
    simp only [goParseInt, hdn, if_pos hbound]
    congr 1
    omega
  have hnd : ('-' :: (c :: t)).contains '.' = false := by
    apply not_contains_of_not_mem
    intro hm
    rcases List.mem_cons.mp hm with h1 | h1
    · exact absurd h1 (by decide)
    · rw [← hs2] at h1
      have hd2 := natDecCore_digits (n.natAbs + 1) n.natAbs '.' h1
      revert hd2; decide
  have hno : ¬(('-' :: (c :: t)).contains '.' = true ∧
      ¬parseFloatOk ('-' :: (c :: t)) = true) := by
    rintro ⟨hcon, -⟩
    rw [hnd] at hcon
    exact absurd hcon (by simp)
  rw [hid, hs2]
  simp only [unmarshalQuoted,
    if_pos (⟨rfl, by simp⟩ :
      ('-' : Char) = '-' ∧ ((c :: t).length ≥ 1)),
    if_neg (not_not_intro hcd), if_neg hno, hgpi]
  rw [if_pos (⟨trivial, by simp⟩ : True ∧ ((c :: t).length ≥ 1))]

/-- Reparenting a codec-safe value to its own context is the
identity. -/
theorem belongsTo_safe (ctx : GoStr) (v : Value)
    (h : safeRT ctx v = true) : v.belongsTo ctx = v := by
  cases v with
  | vobj o =>
    cases o with
    | mk om oe =>
      have hom : om = ctx := by
        simp only [safeRT, Bool.and_eq_true] at h
        simpa using h.1
      subst hom
      simp [Value.belongsTo, Object.belongsToV]
  | varr a =>
    cases a with
    | mk am ae =>
      have ham : am = ctx := by
        simp only [safeRT, Bool.and_eq_true] at h
        simpa using h.1.1
      subst ham
      simp [Value.belongsTo, Array.belongsToV]
  | vnull => rfl
  | vbool b => rfl
  | vempty => rfl
  | vi32 n => rfl
  | vu32 n => rfl
  | vi64 n => rfl
  | vu64 n => rfl
  | vf64 r => rfl
  | vstr s => rfl
  | viid i => rfl
/-- A qualified key differs from its local part. -/
theorem qualified_ne (m k : GoStr) (hm : m ≠ []) : m ++ ':' :: k ≠ k := by
  intro he
  have hl := congrArg List.length he
  have hp : 0 < m.length := List.length_pos.mpr hm
  simp [List.length_append] at hl
  omega

/-- The key printed by the marshaller re-parses and re-qualifies to
the original key. -/
theorem printed_key_facts (ctx k a b : GoStr)
    (hpk : parseKey ctx k = (a, b))
    (hk : (adaptKeyM ctx k == k) = true)
    (hcl : (b.contains ':') = false) :
    parseKey ctx (if a = ctx then b else k) = (a, b) ∧
    adaptKeyM ctx (if a = ctx then b else k) = k := by
  have hkeq : adaptKeyM ctx k = k := by simpa using hk
  cases hsk : splitN2 ':' k with
  | mk a0 ob =>
    cases ob with
    | none =>
      obtain ⟨ha0, hnc⟩ := splitN2_none ':' k a0 hsk
      rw [ha0] at hsk
      have hpk0 : parseKey ctx k = (ctx, k) := by
        simp [parseKey, hsk]
      rw [hpk0] at hpk
      have haeq : a = ctx := by
        have := congrArg Prod.fst hpk
        simpa using this.symm
      have hbeq : b = k := by
        have := congrArg Prod.snd hpk
        simpa using this.symm
      subst haeq
      subst hbeq
      rw [if_pos rfl]
      constructor
      · rw [hpk0]
      · exact hkeq
    | some b0 =>
      obtain ⟨hdecomp, hna⟩ := splitN2_some ':' k a0 b0 hsk
      have hpk0 : parseKey ctx k = (a0, b0) := by
        simp [parseKey, hsk]
      rw [hpk0] at hpk
      have haeq : a = a0 := by
        have := congrArg Prod.fst hpk
        simpa using this.symm
      have hbeq : b = b0 := by
        have := congrArg Prod.snd hpk
        simpa using this.symm
      subst haeq
      subst hbeq
      have hane : a ≠ [] := by
        intro hae
        subst hae
        rw [show adaptKeyM ctx k = b from by
          simp [adaptKeyM, parseKey, hsk]] at hkeq
        rw [hdecomp] at hkeq
        have := congrArg List.length hkeq
        simp at this
      have hadk : adaptKeyM ctx k = a ++ ':' :: b := by
        simp [adaptKeyM, parseKey, hsk, hane]
      have hkfull : k = a ++ ':' :: b := hdecomp
      have hbnc : ':' ∉ b := fun hm => by
        rw [contains_of_mem _ _ hm] at hcl
        exact absurd hcl (by simp)
      by_cases hac : a = ctx
      · rw [if_pos hac]
        have hsb : splitN2 ':' b = (b, none) := splitN2_no_sep ':' b hbnc
        constructor
        · rw [show parseKey ctx b = (ctx, b) from by simp [parseKey, hsb]]
          rw [hac]
        · have : adaptKeyM ctx b = ctx ++ ':' :: b := by
            simp [adaptKeyM, parseKey, hsb]
            intro hctxe
            exact absurd (hac.trans hctxe) hane
          rw [this, ← hac, ← hkfull]
      · rw [if_neg hac]
        exact ⟨hpk0, hkeq⟩

set_option maxRecDepth 4000 in
/-- Marshalling then unmarshalling a codec-safe value in its context
recovers it exactly (induction on the structural size). -/
theorem safeRT_roundtrip_aux :
    ∀ (N : Nat) (v : Value) (ctx : GoStr), vsize v ≤ N →
    safeRT ctx v = true →
    ∃ j, marshalJson v ctx = .ok j ∧ unmarshalJson j ctx = .ok v := by
  intro N
  induction N with
  | zero =>
    intro v ctx hsz hsafe
    exfalso
    cases v <;> simp [vsize] at hsz
  | succ N ih =>
    intro v ctx hsz hsafe
    cases v with
    | vnull => exact ⟨.jnull, rfl, rfl⟩
    | vbool b => exact ⟨.jbool b, rfl, rfl⟩
    | vempty => exact ⟨.jarr [.jnull], rfl, rfl⟩
    | vi32 n =>
      have hcond : n < 0 ∧ -(2 ^ 31) ≤ n := by simpa [safeRT] using hsafe
      exact ⟨.jtoken (intDec n), rfl,
        token_decode_intDec ctx n hcond.1 hcond.2⟩
    | vu32 n =>
      have hcond : n < 2 ^ 32 := by simpa [safeRT] using hsafe
      exact ⟨.jtoken (natDec n), rfl, token_decode_natDec ctx n hcond⟩
    | vi64 n =>
      have hcond : n < 0 ∧ -(2 ^ 63) ≤ n := by simpa [safeRT] using hsafe
      refine ⟨.jstr (intDec n), rfl, ?_⟩
      simp only [unmarshalJson, quoted_decode_intDec n hcond.1 hcond.2]
      rfl
    | vu64 n =>
      have hcond : n < 2 ^ 64 := by simpa [safeRT] using hsafe
      refine ⟨.jstr (natDec n), rfl, ?_⟩
      simp only [unmarshalJson, quoted_decode_natDec n hcond]
      rfl
    | vf64 r => exact absurd hsafe (by simp [safeRT])
    | viid i => exact absurd hsafe (by simp [safeRT])
    | vstr s =>
      refine ⟨.jstr s, rfl, ?_⟩
      have hq : unmarshalQuoted s = .vstr s := by
        revert hsafe
        simp only [safeRT]
        intro h2
        cases hu : unmarshalQuoted s <;> rw [hu] at h2 <;> simp at h2
        rw [h2]
      simp only [unmarshalJson, hq]
      rfl
    | vobj o =>
      cases o with
      | mk om oe =>
        have hsafe2 : (om == ctx) = true ∧ safeEntriesRT om oe = true := by
          simpa [safeRT, Bool.and_eq_true] using hsafe
        have hom : om = ctx := by simpa using hsafe2.1
        subst hom
        have hse := hsafe2.2
        have hsz2 : entsize oe ≤ N := by
          simp only [vsize, osize] at hsz
          omega
        have hent : ∀ (l : List (GoStr × Value)), entsize l ≤ N →
            safeEntriesRT om l = true →
            ∃ kvs, marshalEntries om om l = .ok kvs ∧
              unmarshalEntries om kvs = .ok l := by
          intro l
          induction l with
          | nil => intro _ _; exact ⟨[], rfl, rfl⟩
          | cons kv rest ihe =>
            cases kv with
            | mk k v =>
              intro hszl hsafel
              cases hpk : parseKey om k with
              | mk a b =>
                simp only [safeEntriesRT, hpk, Bool.and_eq_true,
                  Bool.not_eq_true'] at hsafel
                obtain ⟨⟨⟨hkeq, hcl⟩, hsv⟩, hsr⟩ := hsafel
                have hszv : vsize v ≤ N := by
                  simp only [entsize] at hszl
                  omega
                have hszr : entsize rest ≤ N := by
                  simp only [entsize] at hszl
                  omega
                obtain ⟨jc, hjc1, hjc2⟩ := ih v a hszv hsv
                obtain ⟨kvs, hr1, hr2⟩ := ihe hszr hsr
                obtain ⟨hpkP, hadkP⟩ :=
                  printed_key_facts om k a b hpk hkeq hcl
                refine ⟨((if a = om then b else k), jc) :: kvs, ?_, ?_⟩
                · simp only [marshalEntries, hpk, hjc1, hr1,
                    except_bind_ok]
                  rfl
                · simp only [unmarshalEntries, hpkP, hjc2,
                    except_bind_ok, Object.adaptValue, Object.module,
                    hadkP, belongsTo_safe a v hsv, hr2]
                  rfl
        obtain ⟨kvs, h1, h2⟩ := hent oe hsz2 hse
        refine ⟨.jobj kvs, ?_, ?_⟩
        · simp only [marshalJson, h1, except_bind_ok]
          rfl
        · simp only [unmarshalJson, h2, except_bind_ok]
          rfl
    | varr a =>
      cases a with
      | mk am ae =>
        have h1x := hsafe
        simp only [safeRT, Bool.and_eq_true] at h1x
        have hameq : (am == ctx) = true := h1x.1.1
        have hsel : safeElemsRT ctx ae = true := h1x.2
        have ham : am = ctx := by simpa using hameq
        subst ham
        have hsz2 : elsize ae ≤ N := by
          simp only [vsize, asize] at hsz
          omega
        have helems : ∀ (l : List (Option Value)), elsize l ≤ N →
            safeElemsRT am l = true →
            ∃ xs, marshalElems am l = .ok xs ∧
              unmarshalElems am xs = .ok l := by
          intro l
          induction l with
          | nil => intro _ _; exact ⟨[], rfl, rfl⟩
          | cons e rest ihe =>
            intro hszl hsafel
            cases e with
            | none => simp [safeElemsRT] at hsafel
            | some v =>
              simp only [safeElemsRT, Bool.and_eq_true] at hsafel
              obtain ⟨hsv, hsr⟩ := hsafel
              have hszv : vsize v ≤ N := by
                simp only [elsize] at hszl
                omega
              have hszr : elsize rest ≤ N := by
                simp only [elsize] at hszl
                omega
              obtain ⟨jc, hjc1, hjc2⟩ := ih v am hszv hsv
              obtain ⟨xs, hr1, hr2⟩ := ihe hszr hsr
              refine ⟨jc :: xs, ?_, ?_⟩
              · simp only [marshalElems, hjc1, hr1, except_bind_ok]
                rfl
              · simp only [unmarshalElems, hjc2, except_bind_ok,
                  belongsTo_safe am v hsv, hr2]
                rfl
        obtain ⟨xs, h1, h2⟩ := helems ae hsz2 hsel
        refine ⟨.jarr xs, ?_, ?_⟩
        · simp only [marshalJson, h1, except_bind_ok]
          rfl
        · have hne2 : ae ≠ [some Value.vnull] := by
            intro he
            subst he
            simp [safeRT] at hsafe
          simp only [unmarshalJson, h2, except_bind_ok]
          rfl
/-- C1 counterexample: the codec round trip fails on a tree holding
the string "1" — it marshals to the quoted scalar "1", which decodes
as an unsigned 64-bit number, so the re-read tree differs from the
original. -/
theorem codec_roundtrip_counterexample :
    treeMarshal ⟨.vobj (.mk [] [(gs "m:a", .vstr (gs "1"))])⟩ =
      .ok (.jobj [(gs "m:a", .jstr (gs "1"))]) ∧
    treeUnmarshal (.jobj [(gs "m:a", .jstr (gs "1"))]) =
      .ok ⟨.vobj (.mk [] [(gs "m:a", .vu64 1)])⟩ ∧
    treeEqual ⟨.vobj (.mk [] [(gs "m:a", .vstr (gs "1"))])⟩
      ⟨.vobj (.mk [] [(gs "m:a", .vu64 1)])⟩ = false :=
  ⟨rfl, rfl, rfl⟩

/-- C1 (amended): on the codec-safe class of trees — canonical numeric
variants in range, no floats or instance-ids, strings whose quoted
decoding is themselves, objects and arrays coherent with their context
module with normalized colon-free-local keys, no raw nil slots and no
array equal to the [null] sentinel — unmarshalling the marshalled
document recovers the tree exactly. -/
theorem codec_roundtrip_safe (t : Tree) (h : safeRT [] t.root = true) :
    ∃ j, treeMarshal t = .ok j ∧ treeUnmarshal j = .ok t := by
  obtain ⟨v⟩ := t
  obtain ⟨j, h1, h2⟩ := safeRT_roundtrip_aux (vsize v) v [] le_rfl h
  refine ⟨j, by simpa [treeMarshal] using h1, ?_⟩
  simp only [treeUnmarshal, h2, except_bind_ok]
  rfl

/-- Witness for C1 on a two-level object tree with a numeric leaf, a
boolean leaf in a nested module-tagged object, an Empty leaf and a
safe string. -/
theorem codec_roundtrip_safe_witness :
    ∃ j, treeMarshal ⟨.vobj (.mk []
      [(gs "m:leaf", .vu32 7),
       (gs "m:word", .vstr (gs "abc")),
       (gs "m:flag", .vempty),
       (gs "m:cont", .vobj (.mk (gs "m")
         [(gs "m:inner", .vbool true),
          (gs "m:list", .varr (.mk (gs "m")
            [some (.vi64 (-5)), some (.vu64 3)]))]))])⟩ = .ok j ∧
    treeUnmarshal j = .ok ⟨.vobj (.mk []
      [(gs "m:leaf", .vu32 7),
       (gs "m:word", .vstr (gs "abc")),
       (gs "m:flag", .vempty),
       (gs "m:cont", .vobj (.mk (gs "m")
         [(gs "m:inner", .vbool true),
          (gs "m:list", .varr (.mk (gs "m")
            [some (.vi64 (-5)), some (.vu64 3)]))]))])⟩ :=
  codec_roundtrip_safe ⟨.vobj (.mk []
      [(gs "m:leaf", .vu32 7),
       (gs "m:word", .vstr (gs "abc")),
       (gs "m:flag", .vempty),
       (gs "m:cont", .vobj (.mk (gs "m")
         [(gs "m:inner", .vbool true),
          (gs "m:list", .varr (.mk (gs "m")
            [some (.vi64 (-5)), some (.vu64 3)]))]))])⟩ (by decide)
/-- A key that looks up to nothing has no binding at all. -/
theorem lookup_none_not_mem (k : GoStr) :
    ∀ l, lookupKey k l = none → ∀ v, (k, v) ∉ l := by
  intro l
  induction l with
  | nil => intro _ v hm; simp at hm
  | cons kv rest ih =>
    intro h v hm
    obtain ⟨k', v'⟩ := kv
    by_cases hk : k' = k
    · subst hk; simp [lookupKey] at h
    · rw [List.mem_cons] at hm
      rcases hm with he | hm
      · exact hk (congrArg Prod.fst he).symm
      · simp only [lookupKey, if_neg hk] at h
        exact ih h v hm

/-- A successful lookup is a binding of the list. -/
theorem lookup_mem (k : GoStr) (v : Value) :
    ∀ l, lookupKey k l = some v → (k, v) ∈ l := by
  intro l
  induction l with
  | nil => intro h; simp [lookupKey] at h
  | cons kv rest ih =>
    intro h
    obtain ⟨k', v'⟩ := kv
    by_cases hk : k' = k
    · subst hk
      simp only [lookupKey, eq_self_iff_true, if_true, Option.some.injEq] at h
      subst h; exact List.mem_cons_self _ _
    · simp only [lookupKey, if_neg hk] at h
      exact List.mem_cons_of_mem _ (ih h)

/-- Lookup skips a prefix free of the key. -/
theorem lookup_append_none (k : GoStr) :
    ∀ d r, lookupKey k d = none → lookupKey k (d ++ r) = lookupKey k r := by
  intro d
  induction d with
  | nil => intro r _; rfl
  | cons kv rest ih =>
    intro r h
    obtain ⟨k', v'⟩ := kv
    by_cases hk : k' = k
    · subst hk; simp [lookupKey] at h
    · simp only [lookupKey, if_neg hk] at h
      simp only [List.cons_append, lookupKey, if_neg hk]
      exact ih r h

/-- Lookup of the head key. -/
theorem lookup_cons_self (k : GoStr) (v : Value) (r : List (GoStr × Value)) :
    lookupKey k ((k, v) :: r) = some v := by
  simp [lookupKey]

/-- Lookup past a differently-keyed head. -/
theorem lookup_cons_ne (k k' : GoStr) (v : Value) (r : List (GoStr × Value))
    (h : k' ≠ k) : lookupKey k ((k', v) :: r) = lookupKey k r := by
  simp [lookupKey, h]

/-- Assoc of an absent key appends the binding. -/
theorem assocKV_append_absent (k : GoStr) (v : Value) :
    ∀ l, lookupKey k l = none → listAssocKV k v l = l ++ [(k, v)] := by
  intro l
  induction l with
  | nil => intro _; rfl
  | cons kv rest ih =>
    intro h
    obtain ⟨k', v'⟩ := kv
    by_cases hk : k' = k
    · subst hk; simp [lookupKey] at h
    · simp only [lookupKey, if_neg hk] at h
      show (if k' = k then (k, v) :: rest else (k', v') :: listAssocKV k v rest) =
          (k', v') :: rest ++ [(k, v)]
      rw [if_neg hk, ih h]; rfl

/-- Assoc replaces the unique binding of a present key in place. -/
theorem assocKV_mid (k : GoStr) (v w : Value) :
    ∀ d r, lookupKey k d = none →
      listAssocKV k v (d ++ (k, w) :: r) = d ++ (k, v) :: r := by
  intro d
  induction d with
  | nil => intro r _; simp [listAssocKV]
  | cons kv rest ih =>
    intro r h
    obtain ⟨k', v'⟩ := kv
    by_cases hk : k' = k
    · subst hk; simp [lookupKey] at h
    · simp only [lookupKey, if_neg hk] at h
      show (if k' = k then (k, v) :: (rest ++ (k, w) :: r)
            else (k', v') :: listAssocKV k v (rest ++ (k, w) :: r)) =
          (k', v') :: (rest ++ (k, v) :: r)
      rw [if_neg hk, ih r h]

/-- Delete of an absent key is the identity. -/
theorem deleteKey_absent (k : GoStr) :
    ∀ l, lookupKey k l = none → listDeleteKey k l = l := by
  intro l
  induction l with
  | nil => intro _; rfl
  | cons kv rest ih =>
    intro h
    obtain ⟨k', v'⟩ := kv
    by_cases hk : k' = k
    · subst hk; simp [lookupKey] at h
    · simp only [lookupKey, if_neg hk] at h
      simp only [listDeleteKey, if_neg hk, ih h]

/-- Delete removes the first binding of a key. -/
theorem deleteKey_mid (k : GoStr) (w : Value) :
    ∀ d r, lookupKey k d = none →
      listDeleteKey k (d ++ (k, w) :: r) = d ++ r := by
  intro d
  induction d with
  | nil =>
    intro r _
    show (if k = k then r else (k, w) :: listDeleteKey k r) = [] ++ r
    rw [if_pos rfl, List.nil_append]
  | cons kv rest ih =>
    intro r h
    obtain ⟨k', v'⟩ := kv
    by_cases hk : k' = k
    · subst hk; simp [lookupKey] at h
    · simp only [lookupKey, if_neg hk] at h
      show (if k' = k then rest ++ (k, w) :: r
            else (k', v') :: listDeleteKey k (rest ++ (k, w) :: r)) =
          (k', v') :: (rest ++ r)
      rw [if_neg hk, ih r h]

/-- The key-collision test of keysDistinct, unfolded to membership. -/
theorem anyKey_false_iff (x : GoStr) (l : List (GoStr × Value)) :
    (l.any (fun kv => kv.1 = x) = false) ↔ ∀ kv ∈ l, kv.1 ≠ x := by
  induction l with
  | nil => simp
  | cons kv rest ih =>
    simp only [List.any_cons, Bool.or_eq_false_iff, ih, decide_eq_false_iff_not,
      List.mem_cons]
    constructor
    · rintro ⟨h1, h2⟩ y hy
      rcases hy with he | hm
      · subst he; exact h1
      · exact h2 y hm
    · intro h
      exact ⟨h kv (Or.inl rfl), fun y hy => h y (Or.inr hy)⟩

/-- A list none of whose keys is k looks k up to nothing. -/
theorem lookup_none_of_forall_ne (k : GoStr) :
    ∀ l, (∀ kv ∈ l, kv.1 ≠ k) → lookupKey k l = none := by
  intro l
  induction l with
  | nil => intro _; rfl
  | cons kv rest ih =>
    intro h
    obtain ⟨k', v'⟩ := kv
    have hk : k' ≠ k := h (k', v') (List.mem_cons_self _ _)
    rw [lookup_cons_ne k k' v' rest hk]
    exact ih (fun kv hm => h kv (List.mem_cons_of_mem _ hm))

/-- No binding of a list carries a key it looks up to nothing. -/
theorem forall_ne_of_lookup_none (k : GoStr) (l : List (GoStr × Value))
    (h : lookupKey k l = none) : ∀ kv ∈ l, kv.1 ≠ k := by
  intro kv hm he
  have hm2 : (kv.1, kv.2) ∈ l := by simpa using hm
  rw [he] at hm2
  exact lookup_none_not_mem k l h kv.2 hm2

/-- Distinctness of a cons: the head key is absent from the tail. -/
theorem kd_cons (k : GoStr) (v : Value) (r : List (GoStr × Value))
    (h : keysDistinct ((k, v) :: r) = true) :
    keysDistinct r = true ∧ lookupKey k r = none ∧ ∀ kv ∈ r, kv.1 ≠ k := by
  simp only [keysDistinct, Bool.and_eq_true, Bool.not_eq_true'] at h
  obtain ⟨hany, hr⟩ := h
  have hne : ∀ kv ∈ r, kv.1 ≠ k := (anyKey_false_iff k r).mp hany
  exact ⟨hr, lookup_none_of_forall_ne k r hne, hne⟩

/-- Rebuild distinctness of a cons. -/
theorem kd_cons_intro (k : GoStr) (v : Value) (r : List (GoStr × Value))
    (hr : keysDistinct r = true) (hne : ∀ kv ∈ r, kv.1 ≠ k) :
    keysDistinct ((k, v) :: r) = true := by
  simp only [keysDistinct, Bool.and_eq_true, Bool.not_eq_true']
  exact ⟨(anyKey_false_iff k r).mpr hne, hr⟩

/-- A distinct list with a binding in the middle has its key nowhere
else. -/
theorem kd_mid (k : GoStr) (v : Value) :
    ∀ d r, keysDistinct (d ++ (k, v) :: r) = true →
      lookupKey k d = none ∧ lookupKey k r = none := by
  intro d
  induction d with
  | nil =>
    intro r h
    exact ⟨rfl, (kd_cons k v r h).2.1⟩
  | cons kv rest ih =>
    intro r h
    obtain ⟨k', v'⟩ := kv
    rw [List.cons_append] at h
    obtain ⟨htail, _, hne⟩ := kd_cons k' v' (rest ++ (k, v) :: r) h
    have hkk : k ≠ k' := by
      have := hne (k, v) (by simp)
      simpa using this
    obtain ⟨hd, hr⟩ := ih r htail
    refine ⟨?_, hr⟩
    rw [lookup_cons_ne k k' v' rest (fun he => hkk he.symm)]
    exact hd

/-- Replacing the value of a middle binding keeps keys distinct. -/
theorem kd_replace (k : GoStr) (v w : Value) :
    ∀ d r, keysDistinct (d ++ (k, v) :: r) = true →
      keysDistinct (d ++ (k, w) :: r) = true := by
  intro d
  induction d with
  | nil =>
    intro r h
    obtain ⟨hr, _, hne⟩ := kd_cons k v r h
    exact kd_cons_intro k w r hr hne
  | cons kv rest ih =>
    intro r h
    obtain ⟨k', v'⟩ := kv
    rw [List.cons_append] at h
    obtain ⟨htail, _, hne⟩ := kd_cons k' v' (rest ++ (k, v) :: r) h
    rw [List.cons_append]
    refine kd_cons_intro k' v' _ (ih r htail) ?_
    intro kv hm
    rcases List.mem_append.mp hm with hm1 | hm2
    · exact hne kv (List.mem_append_left _ hm1)
    · rcases List.mem_cons.mp hm2 with he | hm3
      · subst he
        have := hne (k, v) (List.mem_append_right _ (List.mem_cons_self _ _))
        simpa using this
      · exact hne kv (List.mem_append_right _ (List.mem_cons_of_mem _ hm3))

/-- Dropping a middle binding keeps keys distinct. -/
theorem kd_drop (k : GoStr) (v : Value) :
    ∀ d r, keysDistinct (d ++ (k, v) :: r) = true →
      keysDistinct (d ++ r) = true := by
  intro d
  induction d with
  | nil =>
    intro r h
    exact (kd_cons k v r h).1
  | cons kv rest ih =>
    intro r h
    obtain ⟨k', v'⟩ := kv
    rw [List.cons_append] at h
    obtain ⟨htail, _, hne⟩ := kd_cons k' v' (rest ++ (k, v) :: r) h
    rw [List.cons_append]
    refine kd_cons_intro k' v' _ (ih r htail) ?_
    intro kv hm
    rcases List.mem_append.mp hm with hm1 | hm2
    · exact hne kv (List.mem_append_left _ hm1)
    · exact hne kv (List.mem_append_right _ (List.mem_cons_of_mem _ hm2))

/-- A successful lookup splits the list at the first binding of the
key. -/
theorem lookup_split (k : GoStr) (v : Value) :
    ∀ l, lookupKey k l = some v →
      ∃ pre post, l = pre ++ (k, v) :: post ∧ lookupKey k pre = none := by
  intro l
  induction l with
  | nil => intro h; simp [lookupKey] at h
  | cons kv rest ih =>
    intro h
    obtain ⟨k', v'⟩ := kv
    by_cases hk : k' = k
    · subst hk
      simp only [lookupKey, eq_self_iff_true, if_true, Option.some.injEq] at h
      subst h
      exact ⟨[], rest, rfl, rfl⟩
    · rw [lookup_cons_ne k k' v' rest hk] at h
      obtain ⟨pre, post, he, hpre⟩ := ih h
      refine ⟨(k', v') :: pre, post, by rw [he, List.cons_append], ?_⟩
      rw [lookup_cons_ne k k' v' pre hk]
      exact hpre

/-- Lookup of a different key ignores a middle binding. -/
theorem lookup_dropMid (x k : GoStr) (w : Value) (hx : x ≠ k) :
    ∀ pre post, lookupKey x (pre ++ (k, w) :: post) =
      lookupKey x (pre ++ post) := by
  intro pre
  induction pre with
  | nil =>
    intro post
    rw [List.nil_append, List.nil_append,
      lookup_cons_ne x k w post (fun he => hx he.symm)]
  | cons kv rest ih =>
    intro post
    obtain ⟨k', v'⟩ := kv
    rw [List.cons_append, List.cons_append]
    by_cases hk : k' = x
    · subst hk
      rw [lookup_cons_self, lookup_cons_self]
    · rw [lookup_cons_ne x k' v' _ hk, lookup_cons_ne x k' v' _ hk]
      exact ih post

/-- belongsTo leaves non-container values untouched. -/
theorem belongsTo_leaf (v : Value) (m : GoStr) (h : leafV v = true) :
    v.belongsTo m = v := by
  cases v <;>
    first
    | exact Bool.noConfusion (show false = true from h)
    | rfl

/-- Equal non-container values are identical (vequal is literal
equality on leaves). -/
theorem vequal_leaf_eq (a b : Value) (ha : leafV a = true)
    (hb : vequal a b = true) : a = b := by
  cases a <;>
    first
    | exact Bool.noConfusion (show false = true from ha)
    | (cases b <;>
        first
        | rfl
        | exact Bool.noConfusion (show false = true from hb)
        | exact congrArg _ (eq_of_beq hb))

/-- vequal is reflexive on leaves. -/
theorem vequal_leaf_refl (a : Value) (ha : leafV a = true) :
    vequal a a = true := by
  cases a <;>
    first
    | exact Bool.noConfusion (show false = true from ha)
    | rfl
    | exact beq_self_eq_true _

/-- Value.diff on a non-container left value is the leaf case. -/
theorem vdiff_leaf (v nv : Value) (p : InstanceID) (h : leafV v = true) :
    vdiff v nv p =
      (if vequal v nv = true then pure []
       else pure [⟨.assoc, p, some nv⟩]) := by
  cases v <;>
    first
    | exact Bool.noConfusion (show false = true from h)
    | rfl

/-- diffReplace only depends on the lookups of the walked keys. -/
theorem diffReplace_congr (eb1 eb2 : List (GoStr × Value)) :
    ∀ ea, (∀ kv ∈ ea, lookupKey kv.1 eb1 = lookupKey kv.1 eb2) →
      diffReplace eb1 ea = diffReplace eb2 ea := by
  intro ea
  induction ea with
  | nil => intro _; rfl
  | cons kv rest ih =>
    intro h
    obtain ⟨k, v⟩ := kv
    have hk : lookupKey k eb1 = lookupKey k eb2 :=
      h (k, v) (List.mem_cons_self _ _)
    have hrest := ih (fun kv hm => h kv (List.mem_cons_of_mem _ hm))
    simp only [diffReplace, hk, hrest]

/-- diffReplace introduces no new keys. -/
theorem lookup_diffReplace_none (x : GoStr) (eb : List (GoStr × Value)) :
    ∀ ea, lookupKey x ea = none →
      lookupKey x (diffReplace eb ea) = none := by
  intro ea
  induction ea with
  | nil => intro _; rfl
  | cons kv rest ih =>
    intro h
    obtain ⟨k, v⟩ := kv
    by_cases hk : k = x
    · subst hk; simp [lookupKey] at h
    · rw [lookup_cons_ne x k v rest hk] at h
      cases hl : lookupKey k eb with
      | none => simp only [diffReplace, hl]; exact ih h
      | some nv =>
        simp only [diffReplace, hl]
        rw [lookup_cons_ne x k nv _ hk]
        exact ih h

/-- entriesIncl from pointwise lookups. -/
theorem entriesIncl_of_mem (e2 : List (GoStr × Value)) :
    ∀ e1, (∀ kv ∈ e1, ∃ v2, lookupKey kv.1 e2 = some v2 ∧
        vequal kv.2 v2 = true) →
      entriesIncl e1 e2 = true := by
  intro e1
  induction e1 with
  | nil => intro _; rfl
  | cons kv rest ih =>
    intro h
    obtain ⟨k, v⟩ := kv
    obtain ⟨v2, hl, hv⟩ := h (k, v) (List.mem_cons_self _ _)
    have hrest := ih (fun kv hm => h kv (List.mem_cons_of_mem _ hm))
    simp only [entriesIncl, hl, hv, hrest, Bool.and_self]

/-- In a key-distinct list, lookup finds any binding exactly. -/
theorem lookup_eq_of_mem_distinct (k : GoStr) (v : Value) :
    ∀ l, keysDistinct l = true → (k, v) ∈ l → lookupKey k l = some v := by
  intro l
  induction l with
  | nil => intro _ hm; simp at hm
  | cons kv rest ih =>
    intro hd hm
    obtain ⟨k', v'⟩ := kv
    obtain ⟨hrest, _, hne⟩ := kd_cons k' v' rest hd
    rcases List.mem_cons.mp hm with he | hm2
    · rw [Prod.ext_iff] at he
      obtain ⟨h1, h2⟩ := he
      dsimp at h1 h2
      subst h1; subst h2
      exact lookup_cons_self k v rest
    · have hkk : k ≠ k' := hne (k, v) hm2
      rw [lookup_cons_ne k k' v' rest (fun he => hkk he.symm)]
      exact ih hrest hm2

/-- A diff-safe key is adaptKey-stable and parses to a predicate-free
node printing back to the key itself. -/
theorem wfDiffKey_facts (k : GoStr) (h : wfDiffKey k = true) :
    adaptKeyM [] k = k ∧
    ∃ n : nodeID, nodeIDParse [] k = .ok n ∧ n.predicates = none ∧
      qualifiedKey n = k := by
  unfold wfDiffKey at h
  cases hs : splitN2 ':' k with
  | mk m ob =>
    rw [hs] at h
    cases ob with
    | none => simp at h
    | some i =>
      simp only [Bool.and_eq_true] at h
      obtain ⟨hm, hi⟩ := h
      obtain ⟨hk, hmc⟩ := splitN2_some ':' k m i hs
      obtain ⟨_, hmne, _⟩ := validIdent_spec m hm
      have hpk : parseKey [] k = (m, i) := by simp [parseKey, hs]
      have hadapt : adaptKeyM [] k = k := by
        simp only [adaptKeyM, hpk]
        rw [if_neg hmne]
        exact hk.symm
      have hmb : (m == ([] : GoStr)) = false := by
        simpa using hmne
      have hwf : wfNodeP ⟨m, i, false, none⟩ = true := by
        show (validIdent m && validIdent i && true) = true
        rw [hm, hi]; rfl
      have hinf : (nodeID.mk m i false none).pfxInferred
          = ((nodeID.mk m i false none).pfx == ([] : GoStr)) := by
        simp only [nodeID.pfxInferred, nodeID.pfx, hmb]
      have hstr : nodeID.toStr ⟨m, i, false, none⟩ = k := by
        simp only [nodeID.toStr, predsToStr]
        rw [if_pos ⟨hmne, trivial⟩, List.append_nil]
        exact hk.symm
      refine ⟨hadapt, ⟨m, i, false, none⟩, ?_, rfl, ?_⟩
      · have hone : nodeIDParse [] (nodeID.toStr ⟨m, i, false, none⟩)
            = .ok ⟨m, i, false, none⟩ := by
          have hfe : 4 * (nodeID.toStr (nodeID.mk m i false none)).length + 8 =
              4 * (nodeID.toStr (nodeID.mk m i false none)).length
                + 3 + 1 + 1 + 1 + 1 + 1 := by omega
          simp only [nodeIDParse]
          rw [hfe]
          exact parseNodeF_print _ [] _ hwf hinf
        rw [← hstr]
        exact hone
      · show m ++ ':' :: i = k
        exact hk.symm

/-- Object.At on a root-module object with an adaptKey-stable key is a
plain lookup. -/
theorem At_flat (e : List (GoStr × Value)) (k : GoStr)
    (hk : adaptKeyM [] k = k) :
    (Object.mk [] e).At k = lookupKey k e := by
  show lookupKey (adaptKeyM [] k) e = lookupKey k e
  rw [hk]

/-- Object.Assoc on a root-module object with a diff-safe key and a
leaf value is a plain association. -/
theorem Assoc_flat (e : List (GoStr × Value)) (k : GoStr) (v : Value)
    (hk : adaptKeyM [] k = k) (hv : leafV v = true) :
    (Object.mk [] e).Assoc k v = .mk [] (listAssocKV k v e) := by
  show Object.mk []
      (listAssocKV (adaptKeyM [] k) (v.belongsTo (parseKey [] k).1) e)
      = .mk [] (listAssocKV k v e)
  rw [hk, belongsTo_leaf v _ hv]

/-- Object.Delete on a root-module object with an adaptKey-stable key
is a plain removal. -/
theorem Delete_flat (e : List (GoStr × Value)) (k : GoStr)
    (hk : adaptKeyM [] k = k) :
    (Object.mk [] e).Delete k = .mk [] (listDeleteKey k e) := by
  show Object.mk [] (listDeleteKey (adaptKeyM [] k) e)
      = .mk [] (listDeleteKey k e)
  rw [hk]

/-- InstanceID.push on the empty path parses the key with the empty
prefix. -/
theorem iidPush_nil (k : GoStr) (n : nodeID)
    (h : nodeIDParse [] k = .ok n) :
    iidPush ⟨[]⟩ k = .ok ⟨[n]⟩ := by
  show (nodeIDParse [] k >>= fun node => pure (⟨[] ++ [node]⟩ : InstanceID))
      = .ok ⟨[n]⟩
  rw [h, except_bind_ok]
  rfl

/-- Tree.assoc along a single predicate-free segment assocs the
qualified key into the root object. -/
theorem treeAssoc_single (o : Object) (n : nodeID) (v : Value)
    (hp : n.predicates = none) :
    treeAssoc ⟨.vobj o⟩ ⟨[n]⟩ v =
      .ok ⟨.vobj (o.Assoc (qualifiedKey n) v)⟩ := by
  have hpath : (InstanceID.mk [n]).pathI = some ⟨[]⟩ := by
    simp [InstanceID.pathI, hp]
  have hsel : (InstanceID.mk [n]).selectorI = some (.key n) := by
    simp [InstanceID.selectorI, nodeID.selectorS, hp]
  have hq : buildQueue (2 * (InstanceID.mk [n]).ids.length + 2)
      (Value.vobj o) (InstanceID.mk [n]).pathI (InstanceID.mk [n]).selectorI
      = .ok [(some (.vobj o), .key n)] := by
    rw [hpath, hsel]
    rfl
  have hni : nodeIDComputeIdentifier n (some (.vobj o))
      = .ok (if o.Contains (qualifiedKey n)
             then some (.str (qualifiedKey n)) else none) := rfl
  have hid : selComputeIdentifierDefault (.key n) (some (.vobj o))
      = .ok (some (.str (qualifiedKey n))) := by
    simp only [selComputeIdentifierDefault]
    rw [hni, except_bind_ok]
    by_cases hc : o.Contains (qualifiedKey n)
    · rw [if_pos hc]; rfl
    · rw [if_neg hc]; rfl
  have hpq : processQueue v [(some (.vobj o), .key n)]
      = .ok (.vobj (o.Assoc (qualifiedKey n) v)) := by
    simp only [processQueue]
    rw [show selModifyMatch (.key n) v = Except.ok v from rfl,
      except_bind_ok, hid, except_bind_ok]
    rfl
  simp only [treeAssoc]
  rw [hq, except_bind_ok, hpq, except_bind_ok]
  rfl

/-- Tree.delete along a single predicate-free segment removes the
qualified key from the root object (a no-op when absent). -/
theorem treeDelete_single (o : Object) (n : nodeID)
    (hp : n.predicates = none) :
    treeDelete ⟨.vobj o⟩ ⟨[n]⟩ =
      .ok (if o.Contains (qualifiedKey n)
           then ⟨.vobj (o.Delete (qualifiedKey n))⟩ else ⟨.vobj o⟩) := by
  have hpath : (InstanceID.mk [n]).pathI = some ⟨[]⟩ := by
    simp [InstanceID.pathI, hp]
  have hsel : (InstanceID.mk [n]).selectorI = some (.key n) := by
    simp [InstanceID.selectorI, nodeID.selectorS, hp]
  have hnf : nodeFind n (some (.vobj o))
      = .ok (o.At (qualifiedKey n), o.Contains (qualifiedKey n)) := by
    cases n with
    | mk p i inf preds =>
      simp only [nodeID.predicates] at hp
      subst hp
      rfl
  have hni : nodeIDComputeIdentifier n (some (.vobj o))
      = .ok (if o.Contains (qualifiedKey n)
             then some (.str (qualifiedKey n)) else none) := rfl
  by_cases hc : o.Contains (qualifiedKey n)
  · rw [if_pos hc]
    have hif : iidFind ⟨[n]⟩ (some (Value.vobj o))
        = .ok (o.At (qualifiedKey n), true) := by
      simp only [iidFind, iidFind.go]
      rw [hnf, except_bind_ok, hc]
      rfl
    have hsci : selComputeIdentifier (.key n) (some (.vobj o))
        = .ok (some (.str (qualifiedKey n))) := by
      show nodeIDComputeIdentifier n (some (.vobj o)) = _
      rw [hni, if_pos hc]
    have hma : matchAgainst ⟨[]⟩ (some (Value.vobj o))
        = .ok (some (Value.vobj o)) := rfl
    simp only [treeDelete]
    rw [hif]
    simp only [except_bind_ok, Bool.not_true, Bool.false_eq_true, if_false]
    rw [hpath, hsel]
    dsimp only
    rw [hma]
    simp only [except_bind_ok]
    rw [hsci]
    simp only [except_bind_ok]
    rfl
  · rw [if_neg hc]
    have hif : iidFind ⟨[n]⟩ (some (Value.vobj o)) = .ok (none, false) := by
      simp only [iidFind, iidFind.go]
      rw [hnf, except_bind_ok]
      have hcf : o.Contains (qualifiedKey n) = false :=
        Bool.not_eq_true _ ▸ Bool.of_not_eq_true hc
      rw [hcf]
      rfl
    simp only [treeDelete]
    rw [hif]
    simp only [except_bind_ok]
    rfl

/-- One assoc edit step. -/
theorem teStep_assoc (t t' : Tree) (p : InstanceID) (v : Value)
    (rest : List EditEntry) (h : treeAssoc t p v = .ok t') :
    treeEdit t (⟨.assoc, p, some v⟩ :: rest) = treeEdit t' rest := by
  simp only [treeEdit]
  rw [h, except_bind_ok]

/-- One delete edit step. -/
theorem teStep_delete (t t' : Tree) (p : InstanceID)
    (rest : List EditEntry) (h : treeDelete t p = .ok t') :
    treeEdit t (⟨.delete, p, none⟩ :: rest) = treeEdit t' rest := by
  simp only [treeEdit]
  rw [h, except_bind_ok]

/-- Part 1 of a flat diff (the walk over self's entries) and its edit
effect: applied in order, the resulting entries are diffReplace. -/
theorem part1_spec (eb : List (GoStr × Value))
    (hbleaf : ∀ kv ∈ eb, leafV kv.2 = true) :
    ∀ ea d,
      (∀ kv ∈ ea, wfDiffKey kv.1 = true ∧ leafV kv.2 = true) →
      keysDistinct (d ++ ea) = true →
      ∃ es, odiffEntries (.mk [] eb) ⟨[]⟩ ea = .ok es ∧
        ∀ rest2, treeEdit ⟨.vobj (.mk [] (d ++ ea))⟩ (es ++ rest2)
          = treeEdit ⟨.vobj (.mk [] (d ++ diffReplace eb ea))⟩ rest2 := by
  intro ea
  induction ea with
  | nil =>
    intro d _ _
    exact ⟨[], rfl, fun rest2 => rfl⟩
  | cons kv rest ih =>
    intro d hwf hd
    obtain ⟨k, v⟩ := kv
    obtain ⟨hk, hv⟩ := hwf (k, v) (List.mem_cons_self _ _)
    have hwfr : ∀ kv ∈ rest, wfDiffKey kv.1 = true ∧ leafV kv.2 = true :=
      fun kv hm => hwf kv (List.mem_cons_of_mem _ hm)
    obtain ⟨hadapt, n, hparse, hpred, hqk⟩ := wfDiffKey_facts k hk
    have hpush : iidPush ⟨[]⟩ k = .ok ⟨[n]⟩ := iidPush_nil k n hparse
    have hat : (Object.mk [] eb).At k = lookupKey k eb := At_flat eb k hadapt
    have hmidd : lookupKey k d = none ∧ lookupKey k rest = none :=
      kd_mid k v d rest hd
    cases hlk : lookupKey k eb with
    | some nv =>
      have hnvleaf : leafV nv = true := hbleaf (k, nv) (lookup_mem k nv eb hlk)
      have hvd := vdiff_leaf v nv ⟨[n]⟩ hv
      have hrepl : diffReplace eb ((k, v) :: rest)
          = (k, nv) :: diffReplace eb rest := by
        simp only [diffReplace, hlk]
      by_cases hveq : vequal v nv = true
      · have hveqq : v = nv := vequal_leaf_eq v nv hv hveq
        subst hveqq
        obtain ⟨es', hes', hedit⟩ := ih (d ++ [(k, v)]) hwfr
          (by rw [← List.append_cons]; exact hd)
        refine ⟨es', ?_, ?_⟩
        · simp only [odiffEntries]
          rw [hat, hlk]
          dsimp only
          rw [hpush]
          simp only [except_bind_ok, pure_bind]
          rw [hvd, if_pos hveq]
          simp only [except_bind_ok, pure_bind]
          rw [hes']
          simp only [except_bind_ok, pure_bind]
          rfl
        · intro rest2
          rw [hrepl, List.append_cons d (k, v) rest,
            List.append_cons d (k, v) (diffReplace eb rest)]
          exact hedit rest2
      · obtain ⟨es', hes', hedit⟩ := ih (d ++ [(k, nv)]) hwfr
          (by rw [← List.append_cons]; exact kd_replace k v nv d rest hd)
        refine ⟨⟨.assoc, ⟨[n]⟩, some nv⟩ :: es', ?_, ?_⟩
        · simp only [odiffEntries]
          rw [hat, hlk]
          dsimp only
          rw [hpush]
          simp only [except_bind_ok, pure_bind]
          rw [hvd, if_neg hveq]
          simp only [except_bind_ok, pure_bind]
          rw [hes']
          simp only [except_bind_ok, pure_bind]
          rfl
        · intro rest2
          rw [List.cons_append]
          have hassoc : treeAssoc ⟨.vobj (.mk [] (d ++ (k, v) :: rest))⟩
              ⟨[n]⟩ nv = .ok ⟨.vobj (.mk [] (d ++ (k, nv) :: rest))⟩ := by
            rw [treeAssoc_single _ n nv hpred, hqk,
              Assoc_flat _ k nv hadapt hnvleaf,
              assocKV_mid k nv v d rest hmidd.1]
          rw [teStep_assoc _ _ _ _ _ hassoc, hrepl,
            List.append_cons d (k, nv) rest,
            List.append_cons d (k, nv) (diffReplace eb rest)]
          exact hedit rest2
    | none =>
      have hrepl : diffReplace eb ((k, v) :: rest) = diffReplace eb rest := by
        simp only [diffReplace, hlk]
      obtain ⟨es', hes', hedit⟩ := ih d hwfr (kd_drop k v d rest hd)
      refine ⟨⟨.delete, ⟨[n]⟩, none⟩ :: es', ?_, ?_⟩
      · simp only [odiffEntries]
        rw [hat, hlk]
        dsimp only
        rw [hpush]
        simp only [except_bind_ok, pure_bind]
        rw [hes']
        simp only [except_bind_ok, pure_bind]
        rfl
      · intro rest2
        rw [List.cons_append]
        have hcont : (Object.mk [] (d ++ (k, v) :: rest)).Contains k = true := by
          show ((Object.mk [] (d ++ (k, v) :: rest)).At k).isSome = true
          rw [At_flat _ k hadapt, lookup_append_none k d _ hmidd.1,
            lookup_cons_self]
          rfl
        have hdel : treeDelete ⟨.vobj (.mk [] (d ++ (k, v) :: rest))⟩ ⟨[n]⟩
            = .ok ⟨.vobj (.mk [] (d ++ rest))⟩ := by
          rw [treeDelete_single _ n hpred, hqk, if_pos hcont,
            Delete_flat _ k hadapt, deleteKey_mid k v d rest hmidd.1]
        rw [teStep_delete _ _ _ _ hdel, hrepl]
        exact hedit rest2

/-- Part 2 of a flat diff (the adds walk over the other object's
entries) and its edit effect: the new bindings are appended in
order. -/
theorem part2_spec (ea : List (GoStr × Value)) :
    ∀ ebs cur,
      (∀ kv ∈ ebs, wfDiffKey kv.1 = true ∧ leafV kv.2 = true) →
      keysDistinct ebs = true →
      (∀ kv ∈ ebs, lookupKey kv.1 ea = none → lookupKey kv.1 cur = none) →
      ∃ es, odiffAdds (.mk [] ea) ⟨[]⟩ ebs = .ok es ∧
        treeEdit ⟨.vobj (.mk [] cur)⟩ es = .ok ⟨.vobj (.mk [] (cur ++
          ebs.filter (fun kv => (lookupKey kv.1 ea).isNone)))⟩ := by
  intro ebs
  induction ebs with
  | nil =>
    intro cur _ _ _
    refine ⟨[], rfl, ?_⟩
    rw [List.filter_nil, List.append_nil]
    rfl
  | cons kv rest ih =>
    intro cur hwf hd h3
    obtain ⟨k, v⟩ := kv
    obtain ⟨hk, hv⟩ := hwf (k, v) (List.mem_cons_self _ _)
    have hwfr : ∀ kv ∈ rest, wfDiffKey kv.1 = true ∧ leafV kv.2 = true :=
      fun kv hm => hwf kv (List.mem_cons_of_mem _ hm)
    obtain ⟨hdr, _, hdne⟩ := kd_cons k v rest hd
    obtain ⟨hadapt, n, hparse, hpred, hqk⟩ := wfDiffKey_facts k hk
    have hpush : iidPush ⟨[]⟩ k = .ok ⟨[n]⟩ := iidPush_nil k n hparse
    have hcont : (Object.mk [] ea).Contains k = (lookupKey k ea).isSome := by
      show ((Object.mk [] ea).At k).isSome = _
      rw [At_flat ea k hadapt]
    cases hlk : lookupKey k ea with
    | some w =>
      obtain ⟨es', hes', hedit⟩ := ih cur hwfr hdr
        (fun kv hm hn => h3 kv (List.mem_cons_of_mem _ hm) hn)
      refine ⟨es', ?_, ?_⟩
      · simp only [odiffAdds]
        rw [hcont, hlk, if_pos (by rfl : ((some w).isSome = true))]
        exact hes'
      · rw [hedit]
        have hfl : List.filter (fun kv => (lookupKey kv.1 ea).isNone)
            ((k, v) :: rest)
            = List.filter (fun kv => (lookupKey kv.1 ea).isNone) rest := by
          simp only [List.filter_cons, hlk, Option.isNone_some,
            Bool.false_eq_true, if_false]
        rw [hfl]
    | none =>
      have hcur : lookupKey k cur = none :=
        h3 (k, v) (List.mem_cons_self _ _) hlk
      have h3' : ∀ kv ∈ rest, lookupKey kv.1 ea = none →
          lookupKey kv.1 (cur ++ [(k, v)]) = none := by
        intro kv hm hn
        rw [lookup_append_none kv.1 cur _ (h3 kv (List.mem_cons_of_mem _ hm) hn),
          lookup_cons_ne kv.1 k v [] (fun he => hdne kv hm he.symm)]
        rfl
      obtain ⟨es', hes', hedit⟩ := ih (cur ++ [(k, v)]) hwfr hdr h3' 
      refine ⟨⟨.assoc, ⟨[n]⟩, some v⟩ :: es', ?_, ?_⟩
      · simp only [odiffAdds]
        rw [hcont, hlk, if_neg (by simp : ¬((Option.none).isSome = true)),
          hpush]
        simp only [except_bind_ok, pure_bind]
        rw [hes']
        simp only [except_bind_ok, pure_bind]
        rfl
      · have hassoc : treeAssoc ⟨.vobj (.mk [] cur)⟩ ⟨[n]⟩ v
            = .ok ⟨.vobj (.mk [] (cur ++ [(k, v)]))⟩ := by
          rw [treeAssoc_single _ n v hpred, hqk, Assoc_flat _ k v hadapt hv,
            assocKV_append_absent k v cur hcur]
        rw [teStep_assoc _ _ _ _ _ hassoc, hedit]
        have hfl : List.filter (fun kv => (lookupKey kv.1 ea).isNone)
            ((k, v) :: rest)
            = (k, v) :: List.filter (fun kv => (lookupKey kv.1 ea).isNone)
                rest := by
          simp only [List.filter_cons, hlk, Option.isNone_none, if_true]
        rw [hfl, List.append_cons cur (k, v)
          (List.filter (fun kv => (lookupKey kv.1 ea).isNone) rest)]

/-- The entries produced by a flat diff/edit are a permutation of the
target object's entries. -/
theorem diffReplace_perm :
    ∀ ea eb, keysDistinct ea = true → keysDistinct eb = true →
      (diffReplace eb ea ++
        eb.filter (fun kv => (lookupKey kv.1 ea).isNone)).Perm eb := by
  intro ea
  induction ea with
  | nil =>
    intro eb _ _
    have hfl : eb.filter (fun kv => (lookupKey kv.1 ([] : List (GoStr × Value))).isNone)
        = eb := by
      apply List.filter_eq_self.mpr
      intro kv _
      rfl
    rw [show diffReplace eb [] = [] from rfl, List.nil_append, hfl]
  | cons kv rest ih =>
    intro eb hda hdb
    obtain ⟨k, v⟩ := kv
    obtain ⟨hdar, _, hdane⟩ := kd_cons k v rest hda
    cases hlk : lookupKey k eb with
    | none =>
      have hrepl : diffReplace eb ((k, v) :: rest) = diffReplace eb rest := by
        simp only [diffReplace, hlk]
      have hne : ∀ kv ∈ eb, kv.1 ≠ k := forall_ne_of_lookup_none k eb hlk
      have hfl : eb.filter (fun kv => (lookupKey kv.1 ((k, v) :: rest)).isNone)
          = eb.filter (fun kv => (lookupKey kv.1 rest).isNone) := by
        apply List.filter_congr
        intro kv hm
        rw [lookup_cons_ne kv.1 k v rest (fun he => hne kv hm he.symm)]
      rw [hrepl, hfl]
      exact ih eb hdar hdb
    | some nv =>
      obtain ⟨pre, post, hsplit, hpre⟩ := lookup_split k nv eb hlk
      subst hsplit
      obtain ⟨hpren, hpostn⟩ := kd_mid k nv pre post hdb
      have hdbr : keysDistinct (pre ++ post) = true :=
        kd_drop k nv pre post hdb
      have hprene : ∀ kv ∈ pre, kv.1 ≠ k := forall_ne_of_lookup_none k pre hpren
      have hpostne : ∀ kv ∈ post, kv.1 ≠ k :=
        forall_ne_of_lookup_none k post hpostn
      have hrepl : diffReplace (pre ++ (k, nv) :: post) ((k, v) :: rest)
          = (k, nv) :: diffReplace (pre ++ post) rest := by
        simp only [diffReplace, hlk]
        rw [diffReplace_congr (pre ++ (k, nv) :: post) (pre ++ post) rest ?hcg]
        case hcg =>
          intro kv hm
          exact lookup_dropMid kv.1 k nv (hdane kv hm) pre post
      have hfl : (pre ++ (k, nv) :: post).filter
            (fun kv => (lookupKey kv.1 ((k, v) :: rest)).isNone)
          = (pre ++ post).filter
            (fun kv => (lookupKey kv.1 rest).isNone) := by
        rw [List.filter_append, List.filter_append]
        have h1 : pre.filter (fun kv => (lookupKey kv.1 ((k, v) :: rest)).isNone)
            = pre.filter (fun kv => (lookupKey kv.1 rest).isNone) := by
          apply List.filter_congr
          intro kv hm
          rw [lookup_cons_ne kv.1 k v rest (fun he => hprene kv hm he.symm)]
        have h2 : ((k, nv) :: post).filter
              (fun kv => (lookupKey kv.1 ((k, v) :: rest)).isNone)
            = post.filter (fun kv => (lookupKey kv.1 rest).isNone) := by
          rw [List.filter_cons]
          have hkk : (lookupKey (k, nv).1 ((k, v) :: rest)).isNone = false := by
            rw [lookup_cons_self]
            rfl
          rw [hkk]
          simp only [Bool.false_eq_true, if_false]
          apply List.filter_congr
          intro kv hm
          rw [lookup_cons_ne kv.1 k v rest (fun he => hpostne kv hm he.symm)]
        rw [h1, h2]
      rw [hrepl, hfl, List.cons_append]
      exact ((ih (pre ++ post) hdar hdbr).cons (k, nv)).trans
        List.perm_middle.symm

/-- Object equality from a key-distinct permutation of leaf
entries. -/
theorem oequal_of_perm (final eb : List (GoStr × Value))
    (hperm : final.Perm eb) (hdb : keysDistinct eb = true)
    (hleaf : ∀ kv ∈ eb, leafV kv.2 = true) :
    oequal (.mk [] final) (.mk [] eb) = true := by
  have hlen : final.length = eb.length := hperm.length_eq
  have hincl : entriesIncl final eb = true := by
    apply entriesIncl_of_mem
    intro kv hm
    have hmb : kv ∈ eb := hperm.mem_iff.mp hm
    have hmb2 : (kv.1, kv.2) ∈ eb := by simpa using hmb
    refine ⟨kv.2, lookup_eq_of_mem_distinct kv.1 kv.2 eb hdb hmb2, ?_⟩
    exact vequal_leaf_refl kv.2 (hleaf kv hmb)
  show (([] : GoStr) == ([] : GoStr) && final.length == eb.length
      && entriesIncl final eb) = true
  rw [hlen, hincl]
  simp

/-- C2 (amended): diff/edit duality on flat trees.  For trees whose
root object lives in the root module and holds pairwise-distinct,
explicitly qualified well-formed keys with non-container,
non-instance-identifier values, applying a.Edit to the entries of
a.Diff(b) succeeds and yields a tree Equal to b. -/
theorem diff_edit_duality_flat (a b : Tree)
    (ha : wfFlat a = true) (hb : wfFlat b = true) :
    ∃ es t', treeDiff a b = .ok es ∧ treeEdit a es = .ok t' ∧
      treeEqual t' b = true := by
  obtain ⟨ra⟩ := a
  obtain ⟨rb⟩ := b
  cases ra with
  | vobj oa =>
    cases rb with
    | vobj ob =>
      obtain ⟨ma, ea⟩ := oa
      obtain ⟨mb, eb⟩ := ob
      have h1 : (ma.isEmpty && keysDistinct ea &&
          ea.all (fun kv => wfDiffKey kv.1 && leafV kv.2)) = true := ha
      have h2 : (mb.isEmpty && keysDistinct eb &&
          eb.all (fun kv => wfDiffKey kv.1 && leafV kv.2)) = true := hb
      simp only [Bool.and_eq_true, List.all_eq_true] at h1 h2
      obtain ⟨⟨hma, hda⟩, halla⟩ := h1
      obtain ⟨⟨hmb, hdb⟩, hallb⟩ := h2
      have hmae : ma = [] := by
        cases ma with
        | nil => rfl
        | cons c r => exact Bool.noConfusion (show false = true from hma)
      have hmbe : mb = [] := by
        cases mb with
        | nil => rfl
        | cons c r => exact Bool.noConfusion (show false = true from hmb)
      subst hmae
      subst hmbe
      have hwfa : ∀ kv ∈ ea, wfDiffKey kv.1 = true ∧ leafV kv.2 = true := by
        intro kv hm
        have h := halla kv hm
        simp only [Bool.and_eq_true] at h
        exact h
      have hwfb : ∀ kv ∈ eb, wfDiffKey kv.1 = true ∧ leafV kv.2 = true := by
        intro kv hm
        have h := hallb kv hm
        simp only [Bool.and_eq_true] at h
        exact h
      have hbleaf : ∀ kv ∈ eb, leafV kv.2 = true :=
        fun kv hm => (hwfb kv hm).2
      obtain ⟨es1, hes1, hedit1⟩ := part1_spec eb hbleaf ea [] hwfa hda
      obtain ⟨es2, hes2, hedit2⟩ := part2_spec ea eb (diffReplace eb ea)
        hwfb hdb (fun kv _ hn => lookup_diffReplace_none kv.1 eb ea hn)
      have hdiff : treeDiff ⟨.vobj (.mk [] ea)⟩ ⟨.vobj (.mk [] eb)⟩
          = .ok (es1 ++ es2) := by
        show odiff (.mk [] ea) (.vobj (.mk [] eb)) ⟨[]⟩ = _
        simp only [odiff, Object.entries]
        rw [hes1]
        simp only [except_bind_ok, pure_bind]
        rw [hes2]
        simp only [except_bind_ok, pure_bind]
        rfl
      have hedit : treeEdit ⟨.vobj (.mk [] ea)⟩ (es1 ++ es2)
          = .ok ⟨.vobj (.mk [] (diffReplace eb ea ++
              eb.filter (fun kv => (lookupKey kv.1 ea).isNone)))⟩ := by
        have h := hedit1 es2
        simp only [List.nil_append] at h
        rw [h]
        exact hedit2
      refine ⟨es1 ++ es2, _, hdiff, hedit, ?_⟩
      show oequal
        (.mk [] (diffReplace eb ea ++
          eb.filter (fun kv => (lookupKey kv.1 ea).isNone)))
        (.mk [] eb) = true
      exact oequal_of_perm _ eb (diffReplace_perm ea eb hda hdb) hdb hbleaf
    | vnull => exact Bool.noConfusion (show false = true from hb)
    | vbool x => exact Bool.noConfusion (show false = true from hb)
    | vempty => exact Bool.noConfusion (show false = true from hb)
    | vi32 x => exact Bool.noConfusion (show false = true from hb)
    | vu32 x => exact Bool.noConfusion (show false = true from hb)
    | vi64 x => exact Bool.noConfusion (show false = true from hb)
    | vu64 x => exact Bool.noConfusion (show false = true from hb)
    | vf64 x => exact Bool.noConfusion (show false = true from hb)
    | vstr x => exact Bool.noConfusion (show false = true from hb)
    | viid x => exact Bool.noConfusion (show false = true from hb)
    | varr x => exact Bool.noConfusion (show false = true from hb)
  | vnull => exact Bool.noConfusion (show false = true from ha)
  | vbool x => exact Bool.noConfusion (show false = true from ha)
  | vempty => exact Bool.noConfusion (show false = true from ha)
  | vi32 x => exact Bool.noConfusion (show false = true from ha)
  | vu32 x => exact Bool.noConfusion (show false = true from ha)
  | vi64 x => exact Bool.noConfusion (show false = true from ha)
  | vu64 x => exact Bool.noConfusion (show false = true from ha)
  | vf64 x => exact Bool.noConfusion (show false = true from ha)
  | vstr x => exact Bool.noConfusion (show false = true from ha)
  | viid x => exact Bool.noConfusion (show false = true from ha)
  | varr x => exact Bool.noConfusion (show false = true from ha)

/-- Witness for the amended C2 on two concrete flat trees sharing one
key (changed value) and each holding one private key. -/
theorem diff_edit_duality_flat_witness :
    wfFlat ⟨.vobj (.mk [] [(gs "m:x", .vu32 1), (gs "m:old", .vbool true)])⟩
      = true ∧
    wfFlat ⟨.vobj (.mk [] [(gs "m:x", .vu32 2), (gs "m:new", .vempty)])⟩
      = true ∧
    ∃ es t',
      treeDiff
        ⟨.vobj (.mk [] [(gs "m:x", .vu32 1), (gs "m:old", .vbool true)])⟩
        ⟨.vobj (.mk [] [(gs "m:x", .vu32 2), (gs "m:new", .vempty)])⟩
        = .ok es ∧
      treeEdit
        ⟨.vobj (.mk [] [(gs "m:x", .vu32 1), (gs "m:old", .vbool true)])⟩
        es = .ok t' ∧
      treeEqual t'
        ⟨.vobj (.mk [] [(gs "m:x", .vu32 2), (gs "m:new", .vempty)])⟩
        = true :=
  ⟨rfl, rfl,
   diff_edit_duality_flat
     ⟨.vobj (.mk [] [(gs "m:x", .vu32 1), (gs "m:old", .vbool true)])⟩
     ⟨.vobj (.mk [] [(gs "m:x", .vu32 2), (gs "m:new", .vempty)])⟩
     rfl rfl⟩

/-- C2 counterexample: when an array shrinks by two elements the diff
emits two positional delete entries computed against the original
tree, but Edit applies them sequentially — after the first delete the
second index is out of range and its delete is a silent no-op, so the
edited tree keeps a stale element and is not Equal to the target. -/
theorem diff_edit_duality_counterexample :
    ∃ es t',
      treeDiff ⟨.vobj (.mk [] [(gs "m:a", .varr (.mk []
          [some (.vu32 1), some (.vu32 2), some (.vu32 3)]))])⟩
        ⟨.vobj (.mk [] [(gs "m:a", .varr (.mk [] [some (.vu32 1)]))])⟩
        = .ok es ∧
      treeEdit ⟨.vobj (.mk [] [(gs "m:a", .varr (.mk []
          [some (.vu32 1), some (.vu32 2), some (.vu32 3)]))])⟩ es
        = .ok t' ∧
      treeEqual t'
        ⟨.vobj (.mk [] [(gs "m:a", .varr (.mk [] [some (.vu32 1)]))])⟩
        = false :=
  ⟨[⟨.delete, ⟨[.mk (gs "m") (gs "a") false (some [.pos 1])]⟩, none⟩,
    ⟨.delete, ⟨[.mk (gs "m") (gs "a") false (some [.pos 2])]⟩, none⟩],
   ⟨.vobj (.mk [] [(gs "m:a",
      .varr (.mk (gs "m") [some (.vu32 1), some (.vu32 3)]))])⟩,
   rfl, rfl, rfl⟩

end Data
